import Mathlib

/-!
# Verification of the RDB core storage and execution subsystem

A shallow embedding, in Lean 4, of the core of the RDB storage engine:

* the slotted-page tuple layout (`src/storage/slotted.rs`), modelled at the
  byte level over a function memory;
* the B+ tree primary-key index (`src/storage/index.rs`), modelled with
  structural nodes (the node byte layout is abstracted into its fields);
* the query executor (`src/query/executor.rs`) over an explicit database
  state.

Machine integers are modelled as `Nat` with explicit `% 2^w` wraparound where
the Rust code performs `as` casts or fixed-width arithmetic.  The zstd
compression library is an external dependency of the engine; it is modelled
by an arbitrary `Codec` whose only assumed property is that decompression
inverts successful compression (the theorems quantify over any such codec,
and witnesses instantiate it with a concrete executable run-length codec).
-/

namespace RDB

/-! ## Byte-addressed memory

`Page.data` in the source is `[u8; PAGE_SIZE]`.  We model the byte buffer as
a total function `Nat → Nat`; writes mask their argument to a byte, reads
mask again so that any memory behaves as bytes. -/

abbrev Mem := Nat → Nat

def memWrite (m : Mem) (a v : Nat) : Mem :=
  fun x => if x = a then v % 256 else m x

def memWriteBytes : Mem → Nat → List Nat → Mem
  | m, _, [] => m
  | m, a, b :: rest => memWriteBytes (memWrite m a b) (a + 1) rest

def readByte (m : Mem) (a : Nat) : Nat := m a % 256

def readBytes (m : Mem) (a n : Nat) : List Nat :=
  (List.range n).map (fun i => readByte m (a + i))

/-- `byteorder::LittleEndian::read_u16`. -/
def readU16 (m : Mem) (a : Nat) : Nat :=
  readByte m a + 256 * readByte m (a + 1)

/-- `byteorder::LittleEndian::write_u16` (stores `v mod 2^16`). -/
def writeU16 (m : Mem) (a v : Nat) : Mem :=
  memWrite (memWrite m a v) (a + 1) (v / 256)

/-- `byteorder::LittleEndian::read_u32`. -/
def readU32 (m : Mem) (a : Nat) : Nat :=
  readByte m a + 256 * readByte m (a + 1) + 65536 * readByte m (a + 2) +
    16777216 * readByte m (a + 3)

/-- `byteorder::LittleEndian::write_u32` (stores `v mod 2^32`). -/
def writeU32 (m : Mem) (a v : Nat) : Mem :=
  memWrite (memWrite (memWrite (memWrite m a v) (a + 1) (v / 256)) (a + 2) (v / 65536))
    (a + 3) (v / 16777216)

/-- Wrapping `u16` subtraction, for `a < 2^16`: the value of `a - b` in Rust
release mode on `u16` operands. -/
def wsub16 (a b : Nat) : Nat := (a + 65536 - b % 65536) % 65536

/-! ### Memory lemmas -/

theorem readByte_memWrite (m : Mem) (a v x : Nat) :
    readByte (memWrite m a v) x = if x = a then v % 256 else readByte m x := by
  unfold readByte memWrite
  split <;> simp [Nat.mod_mod_of_dvd]

theorem readByte_memWrite_self (m : Mem) (a v : Nat) :
    readByte (memWrite m a v) a = v % 256 := by
  simp [readByte_memWrite]

theorem readByte_memWrite_ne (m : Mem) (a v x : Nat) (h : x ≠ a) :
    readByte (memWrite m a v) x = readByte m x := by
  simp [readByte_memWrite, h]

theorem readByte_memWriteBytes_lo (bs : List Nat) (m : Mem) (a x : Nat) (h : x < a) :
    readByte (memWriteBytes m a bs) x = readByte m x := by
  induction bs generalizing m a with
  | nil => rfl
  | cons b rest ih =>
    rw [memWriteBytes, ih _ _ (by omega), readByte_memWrite_ne _ _ _ _ (by omega)]

theorem readByte_memWriteBytes_hi (bs : List Nat) (m : Mem) (a x : Nat)
    (h : a + bs.length ≤ x) :
    readByte (memWriteBytes m a bs) x = readByte m x := by
  induction bs generalizing m a with
  | nil => rfl
  | cons b rest ih =>
    simp only [List.length_cons] at h
    rw [memWriteBytes, ih _ _ (by omega), readByte_memWrite_ne _ _ _ _ (by omega)]

theorem readByte_memWriteBytes_in (bs : List Nat) (m : Mem) (a i : Nat)
    (h : i < bs.length) :
    readByte (memWriteBytes m a bs) (a + i) = bs.get ⟨i, h⟩ % 256 := by
  induction bs generalizing m a i with
  | nil => simp at h
  | cons b rest ih =>
    cases i with
    | zero =>
      rw [memWriteBytes, readByte_memWriteBytes_lo _ _ _ _ (by omega)]
      simpa using readByte_memWrite_self m a b
    | succ j =>
      have : a + (j + 1) = (a + 1) + j := by omega
      rw [memWriteBytes, this, ih]
      rfl

theorem readU16_lt (m : Mem) (a : Nat) : readU16 m a < 65536 := by
  have h0 : m a % 256 < 256 := Nat.mod_lt _ (by omega)
  have h1 : m (a + 1) % 256 < 256 := Nat.mod_lt _ (by omega)
  unfold readU16 readByte
  omega

theorem readU16_writeU16_self (m : Mem) (a v : Nat) :
    readU16 (writeU16 m a v) a = v % 65536 := by
  unfold readU16 writeU16
  rw [readByte_memWrite_ne _ _ _ _ (by omega), readByte_memWrite_self,
    readByte_memWrite_self]
  have h := Nat.mod_mod_of_dvd v (by norm_num : (256 : ℕ) ∣ 65536)
  have h2 : v % 65536 = v % 65536 % 256 + 256 * (v % 65536 / 256) :=
    (Nat.mod_add_div _ _).symm
  have h3 : v % 65536 / 256 = v / 256 % 256 := by
    have := Nat.mod_mul_right_div_self v 256 256
    simpa using this
  omega

theorem readU16_congr {m1 m2 : Mem} {a : Nat}
    (h0 : readByte m1 a = readByte m2 a) (h1 : readByte m1 (a + 1) = readByte m2 (a + 1)) :
    readU16 m1 a = readU16 m2 a := by
  unfold readU16; rw [h0, h1]

theorem readU32_congr {m1 m2 : Mem} {a : Nat}
    (h0 : readByte m1 a = readByte m2 a) (h1 : readByte m1 (a + 1) = readByte m2 (a + 1))
    (h2 : readByte m1 (a + 2) = readByte m2 (a + 2))
    (h3 : readByte m1 (a + 3) = readByte m2 (a + 3)) :
    readU32 m1 a = readU32 m2 a := by
  unfold readU32; rw [h0, h1, h2, h3]

theorem readBytes_congr {m1 m2 : Mem} {a n : Nat}
    (h : ∀ i, i < n → readByte m1 (a + i) = readByte m2 (a + i)) :
    readBytes m1 a n = readBytes m2 a n := by
  unfold readBytes
  exact List.map_congr_left fun i hi => h i (List.mem_range.mp hi)

theorem readBytes_length (m : Mem) (a n : Nat) : (readBytes m a n).length = n := by
  simp [readBytes]

theorem readBytes_memWriteBytes_self (bs : List Nat) (m : Mem) (a : Nat)
    (hb : ∀ b ∈ bs, b < 256) :
    readBytes (memWriteBytes m a bs) a bs.length = bs := by
  apply List.ext_get (by simp [readBytes])
  intro i h1 h2
  simp only [readBytes, List.get_eq_getElem, List.getElem_map, List.getElem_range]
  have hi : i < bs.length := by simpa [readBytes] using h1
  rw [readByte_memWriteBytes_in bs m a i hi, List.get_eq_getElem]
  exact Nat.mod_eq_of_lt (hb _ (List.getElem_mem hi))

/-- `readU16` is unaffected by a `memWrite` at a different byte. -/
theorem readU16_memWrite_ne (m : Mem) (x v a : Nat) (h1 : a ≠ x) (h2 : a + 1 ≠ x) :
    readU16 (memWrite m x v) a = readU16 m a :=
  readU16_congr (readByte_memWrite_ne _ _ _ _ h1) (readByte_memWrite_ne _ _ _ _ h2)

/-- `readU16` at `a` is unaffected by a `writeU16` at `x` when the two-byte
regions are disjoint. -/
theorem readU16_writeU16_ne (m : Mem) (x v a : Nat) (h : a + 1 < x ∨ x + 1 < a) :
    readU16 (writeU16 m x v) a = readU16 m a := by
  unfold writeU16
  rw [readU16_memWrite_ne _ _ _ _ (by omega) (by omega),
    readU16_memWrite_ne _ _ _ _ (by omega) (by omega)]

/-! ## Codec: the zstd dependency

`src/storage/slotted.rs` calls `zstd::encode_all` / `zstd::decode_all`.  zstd
is an external library; we model it as an arbitrary pair of byte-level
functions.  `compress` returns `none` where `encode_all` returns `Err`,
`decompress` returns `none` where `decode_all` returns `Err`.  The only
property the engine relies on is that decompression inverts successful
compression and produces bytes. -/

structure Codec where
  compress : List Nat → Option (List Nat)
  decompress : List Nat → Option (List Nat)

/-- A codec is lawful when decompression inverts compression and compressed
output consists of bytes. -/
def Codec.Lawful (C : Codec) : Prop :=
  ∀ bs out, C.compress bs = some out → C.decompress out = some bs ∧ ∀ b ∈ out, b < 256

/-- A concrete executable codec used by witnesses: it compresses a nonempty
run of a single repeated byte (shorter than 256) to a two-byte
`[byte, count]` form and refuses everything else.  It really shrinks long
runs, so it exercises the `flag = 1` storage path. -/
def runCodec : Codec where
  compress bs :=
    match bs with
    | [] => none
    | b :: rest =>
      if b < 256 ∧ rest.all (· = b) ∧ bs.length < 256 then some [b, bs.length] else none
  decompress bs :=
    match bs with
    | [b, n] => some (List.replicate n b)
    | _ => none

theorem all_eq_replicate (b : Nat) :
    ∀ l : List Nat, l.all (· = b) = true → l = List.replicate l.length b
  | [], _ => rfl
  | x :: xs, h => by
    simp only [List.all_cons, Bool.and_eq_true, decide_eq_true_eq] at h
    rw [List.length_cons, List.replicate_succ, h.1, ← all_eq_replicate b xs h.2]

theorem runCodec_lawful : Codec.Lawful runCodec := by
  intro bs out h
  match bs with
  | [] => simp [runCodec] at h
  | b :: rest =>
    simp only [runCodec] at h
    split at h
    · rename_i hcond
      obtain ⟨hb, hall, hlen⟩ := hcond
      cases h
      refine ⟨?_, ?_⟩
      · show runCodec.decompress [b, (b :: rest).length] = some (b :: rest)
        have hrest : rest = List.replicate rest.length b := all_eq_replicate b rest hall
        simp only [runCodec, List.length_cons]
        rw [List.replicate_succ, ← hrest]
      · intro x hx
        simp only [List.mem_cons, List.not_mem_nil, or_false] at hx
        rcases hx with rfl | rfl
        · exact hb
        · exact hlen
    · cases h

/-! ## Page and the slotted-page layout (`src/storage/slotted.rs`)

`Page` carries an id, a byte buffer and the in-memory `dirty` flag
(`src/storage/page.rs`).  Constants as in the source. -/

def PAGE_SIZE : Nat := 8192

structure Page where
  id : Nat
  data : Mem
  dirty : Bool

/-- `Page::new`: zero-filled buffer, clean. -/
def Page.new (id : Nat) : Page := ⟨id, fun _ => 0, false⟩

namespace SlottedPage

def HEADER_SIZE : Nat := 8
def SLOT_SIZE : Nat := 4
def COMPRESSION_THRESHOLD : Nat := 64

def num_slots (p : Page) : Nat := readU16 p.data 0

def set_num_slots (p : Page) (v : Nat) : Page :=
  { p with data := writeU16 p.data 0 v, dirty := true }

def free_space_end (p : Page) : Nat := readU16 p.data 2

def set_free_space_end (p : Page) (v : Nat) : Page :=
  { p with data := writeU16 p.data 2 v, dirty := true }

def next_page_id (p : Page) : Nat := readU32 p.data 4

def set_next_page_id (p : Page) (v : Nat) : Page :=
  { p with data := writeU32 p.data 4 v, dirty := true }

def init (p : Page) : Page :=
  set_next_page_id (set_free_space_end (set_num_slots p 0) PAGE_SIZE) 0

def free_space (p : Page) : Nat :=
  let headerEnd := HEADER_SIZE + num_slots p * SLOT_SIZE
  let dataStart := free_space_end p
  if headerEnd ≤ dataStart then dataStart - headerEnd else 0

/-- Byte offset of slot `i`'s directory entry. -/
def slotPos (i : Nat) : Nat := HEADER_SIZE + i * SLOT_SIZE

/-- First phase of `compact`: collect `(slot_id, payload)` for every slot with
nonzero offset and length whose payload lies inside the page. -/
def collectValid (p : Page) : List (Nat × List Nat) :=
  (List.range (num_slots p)).filterMap fun i =>
    if readU16 p.data (slotPos i) ≠ 0 ∧ readU16 p.data (slotPos i + 2) ≠ 0 ∧
        readU16 p.data (slotPos i) + readU16 p.data (slotPos i + 2) ≤ PAGE_SIZE then
      some (i, readBytes p.data (readU16 p.data (slotPos i))
        (readU16 p.data (slotPos i + 2)))
    else none

/-- Second phase of `compact`: re-write the collected tuples tightly packed
from the end of the page, updating each slot's offset (length unchanged). -/
def compactWrite : Page → List (Nat × List Nat) → Page
  | p, [] => p
  | p, (slotId, bs) :: rest =>
    let freeEnd := free_space_end p
    let newOffset := wsub16 freeEnd bs.length
    let p1 : Page := { p with data := memWriteBytes p.data newOffset bs }
    let p2 := set_free_space_end p1 newOffset
    let p3 : Page := { p2 with data := writeU16 p2.data (slotPos slotId) newOffset }
    compactWrite p3 rest

/-- `SlottedPage::compact`. -/
def compact (p : Page) : Page :=
  let valid := collectValid p
  compactWrite (set_free_space_end p PAGE_SIZE) valid

/-- The compression step shared by `insert_tuple` and `update_tuple`:
returns `(flag, final_data)`. -/
def mkFinal (C : Codec) (data : List Nat) : Nat × List Nat :=
  if data.length > COMPRESSION_THRESHOLD then
    match C.compress data with
    | some compressed =>
      if compressed.length < data.length then (1, compressed) else (0, data)
    | none => (0, data)
  else (0, data)

/-- The stored payload of a tuple: flag byte followed by the final data. -/
def storedOf (C : Codec) (data : List Nat) : List Nat :=
  (mkFinal C data).1 :: (mkFinal C data).2

/-- Core of `insert_tuple` after the space check: write flag and data at the
new free-space frontier, update the slot directory and `num_slots`. -/
def writeTuple (p : Page) (slotId : Nat) (flag : Nat) (finalData : List Nat) : Page :=
  let freeEnd := free_space_end p
  let newOffset := wsub16 freeEnd (finalData.length + 1)
  let d1 := memWrite p.data newOffset flag
  let d2 := memWriteBytes d1 (newOffset + 1) finalData
  let p1 := set_free_space_end { p with data := d2 } newOffset
  let d3 := writeU16 p1.data (slotPos slotId) newOffset
  let d4 := writeU16 d3 (slotPos slotId + 2) (finalData.length + 1)
  { p1 with data := d4 }

/-- `SlottedPage::insert_tuple`.  Returns the new slot id; on `PageFull` the
error together with the (possibly compacted) page. -/
def insert_tuple (C : Codec) (p : Page) (data : List Nat) : Except String Nat × Page :=
  let fd := mkFinal C data
  let required := fd.2.length + 1 + SLOT_SIZE
  let p := if free_space p < required then compact p else p
  if free_space p < required then (.error "Not enough space on page", p)
  else
    let n := num_slots p
    let p' := writeTuple p n fd.1 fd.2
    (.ok n, set_num_slots p' (n + 1))

/-- `SlottedPage::update_tuple`: always writes a new copy; `num_slots`
unchanged. -/
def update_tuple (C : Codec) (p : Page) (slotId : Nat) (data : List Nat) :
    Except String Unit × Page :=
  if slotId ≥ num_slots p then (.error "Invalid slot ID", p)
  else
    let fd := mkFinal C data
    let required := fd.2.length + 1
    let p := if free_space p < required then compact p else p
    if free_space p < required then (.error "Not enough space on page for update", p)
    else (.ok (), writeTuple p slotId fd.1 fd.2)

/-- `SlottedPage::mark_deleted`: zero the slot's offset and length.  Note the
raw writes: the page's `dirty` flag is not touched. -/
def mark_deleted (p : Page) (slotId : Nat) : Except String Unit × Page :=
  if slotId ≥ num_slots p then (.error "Invalid slot ID", p)
  else
    let d1 := writeU16 p.data (slotPos slotId) 0
    let d2 := writeU16 d1 (slotPos slotId + 2) 0
    (.ok (), { p with data := d2 })

/-- Interpretation of a stored payload as `get_tuple` reads it back. -/
def interpStored (C : Codec) (raw : List Nat) : Option (List Nat) :=
  match raw with
  | [] => some []
  | flag :: content => if flag = 1 then C.decompress content else some content

/-- `SlottedPage::get_tuple`. -/
def get_tuple (C : Codec) (p : Page) (slotId : Nat) : Option (List Nat) :=
  if slotId ≥ num_slots p then none
  else
    let tupleOffset := readU16 p.data (slotPos slotId)
    let tupleLen := readU16 p.data (slotPos slotId + 2)
    if tupleOffset = 0 then none
    else if tupleOffset + tupleLen > PAGE_SIZE then none
    else interpStored C (readBytes p.data tupleOffset tupleLen)

end SlottedPage

/-! ### Properties of the compression step and of `writeTuple` -/

namespace SlottedPage

theorem wsub16_eq (a b : Nat) (hb : b ≤ a) (ha : a < 65536) : wsub16 a b = a - b := by
  unfold wsub16
  have hb' : b % 65536 = b := Nat.mod_eq_of_lt (lt_of_le_of_lt hb ha)
  rw [hb']
  omega

theorem mkFinal_len_le (C : Codec) (data : List Nat) :
    (mkFinal C data).2.length ≤ data.length := by
  unfold mkFinal
  split
  · split
    · split <;> (simp_all; try omega)
    · simp
  · simp

theorem mkFinal_flag_lt (C : Codec) (data : List Nat) : (mkFinal C data).1 < 256 := by
  unfold mkFinal
  split
  · split
    · split <;> simp
    · simp
  · simp

theorem mkFinal_bytes_lt (C : Codec) (hC : C.Lawful) (data : List Nat)
    (hb : ∀ b ∈ data, b < 256) : ∀ b ∈ (mkFinal C data).2, b < 256 := by
  unfold mkFinal
  split
  · rcases hcomp : C.compress data with _ | compressed
    · simpa using hb
    · simp only [hcomp]
      split
      · exact fun b hb2 => ((hC data compressed hcomp).2) b hb2
      · simpa using hb
  · simpa using hb

/-- Reading back a stored payload recovers the original data. -/
theorem interpStored_storedOf (C : Codec) (hC : C.Lawful) (data : List Nat) :
    interpStored C (storedOf C data) = some data := by
  have hred : interpStored C (storedOf C data) =
      if (mkFinal C data).1 = 1 then C.decompress (mkFinal C data).2
      else some (mkFinal C data).2 := rfl
  rw [hred]
  unfold mkFinal
  split
  · rcases hcomp : C.compress data with _ | compressed
    · simp
    · simp only [hcomp]
      split
      · simpa using (hC data compressed hcomp).1
      · simp
  · simp

theorem readBytes_succ (m : Mem) (a n : Nat) :
    readBytes m a (n + 1) = readByte m a :: readBytes m (a + 1) n := by
  unfold readBytes
  rw [List.range_succ_eq_map]
  simp only [List.map_cons, List.map_map, Nat.add_zero]
  congr 1
  apply List.map_congr_left
  intro i _
  have h : a + Nat.succ i = a + 1 + i := by omega
  simp [Function.comp, h]

/-- Full characterization of `writeTuple` under the geometric side conditions
that the space check of `insert_tuple`/`update_tuple` guarantees. -/
theorem writeTuple_spec (p : Page) (sid flag : Nat) (final : List Nat)
    (hflag : flag < 256) (hfb : ∀ b ∈ final, b < 256)
    (hdir : slotPos sid + SLOT_SIZE + (final.length + 1) ≤ free_space_end p) :
    let fse := free_space_end p
    let newOff := fse - (final.length + 1)
    let p' := writeTuple p sid flag final
    p'.dirty = true ∧
    free_space_end p' = newOff ∧
    readU16 p'.data (slotPos sid) = newOff ∧
    readU16 p'.data (slotPos sid + 2) = final.length + 1 ∧
    readBytes p'.data newOff (final.length + 1) = flag :: final ∧
    (∀ a, (a < newOff ∨ fse ≤ a) → a ≠ 2 → a ≠ 3 →
      (a < slotPos sid ∨ slotPos sid + SLOT_SIZE ≤ a) →
      readByte p'.data a = readByte p.data a) := by
  intro fse newOff p'
  have hfse_lt : fse < 65536 := readU16_lt _ _
  have hL_le : final.length + 1 ≤ fse := by
    have := hdir; unfold slotPos SLOT_SIZE HEADER_SIZE at this; omega
  have hsp8 : 8 ≤ slotPos sid := by unfold slotPos HEADER_SIZE; omega
  have hdir_lt : slotPos sid + SLOT_SIZE ≤ newOff := by
    show slotPos sid + SLOT_SIZE ≤ fse - (final.length + 1)
    omega
  have hnewOff : wsub16 fse (final.length + 1) = newOff :=
    wsub16_eq _ _ hL_le hfse_lt
  have hnewOff_lt : newOff < 65536 := by omega
  have hSS : SLOT_SIZE = 4 := rfl
  -- unfold the writes
  show let freeEnd := free_space_end p
    let nOff := wsub16 freeEnd (final.length + 1)
    let d1 := memWrite p.data nOff flag
    let d2 := memWriteBytes d1 (nOff + 1) final
    let p1 := set_free_space_end { p with data := d2 } nOff
    let d3 := writeU16 p1.data (slotPos sid) nOff
    let d4 := writeU16 d3 (slotPos sid + 2) (final.length + 1)
    let q : Page := { p1 with data := d4 }
    q.dirty = true ∧ free_space_end q = newOff ∧
    readU16 q.data (slotPos sid) = newOff ∧
    readU16 q.data (slotPos sid + 2) = final.length + 1 ∧
    readBytes q.data newOff (final.length + 1) = flag :: final ∧
    (∀ a, (a < newOff ∨ fse ≤ a) → a ≠ 2 → a ≠ 3 →
      (a < slotPos sid ∨ slotPos sid + SLOT_SIZE ≤ a) →
      readByte q.data a = readByte p.data a)
  intro freeEnd nOff d1 d2 p1 d3 d4 q
  have hno : nOff = newOff := hnewOff
  -- byte view of d2: the payload region holds flag :: final, elsewhere p.data
  have hd2_out : ∀ a, a < newOff ∨ fse ≤ a → readByte d2 a = readByte p.data a := by
    intro a ha
    show readByte (memWriteBytes d1 (nOff + 1) final) a = readByte p.data a
    rcases ha with ha | ha
    · rw [readByte_memWriteBytes_lo _ _ _ _ (by omega)]
      exact readByte_memWrite_ne _ _ _ _ (by omega)
    · rw [readByte_memWriteBytes_hi _ _ _ _ (by omega)]
      exact readByte_memWrite_ne _ _ _ _ (by omega)
  have hd2_pay : readBytes d2 newOff (final.length + 1) = flag :: final := by
    show readBytes (memWriteBytes d1 (nOff + 1) final) newOff (final.length + 1) =
      flag :: final
    rw [readBytes_succ]
    congr 1
    · rw [readByte_memWriteBytes_lo _ _ _ _ (by omega)]
      show readByte (memWrite p.data nOff flag) newOff = flag
      rw [hno, readByte_memWrite_self]
      exact Nat.mod_eq_of_lt hflag
    · rw [show newOff + 1 = nOff + 1 by omega,
        show final.length = final.length from rfl]
      exact readBytes_memWriteBytes_self final d1 (nOff + 1) hfb
  -- byte view of d4 relative to d2
  have hd4_frame : ∀ a, a ≠ 2 → a ≠ 3 →
      (a < slotPos sid ∨ slotPos sid + SLOT_SIZE ≤ a) →
      readByte d4 a = readByte d2 a := by
    intro a h2 h3 hslot
    show readByte (writeU16 (writeU16 (writeU16 d2 2 nOff) (slotPos sid) nOff)
      (slotPos sid + 2) (final.length + 1)) a = readByte d2 a
    unfold writeU16
    rw [readByte_memWrite_ne _ _ _ _ (by omega), readByte_memWrite_ne _ _ _ _ (by omega),
      readByte_memWrite_ne _ _ _ _ (by omega), readByte_memWrite_ne _ _ _ _ (by omega),
      readByte_memWrite_ne _ _ _ _ (by omega), readByte_memWrite_ne _ _ _ _ (by omega)]
  refine ⟨rfl, ?_, ?_, ?_, ?_, ?_⟩
  · show readU16 d4 2 = newOff
    show readU16 (writeU16 (writeU16 (writeU16 d2 2 nOff) (slotPos sid) nOff)
      (slotPos sid + 2) (final.length + 1)) 2 = newOff
    rw [readU16_writeU16_ne _ _ _ _ (by omega), readU16_writeU16_ne _ _ _ _ (by omega),
      readU16_writeU16_self, hno]
    exact Nat.mod_eq_of_lt hnewOff_lt
  · show readU16 d4 (slotPos sid) = newOff
    show readU16 (writeU16 (writeU16 (writeU16 d2 2 nOff) (slotPos sid) nOff)
      (slotPos sid + 2) (final.length + 1)) (slotPos sid) = newOff
    rw [readU16_writeU16_ne _ _ _ _ (by omega), readU16_writeU16_self, hno]
    exact Nat.mod_eq_of_lt hnewOff_lt
  · show readU16 d4 (slotPos sid + 2) = final.length + 1
    show readU16 (writeU16 (writeU16 (writeU16 d2 2 nOff) (slotPos sid) nOff)
      (slotPos sid + 2) (final.length + 1)) (slotPos sid + 2) = final.length + 1
    rw [readU16_writeU16_self]
    exact Nat.mod_eq_of_lt (by omega)
  · show readBytes d4 newOff (final.length + 1) = flag :: final
    rw [← hd2_pay]
    apply readBytes_congr
    intro i hi
    exact hd4_frame _ (by omega) (by omega) (by omega)
  · intro a ha h2 h3 hslot
    show readByte d4 a = readByte p.data a
    rw [hd4_frame a h2 h3 hslot]
    exact hd2_out a ha

/-! ### The slotted-page invariant

`ref` is the logical content of the page: one entry per slot, `none` for a
tombstone, `some pl` for a live slot whose stored payload (flag byte
included) is `pl`. -/

abbrev RefSlots := List (Option (List Nat))

def entrySize : Option (List Nat) → Nat
  | none => 0
  | some pl => pl.length

def sumLive (ref : RefSlots) : Nat := (ref.map entrySize).sum

def SlotOk (p : Page) (i : Nat) : Option (List Nat) → Prop
  | none => readU16 p.data (slotPos i) = 0 ∧ readU16 p.data (slotPos i + 2) = 0
  | some pl =>
      readU16 p.data (slotPos i) ≠ 0 ∧
      readU16 p.data (slotPos i + 2) = pl.length ∧
      free_space_end p ≤ readU16 p.data (slotPos i) ∧
      readU16 p.data (slotPos i) + pl.length ≤ PAGE_SIZE ∧
      pl ≠ [] ∧ (∀ b ∈ pl, b < 256) ∧
      readBytes p.data (readU16 p.data (slotPos i)) pl.length = pl

structure Inv (p : Page) (ref : RefSlots) : Prop where
  numEq : num_slots p = ref.length
  fseLe : free_space_end p ≤ PAGE_SIZE
  hdrLe : HEADER_SIZE + ref.length * SLOT_SIZE ≤ free_space_end p
  sumLe : sumLive ref + free_space_end p ≤ PAGE_SIZE
  slots : ∀ i (h : i < ref.length), SlotOk p i (ref.get ⟨i, h⟩)

theorem Inv.len_le (h : Inv p ref) : ref.length ≤ 2046 := by
  have h1 := h.hdrLe
  have h2 := h.fseLe
  unfold HEADER_SIZE SLOT_SIZE PAGE_SIZE at *
  omega

/-- Under the invariant, `get_tuple` returns the interpretation of the
logical entry. -/
theorem get_tuple_of_inv (C : Codec) (p : Page) (ref : RefSlots) (hInv : Inv p ref)
    (i : Nat) :
    get_tuple C p i = (ref.getD i none).bind (interpStored C) := by
  have hgoal : get_tuple C p i =
      if i ≥ num_slots p then none
      else if readU16 p.data (slotPos i) = 0 then none
      else if readU16 p.data (slotPos i) + readU16 p.data (slotPos i + 2) > PAGE_SIZE then
        none
      else
        interpStored C
          (readBytes p.data (readU16 p.data (slotPos i)) (readU16 p.data (slotPos i + 2))) :=
    rfl
  rw [hgoal, hInv.numEq]
  by_cases hi : i < ref.length
  · rw [if_neg (by omega)]
    have hget : ref.getD i none = ref.get ⟨i, hi⟩ := by
      rw [List.getD_eq_getElem?_getD, List.getElem?_eq_getElem hi]
      rfl
    rw [hget]
    have hok := hInv.slots i hi
    rcases hE : ref.get ⟨i, hi⟩ with _ | pl
    · rw [hE] at hok
      unfold SlotOk at hok
      simp [hok.1]
    · rw [hE] at hok
      unfold SlotOk at hok
      obtain ⟨hne, hlen, _, hbound, _, _, hread⟩ := hok
      rw [if_neg hne, hlen, if_neg (by omega), hread]
      rfl
  · rw [if_pos (by omega)]
    have hnone : ref.getD i none = none := List.getD_eq_default _ _ (le_of_not_lt hi)
    rw [hnone]
    rfl

/-- `init` establishes the invariant with empty logical content, and marks
the page dirty. -/
theorem init_inv (p : Page) : Inv (init p) [] ∧ (init p).dirty = true := by
  have hnum : num_slots (init p) = 0 := by
    show readU16 (writeU32 (writeU16 (writeU16 p.data 0 0) 2 8192) 4 0) 0 = 0
    unfold writeU32
    rw [readU16_memWrite_ne _ _ _ _ (by omega) (by omega),
      readU16_memWrite_ne _ _ _ _ (by omega) (by omega),
      readU16_memWrite_ne _ _ _ _ (by omega) (by omega),
      readU16_memWrite_ne _ _ _ _ (by omega) (by omega),
      readU16_writeU16_ne _ _ _ _ (by omega), readU16_writeU16_self]
  have hfse : free_space_end (init p) = PAGE_SIZE := by
    show readU16 (writeU32 (writeU16 (writeU16 p.data 0 0) 2 8192) 4 0) 2 = 8192
    unfold writeU32
    rw [readU16_memWrite_ne _ _ _ _ (by omega) (by omega),
      readU16_memWrite_ne _ _ _ _ (by omega) (by omega),
      readU16_memWrite_ne _ _ _ _ (by omega) (by omega),
      readU16_memWrite_ne _ _ _ _ (by omega) (by omega),
      readU16_writeU16_self]
  refine ⟨⟨?_, ?_, ?_, ?_, ?_⟩, rfl⟩
  · simpa using hnum
  · rw [hfse]
  · rw [hfse]; simp [HEADER_SIZE, SLOT_SIZE, PAGE_SIZE]
  · rw [hfse]; simp [sumLive]
  · intro i h
    simp at h

theorem sumLive_cons (e : Option (List Nat)) (rest : RefSlots) :
    sumLive (e :: rest) = entrySize e + sumLive rest := by
  simp [sumLive]

theorem sumLive_set_none_le (ref : RefSlots) (i : Nat) :
    sumLive (ref.set i none) ≤ sumLive ref := by
  induction ref generalizing i with
  | nil => simp [sumLive]
  | cons e rest ih =>
    cases i with
    | zero =>
      rw [List.set_cons_zero, sumLive_cons, sumLive_cons]
      have : entrySize (none : Option (List Nat)) = 0 := rfl
      omega
    | succ j =>
      rw [List.set_cons_succ, sumLive_cons, sumLive_cons]
      exact Nat.add_le_add_left (ih j) _

/-- `mark_deleted` on a valid slot id: zeroes exactly the four directory
bytes of that slot, touches nothing else, and leaves `dirty` unchanged. -/
theorem mark_deleted_frame (p : Page) (i : Nat) (hi : i < num_slots p) :
    ∃ p', mark_deleted p i = (.ok (), p') ∧
      p'.dirty = p.dirty ∧ p'.id = p.id ∧
      (∀ a, slotPos i ≤ a → a < slotPos i + SLOT_SIZE → readByte p'.data a = 0) ∧
      (∀ a, a < slotPos i ∨ slotPos i + SLOT_SIZE ≤ a →
        readByte p'.data a = readByte p.data a) := by
  refine ⟨(mark_deleted p i).2, ?_, ?_, ?_, ?_, ?_⟩
  · unfold mark_deleted
    rw [if_neg (by omega)]
  · unfold mark_deleted
    rw [if_neg (by omega)]
  · unfold mark_deleted
    rw [if_neg (by omega)]
  · intro a ha1 ha2
    unfold mark_deleted
    rw [if_neg (by omega)]
    show readByte (writeU16 (writeU16 p.data (slotPos i) 0) (slotPos i + 2) 0) a = 0
    unfold writeU16
    unfold SLOT_SIZE at ha2
    by_cases h0 : a = slotPos i
    · rw [readByte_memWrite_ne _ _ _ _ (by omega), readByte_memWrite_ne _ _ _ _ (by omega),
        h0, readByte_memWrite_ne _ _ _ _ (by omega), readByte_memWrite_self]
    · by_cases h1 : a = slotPos i + 1
      · rw [readByte_memWrite_ne _ _ _ _ (by omega), readByte_memWrite_ne _ _ _ _ (by omega),
          h1, readByte_memWrite_self]
      · by_cases h2 : a = slotPos i + 2
        · rw [readByte_memWrite_ne _ _ _ _ (by omega), h2, readByte_memWrite_self]
        · have h3 : a = slotPos i + 3 := by omega
          rw [h3, readByte_memWrite_self]
  · intro a ha
    unfold mark_deleted
    rw [if_neg (by omega)]
    show readByte (writeU16 (writeU16 p.data (slotPos i) 0) (slotPos i + 2) 0) a =
      readByte p.data a
    unfold writeU16 SLOT_SIZE at *
    rw [readByte_memWrite_ne _ _ _ _ (by omega), readByte_memWrite_ne _ _ _ _ (by omega),
      readByte_memWrite_ne _ _ _ _ (by omega), readByte_memWrite_ne _ _ _ _ (by omega)]

/-- `mark_deleted` preserves the invariant, tombstoning the slot. -/
theorem mark_deleted_inv (p : Page) (ref : RefSlots) (hInv : Inv p ref) (i : Nat)
    (hi : i < ref.length) :
    Inv (mark_deleted p i).2 (ref.set i none) ∧
    (mark_deleted p i).1 = .ok () ∧ (mark_deleted p i).2.dirty = p.dirty := by
  have hnum : i < num_slots p := by rw [hInv.numEq]; exact hi
  obtain ⟨p', heq, hdirty, _, hzero, hframe⟩ := mark_deleted_frame p i hnum
  have hsp8 : 8 ≤ slotPos i := by unfold slotPos HEADER_SIZE; omega
  have hspN : slotPos i + SLOT_SIZE ≤ HEADER_SIZE + ref.length * SLOT_SIZE := by
    unfold slotPos HEADER_SIZE SLOT_SIZE at *
    omega
  have hnum' : num_slots p' = num_slots p := by
    apply readU16_congr <;> exact hframe _ (by omega)
  have hfse' : free_space_end p' = free_space_end p := by
    apply readU16_congr <;> exact hframe _ (by omega)
  rw [heq]
  refine ⟨⟨?_, ?_, ?_, ?_, ?_⟩, rfl, hdirty⟩
  · rw [hnum', hInv.numEq, List.length_set]
  · rw [hfse']; exact hInv.fseLe
  · rw [hfse', List.length_set]; exact hInv.hdrLe
  · rw [hfse']
    have := sumLive_set_none_le ref i
    have := hInv.sumLe
    omega
  · intro j hj
    have hjr : j < ref.length := by simpa using hj
    by_cases hij : j = i
    · subst hij
      have hget : (ref.set j none).get ⟨j, hj⟩ = none := by
        simp [List.get_eq_getElem, List.getElem_set_self]
      rw [hget]
      unfold SlotOk
      constructor
      · unfold readU16
        rw [hzero _ (by omega) (by unfold SLOT_SIZE; omega),
          hzero _ (by omega) (by unfold SLOT_SIZE; omega)]
      · unfold readU16
        rw [hzero _ (by omega) (by unfold SLOT_SIZE; omega),
          hzero _ (by omega) (by unfold SLOT_SIZE; omega)]
    · have hget : (ref.set i none).get ⟨j, hj⟩ = ref.get ⟨j, hjr⟩ := by
        simp [List.get_eq_getElem, List.getElem_set_ne (fun h => hij h.symm)]
      rw [hget]
      have hok := hInv.slots j hjr
      have hspj : slotPos j + SLOT_SIZE ≤ slotPos i ∨ slotPos i + SLOT_SIZE ≤ slotPos j := by
        unfold slotPos SLOT_SIZE at *
        rcases Nat.lt_or_ge j i with h | h
        · left; omega
        · right; omega
      have hdirU16 : ∀ a, slotPos j ≤ a → a + 1 < slotPos j + SLOT_SIZE →
          readU16 p'.data a = readU16 p.data a := by
        intro a h1 h2
        apply readU16_congr <;> [skip; skip] <;>
          exact hframe _ (by unfold SLOT_SIZE at *; omega)
      have hoff : readU16 p'.data (slotPos j) = readU16 p.data (slotPos j) :=
        hdirU16 _ (le_refl _) (by unfold SLOT_SIZE; omega)
      have hlen2 : readU16 p'.data (slotPos j + 2) = readU16 p.data (slotPos j + 2) :=
        hdirU16 _ (by omega) (by unfold SLOT_SIZE; omega)
      rcases hE : ref.get ⟨j, hjr⟩ with _ | pl
      · rw [hE] at hok
        unfold SlotOk at hok ⊢
        exact ⟨by rw [hoff]; exact hok.1, by rw [hlen2]; exact hok.2⟩
      · rw [hE] at hok
        unfold SlotOk at hok ⊢
        obtain ⟨h1, h2, h3, h4, h5, h6, h7⟩ := hok
        have hpay : readBytes p'.data (readU16 p.data (slotPos j)) pl.length =
            readBytes p.data (readU16 p.data (slotPos j)) pl.length := by
          apply readBytes_congr
          intro k hk
          apply hframe
          have hfse_ge : HEADER_SIZE + ref.length * SLOT_SIZE ≤ free_space_end p :=
            hInv.hdrLe
          right
          unfold slotPos SLOT_SIZE HEADER_SIZE at *
          omega
        exact ⟨by rw [hoff]; exact h1, by rw [hlen2]; exact h2,
          by rw [hoff, hfse']; exact h3, by rw [hoff]; exact h4, h5, h6,
          by rw [hoff, hpay]; exact h7⟩


/-! ### `compact` preserves the logical content -/

def listPayloadSum (es : List (Nat × List Nat)) : Nat :=
  (es.map (fun e => e.2.length)).sum

theorem listPayloadSum_cons (e : Nat × List Nat) (es : List (Nat × List Nat)) :
    listPayloadSum (e :: es) = e.2.length + listPayloadSum es := by
  simp [listPayloadSum]

theorem getD_eq_get (ref : RefSlots) (i : Nat) (h : i < ref.length) :
    ref.getD i none = ref.get ⟨i, h⟩ := by
  rw [List.getD_eq_getElem?_getD, List.getElem?_eq_getElem h]
  rfl

/-- Soundness of `collectValid` under the invariant. -/
theorem collectValid_sound (p : Page) (ref : RefSlots) (hInv : Inv p ref) :
    ∀ i pl, (i, pl) ∈ collectValid p → i < ref.length ∧ ref.getD i none = some pl := by
  intro i pl hmem
  unfold collectValid at hmem
  rw [List.mem_filterMap] at hmem
  obtain ⟨j, hj, hcond⟩ := hmem
  rw [List.mem_range, hInv.numEq] at hj
  split at hcond
  · rename_i hprops
    cases hcond
    refine ⟨hj, ?_⟩
    have hok := hInv.slots i hj
    have hgetD := getD_eq_get ref i hj
    rcases hE : ref.get ⟨i, hj⟩ with _ | pl0
    · rw [hE] at hok
      unfold SlotOk at hok
      exact absurd hok.1 hprops.1
    · rw [hE] at hok
      unfold SlotOk at hok
      obtain ⟨_, hlen, _, _, _, _, hread⟩ := hok
      rw [hgetD, hE, hlen, hread]
  · cases hcond

/-- Completeness of `collectValid` under the invariant. -/
theorem collectValid_complete (p : Page) (ref : RefSlots) (hInv : Inv p ref) :
    ∀ i (h : i < ref.length) pl, ref.get ⟨i, h⟩ = some pl → (i, pl) ∈ collectValid p := by
  intro i h pl hE
  have hok := hInv.slots i h
  rw [hE] at hok
  unfold SlotOk at hok
  obtain ⟨hne, hlen, _, hbound, hnil, _, hread⟩ := hok
  unfold collectValid
  rw [List.mem_filterMap]
  refine ⟨i, by rw [List.mem_range, hInv.numEq]; exact h, ?_⟩
  rw [if_pos ⟨hne, by rw [hlen]; simpa using hnil, by rw [hlen]; omega⟩]
  rw [hlen, hread]

theorem nodup_filterMap_fst {α : Type} (f : Nat → Option (Nat × α))
    (hfst : ∀ i y, f i = some y → y.1 = i) :
    ∀ l : List Nat, l.Nodup → ((l.filterMap f).map Prod.fst).Nodup := by
  intro l hl
  induction l with
  | nil => simp
  | cons x xs ih =>
    rw [List.filterMap_cons]
    have hxs := (List.nodup_cons.mp hl).2
    have hx := (List.nodup_cons.mp hl).1
    rcases hfx : f x with _ | y
    · exact ih hxs
    · rw [List.map_cons]
      refine List.nodup_cons.mpr ⟨?_, ih hxs⟩
      intro hmem
      rw [List.mem_map] at hmem
      obtain ⟨e, hemem, hfste⟩ := hmem
      rw [List.mem_filterMap] at hemem
      obtain ⟨k, hk, hcond⟩ := hemem
      have hek : e.1 = k := hfst k e hcond
      have hyx : y.1 = x := hfst x y hfx
      have hxk : x = k := by rw [← hyx, ← hfste, hek]
      exact hx (by rw [hxk]; exact hk)

/-- The slot ids listed by `collectValid` are distinct. -/
theorem collectValid_nodup (p : Page) : ((collectValid p).map Prod.fst).Nodup := by
  unfold collectValid
  apply nodup_filterMap_fst
  · intro i y h
    split at h
    · cases h; rfl
    · cases h
  · exact List.nodup_range _

theorem sumLive_take_succ (ref : RefSlots) (N : Nat) (hN : N < ref.length) :
    sumLive (ref.take (N + 1)) = sumLive (ref.take N) + entrySize (ref.get ⟨N, hN⟩) := by
  rw [List.take_succ]
  unfold sumLive
  rw [List.map_append, List.sum_append]
  congr 1
  rw [List.getElem?_eq_getElem hN]
  rfl

/-- The payloads collected by `collectValid` sum to `sumLive ref`. -/
theorem collectValid_sum (p : Page) (ref : RefSlots) (hInv : Inv p ref) :
    listPayloadSum (collectValid p) = sumLive ref := by
  unfold collectValid
  rw [hInv.numEq]
  have key : ∀ N, N ≤ ref.length →
      listPayloadSum ((List.range N).filterMap fun i =>
        if readU16 p.data (slotPos i) ≠ 0 ∧ readU16 p.data (slotPos i + 2) ≠ 0 ∧
            readU16 p.data (slotPos i) + readU16 p.data (slotPos i + 2) ≤ PAGE_SIZE then
          some (i, readBytes p.data (readU16 p.data (slotPos i))
            (readU16 p.data (slotPos i + 2)))
        else none) = sumLive (ref.take N) := by
    intro N
    induction N with
    | zero => intro _; simp [listPayloadSum, sumLive]
    | succ M ih =>
      intro hle
      have hM : M < ref.length := by omega
      rw [List.range_succ, List.filterMap_append, sumLive_take_succ ref M hM]
      unfold listPayloadSum
      rw [List.map_append, List.sum_append]
      unfold listPayloadSum at ih
      rw [ih (by omega)]
      congr 1
      have hok := hInv.slots M hM
      rcases hE : ref.get ⟨M, hM⟩ with _ | pl
      · rw [hE] at hok
        unfold SlotOk at hok
        simp [hok.1, entrySize]
      · rw [hE] at hok
        unfold SlotOk at hok
        obtain ⟨hne, hlen, _, hbound, hnil, _, hread⟩ := hok
        have hlen0 : readU16 p.data (slotPos M + 2) ≠ 0 := by
          rw [hlen]; simpa using hnil
        have hcnd : readU16 p.data (slotPos M) ≠ 0 ∧ readU16 p.data (slotPos M + 2) ≠ 0 ∧
            readU16 p.data (slotPos M) + readU16 p.data (slotPos M + 2) ≤ PAGE_SIZE :=
          ⟨hne, hlen0, by rw [hlen]; omega⟩
        simp only [List.filterMap_cons, List.filterMap_nil, if_pos hcnd]
        simp [entrySize, readBytes_length, hlen]
  have := key ref.length (le_refl _)
  rwa [List.take_length] at this

/-- One iteration of the `compact` re-write loop. -/
def compactStep (q : Page) (slotId : Nat) (bs : List Nat) : Page :=
  let freeEnd := free_space_end q
  let newOffset := wsub16 freeEnd bs.length
  let q1 : Page := { q with data := memWriteBytes q.data newOffset bs }
  let q2 := set_free_space_end q1 newOffset
  { q2 with data := writeU16 q2.data (slotPos slotId) newOffset }

theorem compactWrite_cons (q : Page) (i : Nat) (bs : List Nat)
    (rest : List (Nat × List Nat)) :
    compactWrite q ((i, bs) :: rest) = compactWrite (compactStep q i bs) rest := rfl

theorem compactStep_spec (q : Page) (i : Nat) (pl : List Nat)
    (hpl : ∀ b ∈ pl, b < 256)
    (hgeom : slotPos i + SLOT_SIZE + pl.length ≤ free_space_end q) :
    let fse := free_space_end q
    let newOff := fse - pl.length
    let q' := compactStep q i pl
    q'.dirty = true ∧
    free_space_end q' = newOff ∧
    readU16 q'.data (slotPos i) = newOff ∧
    readBytes q'.data newOff pl.length = pl ∧
    (∀ a, (a < newOff ∨ fse ≤ a) → a ≠ 2 → a ≠ 3 →
      (a < slotPos i ∨ slotPos i + 2 ≤ a) →
      readByte q'.data a = readByte q.data a) := by
  intro fse newOff q'
  have hSS : SLOT_SIZE = 4 := rfl
  have hfse_lt : fse < 65536 := readU16_lt _ _
  have hsp8 : 8 ≤ slotPos i := by unfold slotPos HEADER_SIZE; omega
  have hL_le : pl.length ≤ fse := by unfold SLOT_SIZE at hgeom; omega
  have hnewOff : wsub16 fse pl.length = newOff := wsub16_eq _ _ hL_le hfse_lt
  have hnewOff_lt : newOff < 65536 := by omega
  have hdir_lt : slotPos i + SLOT_SIZE ≤ newOff := by
    show slotPos i + SLOT_SIZE ≤ fse - pl.length
    omega
  show let freeEnd := free_space_end q
    let nOff := wsub16 freeEnd pl.length
    let d1 := memWriteBytes q.data nOff pl
    let d2 := writeU16 d1 2 nOff
    let d3 := writeU16 d2 (slotPos i) nOff
    let q3 : Page := { id := q.id, data := d3, dirty := true }
    q3.dirty = true ∧ free_space_end q3 = newOff ∧
    readU16 q3.data (slotPos i) = newOff ∧
    readBytes q3.data newOff pl.length = pl ∧
    (∀ a, (a < newOff ∨ fse ≤ a) → a ≠ 2 → a ≠ 3 →
      (a < slotPos i ∨ slotPos i + 2 ≤ a) →
      readByte q3.data a = readByte q.data a)
  intro freeEnd nOff d1 d2 d3 q3
  have hno : nOff = newOff := hnewOff
  have hd1_out : ∀ a, a < newOff ∨ fse ≤ a → readByte d1 a = readByte q.data a := by
    intro a ha
    show readByte (memWriteBytes q.data nOff pl) a = readByte q.data a
    rcases ha with ha | ha
    · exact readByte_memWriteBytes_lo _ _ _ _ (by omega)
    · exact readByte_memWriteBytes_hi _ _ _ _ (by omega)
  have hd3_frame : ∀ a, a ≠ 2 → a ≠ 3 → (a < slotPos i ∨ slotPos i + 2 ≤ a) →
      readByte d3 a = readByte d1 a := by
    intro a h2 h3 hslot
    show readByte (writeU16 (writeU16 d1 2 nOff) (slotPos i) nOff) a = readByte d1 a
    unfold writeU16
    rw [readByte_memWrite_ne _ _ _ _ (by omega), readByte_memWrite_ne _ _ _ _ (by omega),
      readByte_memWrite_ne _ _ _ _ (by omega), readByte_memWrite_ne _ _ _ _ (by omega)]
  refine ⟨rfl, ?_, ?_, ?_, ?_⟩
  · show readU16 d3 2 = newOff
    show readU16 (writeU16 (writeU16 d1 2 nOff) (slotPos i) nOff) 2 = newOff
    rw [readU16_writeU16_ne _ _ _ _ (by omega), readU16_writeU16_self, hno]
    exact Nat.mod_eq_of_lt hnewOff_lt
  · show readU16 d3 (slotPos i) = newOff
    show readU16 (writeU16 (writeU16 d1 2 nOff) (slotPos i) nOff) (slotPos i) = newOff
    rw [readU16_writeU16_self, hno]
    exact Nat.mod_eq_of_lt hnewOff_lt
  · show readBytes d3 newOff pl.length = pl
    have hpay : readBytes d1 newOff pl.length = pl := by
      show readBytes (memWriteBytes q.data nOff pl) newOff pl.length = pl
      rw [← hno]
      exact readBytes_memWriteBytes_self pl q.data nOff hpl
    have hcon : readBytes d3 newOff pl.length = readBytes d1 newOff pl.length := by
      apply readBytes_congr
      intro k hk
      exact hd3_frame _ (by omega) (by omega) (by omega)
    rw [hcon, hpay]
  · intro a ha h2 h3 hslot
    show readByte d3 a = readByte q.data a
    rw [hd3_frame a h2 h3 hslot]
    exact hd1_out a ha

theorem compactWrite_inv (ref : RefSlots)
    (hsum : sumLive ref + HEADER_SIZE + ref.length * SLOT_SIZE ≤ PAGE_SIZE) :
    ∀ (es : List (Nat × List Nat)) (q : Page) (done : Nat),
      num_slots q = ref.length →
      free_space_end q = PAGE_SIZE - done →
      done + listPayloadSum es = sumLive ref →
      q.dirty = true →
      (∀ i pl, (i, pl) ∈ es → i < ref.length ∧ ref.getD i none = some pl ∧
        readU16 q.data (slotPos i + 2) = pl.length ∧ pl ≠ [] ∧ ∀ b ∈ pl, b < 256) →
      (es.map Prod.fst).Nodup →
      (∀ i (h : i < ref.length), ref.get ⟨i, h⟩ = none →
        readU16 q.data (slotPos i) = 0 ∧ readU16 q.data (slotPos i + 2) = 0) →
      (∀ i (h : i < ref.length) pl, ref.get ⟨i, h⟩ = some pl →
        (i, pl) ∈ es ∨ SlotOk q i (some pl)) →
      Inv (compactWrite q es) ref ∧ (compactWrite q es).dirty = true ∧
        free_space_end (compactWrite q es) = PAGE_SIZE - sumLive ref := by
  have hH : HEADER_SIZE = 8 := rfl
  have hS : SLOT_SIZE = 4 := rfl
  have hP : PAGE_SIZE = 8192 := rfl
  have hsum4 : sumLive ref + 8 + ref.length * 4 ≤ 8192 := by
    have h := hsum; rw [hH, hS, hP] at h; exact h
  intro es
  induction es with
  | nil =>
    intro q done hnum hfse hdone hdirty hsound hnodup htomb hlive
    have hfse8 : free_space_end q = 8192 - done := by
      have h := hfse; rw [hP] at h; exact h
    have hdone0 : done = sumLive ref := by
      unfold listPayloadSum at hdone
      simpa using hdone
    subst hdone0
    simp only [compactWrite]
    refine ⟨⟨hnum, ?_, ?_, ?_, ?_⟩, hdirty, hfse⟩
    · rw [hP]; omega
    · rw [hH, hS]; omega
    · rw [hP]; omega
    · intro j hj
      rcases hE : ref.get ⟨j, hj⟩ with _ | pl
      · exact htomb j hj hE
      · rcases hlive j hj pl hE with habs | hok
        · cases habs
        · exact hok
  | cons hd rest ih =>
    obtain ⟨i, pl0⟩ := hd
    intro q done hnum hfse hdone hdirty hsound hnodup htomb hlive
    obtain ⟨hiN, hgetDi, hdirlen, hpl0ne, hpl0b⟩ :=
      hsound i pl0 (List.mem_cons_self _ _)
    rw [listPayloadSum_cons] at hdone
    have hfse8 : free_space_end q = 8192 - done := by
      have h := hfse; rw [hP] at h; exact h
    have hiN4 : i * 4 + 4 ≤ ref.length * 4 := by omega
    have hspi : slotPos i = 8 + i * 4 := rfl
    have hfse_lt : free_space_end q < 65536 := readU16_lt _ _
    have hdle : done + pl0.length ≤ sumLive ref := by
      simp only [listPayloadSum] at hdone
      omega
    have hgeom : slotPos i + SLOT_SIZE + pl0.length ≤ free_space_end q := by
      rw [hspi, hS]
      omega
    obtain ⟨hsd, hsfse, hsoff, hsread, hsframe⟩ := compactStep_spec q i pl0 hpl0b hgeom
    -- numeric bounds on the region boundaries
    have hnO : free_space_end q - pl0.length = 8192 - (done + pl0.length) := by omega
    have hnO_geN : 8 + ref.length * 4 ≤ free_space_end q - pl0.length := by omega
    have hfseq_geN : 8 + ref.length * 4 ≤ free_space_end q := by omega
    -- frame for whole 4-byte directory entries of slots other than `i`
    have hdirframe : ∀ j, j < ref.length → j ≠ i → ∀ a, slotPos j ≤ a →
        a < slotPos j + 4 → readByte (compactStep q i pl0).data a = readByte q.data a := by
      intro j hj hji a ha1 ha2
      have hspj : slotPos j = 8 + j * 4 := rfl
      rw [hspj] at ha1 ha2
      have hjN4 : j * 4 + 4 ≤ ref.length * 4 := by omega
      apply hsframe
      · left; omega
      · omega
      · omega
      · rcases Nat.lt_or_ge j i with h | h
        · left
          rw [hspi]
          omega
        · right
          have hij4 : i * 4 + 4 ≤ j * 4 := by omega
          rw [hspi]
          omega
    have hnum3 : num_slots (compactStep q i pl0) = ref.length := by
      rw [← hnum]
      apply readU16_congr <;>
        · apply hsframe
          · left; rw [hspi] at hgeom; omega
          · omega
          · omega
          · left; rw [hspi]; omega
    have hfse3 : free_space_end (compactStep q i pl0) =
        PAGE_SIZE - (done + pl0.length) := by
      rw [hsfse, hP]
      omega
    rw [compactWrite_cons]
    apply ih (compactStep q i pl0) (done + pl0.length) hnum3 hfse3
      (by simp only [listPayloadSum] at hdone ⊢; omega) hsd
    · -- soundness for the remaining entries
      intro j pl hmem
      obtain ⟨hjN, hgetDj, hdlj, hplne, hplb⟩ :=
        hsound j pl (List.mem_cons_of_mem _ hmem)
      have hji : j ≠ i := by
        intro h
        subst h
        have hnotin : j ∉ rest.map Prod.fst := by
          have := List.nodup_cons.mp hnodup
          simpa using this.1
        exact hnotin (List.mem_map.mpr ⟨(j, pl), hmem, rfl⟩)
      refine ⟨hjN, hgetDj, ?_, hplne, hplb⟩
      rw [← hdlj]
      apply readU16_congr <;>
        · apply hdirframe j hjN hji
          · unfold slotPos; omega
          · unfold slotPos HEADER_SIZE SLOT_SIZE; omega
    · exact (List.nodup_cons.mp hnodup).2
    · -- tombstones
      intro t ht hE
      have hti : t ≠ i := by
        intro h
        subst h
        rw [getD_eq_get ref t ht, hE] at hgetDi
        cases hgetDi
      obtain ⟨h1, h2⟩ := htomb t ht hE
      constructor
      · rw [← h1]
        apply readU16_congr <;>
          · apply hdirframe t ht hti
            · unfold slotPos; omega
            · unfold slotPos HEADER_SIZE SLOT_SIZE; omega
      · rw [← h2]
        apply readU16_congr <;>
          · apply hdirframe t ht hti
            · unfold slotPos; omega
            · unfold slotPos HEADER_SIZE SLOT_SIZE; omega
    · -- live slots: still pending in `rest`, or already written correctly
      intro j hj pl hE
      by_cases hji : j = i
      · subst hji
        have hpleq : pl = pl0 := by
          rw [getD_eq_get ref j hj, hE] at hgetDi
          cases hgetDi
          rfl
        subst hpleq
        right
        unfold SlotOk
        have hlenframe : ∀ a, slotPos j + 2 ≤ a → a < slotPos j + 4 →
            readByte (compactStep q j pl).data a = readByte q.data a := by
          intro a ha1 ha2
          rw [hspi] at ha1 ha2
          apply hsframe
          · left; omega
          · omega
          · omega
          · right; rw [hspi]; omega
        have hlen3 : readU16 (compactStep q j pl).data (slotPos j + 2) = pl.length := by
          rw [← hdirlen]
          apply readU16_congr <;>
            · apply hlenframe <;> omega
        refine ⟨?_, hlen3, ?_, ?_, hpl0ne, hpl0b, ?_⟩
        · rw [hsoff]
          rw [hspi] at hgeom
          have hS4 : SLOT_SIZE = 4 := rfl
          rw [hS4] at hgeom
          omega
        · rw [hsoff, hsfse]
        · rw [hsoff, hP]
          rw [hspi, hS] at hgeom
          omega
        · rw [hsoff]
          exact hsread
      · rcases hlive j hj pl hE with hmem | hok
        · rcases List.mem_cons.mp hmem with heq | hmem'
          · cases heq; exact absurd rfl hji
          · exact Or.inl hmem'
        · right
          unfold SlotOk at hok ⊢
          obtain ⟨h1, h2, h3, h4, h5, h6, h7⟩ := hok
          have hoffp : readU16 (compactStep q i pl0).data (slotPos j) =
              readU16 q.data (slotPos j) := by
            apply readU16_congr <;>
              · apply hdirframe j hj hji
                · unfold slotPos; omega
                · unfold slotPos HEADER_SIZE SLOT_SIZE; omega
          have hlenp : readU16 (compactStep q i pl0).data (slotPos j + 2) =
              readU16 q.data (slotPos j + 2) := by
            apply readU16_congr <;>
              · apply hdirframe j hj hji
                · unfold slotPos; omega
                · unfold slotPos HEADER_SIZE SLOT_SIZE; omega
          have hoff_ge : free_space_end q ≤ readU16 q.data (slotPos j) := h3
          have hpayp : readBytes (compactStep q i pl0).data
              (readU16 q.data (slotPos j)) pl.length =
              readBytes q.data (readU16 q.data (slotPos j)) pl.length := by
            apply readBytes_congr
            intro k hk
            apply hsframe
            · right; omega
            · rw [hspi] at hgeom; omega
            · rw [hspi] at hgeom; omega
            · right
              rw [hspi] at hgeom ⊢
              omega
          refine ⟨by rw [hoffp]; exact h1, by rw [hlenp]; exact h2, ?_,
            by rw [hoffp]; exact h4, h5, h6, by rw [hoffp, hpayp]; exact h7⟩
          rw [hoffp, hsfse]
          omega

/-- `compact` preserves the invariant and the logical content, marks the page
dirty, and maximizes free space. -/
theorem compact_inv (p : Page) (ref : RefSlots) (hInv : Inv p ref) :
    Inv (compact p) ref ∧ (compact p).dirty = true ∧
      free_space_end (compact p) = PAGE_SIZE - sumLive ref := by
  have hcompact : compact p =
      compactWrite (set_free_space_end p PAGE_SIZE) (collectValid p) := rfl
  rw [hcompact]
  have hdir : ∀ a, 4 ≤ a → readByte (set_free_space_end p PAGE_SIZE).data a =
      readByte p.data a := by
    intro a ha
    show readByte (writeU16 p.data 2 PAGE_SIZE) a = readByte p.data a
    unfold writeU16
    rw [readByte_memWrite_ne _ _ _ _ (by omega), readByte_memWrite_ne _ _ _ _ (by omega)]
  have hdirU16 : ∀ a, 4 ≤ a → readU16 (set_free_space_end p PAGE_SIZE).data a =
      readU16 p.data a := by
    intro a ha
    exact readU16_congr (hdir _ (by omega)) (hdir _ (by omega))
  have hsp : ∀ i : Nat, 8 ≤ slotPos i := by
    intro i; unfold slotPos HEADER_SIZE; omega
  have hnum0 : num_slots (set_free_space_end p PAGE_SIZE) = ref.length := by
    rw [← hInv.numEq]
    show readU16 (writeU16 p.data 2 PAGE_SIZE) 0 = num_slots p
    rw [readU16_writeU16_ne _ _ _ _ (by omega)]
    rfl
  have hfse0 : free_space_end (set_free_space_end p PAGE_SIZE) = PAGE_SIZE - 0 := by
    show readU16 (writeU16 p.data 2 PAGE_SIZE) 2 = PAGE_SIZE - 0
    rw [readU16_writeU16_self]
    rfl
  have hsum' : sumLive ref + HEADER_SIZE + ref.length * SLOT_SIZE ≤ PAGE_SIZE := by
    have h1 := hInv.sumLe
    have h2 := hInv.hdrLe
    omega
  apply compactWrite_inv ref hsum' (collectValid p) _ 0 hnum0 hfse0
    (by rw [Nat.zero_add]; exact collectValid_sum p ref hInv) rfl
  · intro i pl hmem
    obtain ⟨hiN, hgetD⟩ := collectValid_sound p ref hInv i pl hmem
    have hok := hInv.slots i hiN
    rw [getD_eq_get ref i hiN] at hgetD
    rw [hgetD] at hok
    unfold SlotOk at hok
    obtain ⟨_, hlen, _, _, hnil, hb, _⟩ := hok
    refine ⟨hiN, by rw [getD_eq_get ref i hiN, hgetD], ?_, hnil, hb⟩
    rw [hdirU16 _ (by have := hsp i; omega)]
    exact hlen
  · exact collectValid_nodup p
  · intro i h hE
    have hok := hInv.slots i h
    rw [hE] at hok
    unfold SlotOk at hok
    constructor
    · rw [hdirU16 _ (by have := hsp i; omega)]; exact hok.1
    · rw [hdirU16 _ (by have := hsp i; omega)]; exact hok.2
  · intro i h pl hE
    exact Or.inl (collectValid_complete p ref hInv i h pl hE)

theorem sumLive_append_one (ref : RefSlots) (e : Option (List Nat)) :
    sumLive (ref ++ [e]) = sumLive ref + entrySize e := by
  unfold sumLive
  rw [List.map_append, List.sum_append]
  rfl

/-- Writing a fresh tuple at slot `num_slots` and bumping the count
establishes the invariant extended by the new payload. -/
theorem insert_written_inv (q : Page) (ref : RefSlots) (hInv : Inv q ref)
    (flag : Nat) (final : List Nat) (hflag : flag < 256) (hfb : ∀ b ∈ final, b < 256)
    (hspace : final.length + 1 + SLOT_SIZE ≤ free_space q) :
    Inv (set_num_slots (writeTuple q (num_slots q) flag final) (num_slots q + 1))
      (ref ++ [some (flag :: final)]) ∧
    (set_num_slots (writeTuple q (num_slots q) flag final)
      (num_slots q + 1)).dirty = true := by
  have hH : HEADER_SIZE = 8 := rfl
  have hS : SLOT_SIZE = 4 := rfl
  have hP : PAGE_SIZE = 8192 := rfl
  have hN := hInv.numEq
  have hNle := hInv.len_le
  have hhdr := hInv.hdrLe
  have hfseP := hInv.fseLe
  have hsumle := hInv.sumLe
  have hfs_pos : 0 < free_space q := by rw [hS] at hspace; omega
  have hfree : free_space q =
      free_space_end q - (HEADER_SIZE + num_slots q * SLOT_SIZE) := by
    have h : free_space q =
        if HEADER_SIZE + num_slots q * SLOT_SIZE ≤ free_space_end q then
          free_space_end q - (HEADER_SIZE + num_slots q * SLOT_SIZE)
        else 0 := rfl
    rw [h, if_pos]
    rw [hN]
    exact hhdr
  have hfree4 : final.length + 1 + 4 ≤
      free_space_end q - (8 + ref.length * 4) := by
    rw [hfree, hN, hH, hS] at hspace
    omega
  have hspN : slotPos (num_slots q) = 8 + ref.length * 4 := by
    rw [hN]; rfl
  have hdirOK : slotPos (num_slots q) + SLOT_SIZE + (final.length + 1) ≤
      free_space_end q := by
    rw [hspN, hS]
    omega
  obtain ⟨hwd, hwfse, hwoff, hwlen, hwread, hwframe⟩ :=
    writeTuple_spec q (num_slots q) flag final hflag hfb hdirOK
  set fse := free_space_end q with hfse_def
  set newOff := fse - (final.length + 1) with hnewOff_def
  set q1 := writeTuple q (num_slots q) flag final with hq1_def
  -- the final page: bump num_slots
  set q2 := set_num_slots q1 (num_slots q + 1) with hq2_def
  have hnewOff_ge : 8 + (ref.length + 1) * 4 ≤ newOff := by
    rw [hnewOff_def]
    omega
  have hq2frame : ∀ a, 4 ≤ a → readByte q2.data a = readByte q1.data a := by
    intro a ha
    show readByte (writeU16 q1.data 0 (num_slots q + 1)) a = readByte q1.data a
    unfold writeU16
    rw [readByte_memWrite_ne _ _ _ _ (by omega), readByte_memWrite_ne _ _ _ _ (by omega)]
  have hq2U16 : ∀ a, 4 ≤ a → readU16 q2.data a = readU16 q1.data a := by
    intro a ha
    exact readU16_congr (hq2frame _ (by omega)) (hq2frame _ (by omega))
  have hnum2 : num_slots q2 = ref.length + 1 := by
    show readU16 (writeU16 q1.data 0 (num_slots q + 1)) 0 = ref.length + 1
    rw [readU16_writeU16_self, hN]
    exact Nat.mod_eq_of_lt (by omega)
  have hfse2 : free_space_end q2 = newOff := by
    show readU16 (writeU16 q1.data 0 (num_slots q + 1)) 2 = newOff
    rw [readU16_writeU16_ne _ _ _ _ (by omega)]
    exact hwfse
  have hsp : ∀ i : Nat, slotPos i = 8 + i * 4 := fun i => rfl
  refine ⟨⟨?_, ?_, ?_, ?_, ?_⟩, rfl⟩
  · rw [hnum2, List.length_append, List.length_singleton]
  · rw [hfse2, hnewOff_def]
    omega
  · rw [hfse2, List.length_append, List.length_singleton, hH, hS]
    omega
  · rw [hfse2, sumLive_append_one]
    have hent : entrySize (some (flag :: final)) = final.length + 1 := by
      simp [entrySize]
    rw [hent, hnewOff_def]
    omega
  · intro j hj
    have hj1 : j < ref.length + 1 := by simpa using hj
    by_cases hjN : j < ref.length
    · -- old slots survive
      have hget : (ref ++ [some (flag :: final)]).get ⟨j, hj⟩ = ref.get ⟨j, hjN⟩ := by
        simp [List.get_eq_getElem, List.getElem_append_left hjN]
      rw [hget]
      have hok := hInv.slots j hjN
      have hj4 : j * 4 + 4 ≤ ref.length * 4 := by omega
      have hframe_all : ∀ k, k < 4 →
          readByte q2.data (slotPos j + k) = readByte q.data (slotPos j + k) := by
        intro k hk
        rw [hq2frame _ (by rw [hsp j]; omega)]
        apply hwframe
        · left; rw [hsp j]; omega
        · rw [hsp j]; omega
        · rw [hsp j]; omega
        · left; rw [hspN, hsp j]; omega
      have hoffp : readU16 q2.data (slotPos j) = readU16 q.data (slotPos j) :=
        readU16_congr (hframe_all 0 (by omega)) (hframe_all 1 (by omega))
      have hlenp : readU16 q2.data (slotPos j + 2) = readU16 q.data (slotPos j + 2) :=
        readU16_congr (hframe_all 2 (by omega)) (hframe_all 3 (by omega))
      rcases hE : ref.get ⟨j, hjN⟩ with _ | pl
      · rw [hE] at hok
        unfold SlotOk at hok ⊢
        exact ⟨by rw [hoffp]; exact hok.1, by rw [hlenp]; exact hok.2⟩
      · rw [hE] at hok
        unfold SlotOk at hok ⊢
        obtain ⟨h1, h2, h3, h4, h5, h6, h7⟩ := hok
        have hpayp : readBytes q2.data (readU16 q.data (slotPos j)) pl.length =
            readBytes q.data (readU16 q.data (slotPos j)) pl.length := by
          apply readBytes_congr
          intro k hk
          rw [hq2frame _ (by omega)]
          apply hwframe
          · right; omega
          · omega
          · omega
          · right; rw [hspN]; omega
        refine ⟨by rw [hoffp]; exact h1, by rw [hlenp]; exact h2, ?_,
          by rw [hoffp]; exact h4, h5, h6, by rw [hoffp, hpayp]; exact h7⟩
        rw [hoffp, hfse2, hnewOff_def]
        omega
    · -- the new slot
      have hjeq : j = ref.length := by omega
      subst hjeq
      have hget : (ref ++ [some (flag :: final)]).get ⟨ref.length, hj⟩ =
          some (flag :: final) := by
        simp [List.get_eq_getElem]
      rw [hget]
      unfold SlotOk
      have hoff2 : readU16 q2.data (slotPos ref.length) = newOff := by
        rw [hq2U16 _ (by rw [hsp]; omega), ← hN] at *
        exact hwoff
      have hlen2 : readU16 q2.data (slotPos ref.length + 2) = final.length + 1 := by
        rw [hq2U16 _ (by rw [hsp]; omega), ← hN]
        exact hwlen
      refine ⟨?_, ?_, ?_, ?_, by simp, ?_, ?_⟩
      · rw [hoff2]; omega
      · rw [hlen2]; rfl
      · rw [hoff2, hfse2]
      · rw [hoff2]
        show newOff + (final.length + 1) ≤ PAGE_SIZE
        rw [hP, hnewOff_def]
        omega
      · intro b hb
        rcases List.mem_cons.mp hb with rfl | hb2
        · exact hflag
        · exact hfb b hb2
      · rw [hoff2]
        show readBytes q2.data newOff (flag :: final).length = flag :: final
        have hlen : (flag :: final).length = final.length + 1 := rfl
        rw [hlen, ← hwread]
        apply readBytes_congr
        intro k hk
        rw [hq2frame _ (by omega)]

theorem free_space_eq (p : Page) : free_space p =
    if HEADER_SIZE + num_slots p * SLOT_SIZE ≤ free_space_end p then
      free_space_end p - (HEADER_SIZE + num_slots p * SLOT_SIZE)
    else 0 := rfl

theorem insert_tuple_eq (C : Codec) (p : Page) (data : List Nat) :
    insert_tuple C p data =
      if free_space (if free_space p < (mkFinal C data).2.length + 1 + SLOT_SIZE then
          compact p else p) < (mkFinal C data).2.length + 1 + SLOT_SIZE then
        (.error "Not enough space on page",
          if free_space p < (mkFinal C data).2.length + 1 + SLOT_SIZE then compact p else p)
      else
        (.ok (num_slots (if free_space p < (mkFinal C data).2.length + 1 + SLOT_SIZE then
            compact p else p)),
          set_num_slots
            (writeTuple
              (if free_space p < (mkFinal C data).2.length + 1 + SLOT_SIZE then
                compact p else p)
              (num_slots (if free_space p < (mkFinal C data).2.length + 1 + SLOT_SIZE then
                compact p else p))
              (mkFinal C data).1 (mkFinal C data).2)
            (num_slots (if free_space p < (mkFinal C data).2.length + 1 + SLOT_SIZE then
              compact p else p) + 1)) := rfl

/-- Full behaviour of `insert_tuple` from an invariant state: it succeeds
exactly when the new tuple (with its slot) fits after maximal compaction, in
which case the logical content is extended by the stored payload; otherwise
it fails with `PageFull` leaving the (compacted) logical content intact. -/
theorem insert_tuple_inv (C : Codec) (hC : C.Lawful) (p : Page) (ref : RefSlots)
    (hInv : Inv p ref) (data : List Nat) (hb : ∀ b ∈ data, b < 256) :
    (HEADER_SIZE + (ref.length + 1) * SLOT_SIZE + sumLive ref +
        ((mkFinal C data).2.length + 1) ≤ PAGE_SIZE →
      (insert_tuple C p data).1 = .ok ref.length ∧
      Inv (insert_tuple C p data).2 (ref ++ [some (storedOf C data)]) ∧
      (insert_tuple C p data).2.dirty = true) ∧
    (¬ (HEADER_SIZE + (ref.length + 1) * SLOT_SIZE + sumLive ref +
        ((mkFinal C data).2.length + 1) ≤ PAGE_SIZE) →
      (insert_tuple C p data).1 = .error "Not enough space on page" ∧
      Inv (insert_tuple C p data).2 ref) := by
  have hH : HEADER_SIZE = 8 := rfl
  have hS : SLOT_SIZE = 4 := rfl
  have hP : PAGE_SIZE = 8192 := rfl
  have hflag := mkFinal_flag_lt C data
  have hfb := mkFinal_bytes_lt C hC data hb
  have hstored : storedOf C data = (mkFinal C data).1 :: (mkFinal C data).2 := rfl
  set flen := (mkFinal C data).2.length with hflen
  rw [insert_tuple_eq]
  by_cases hlt : free_space p < flen + 1 + SLOT_SIZE
  · -- the space check fails on entry: compact first
    rw [if_pos hlt]
    obtain ⟨hInv1, hdirty1, hfse1⟩ := compact_inv p ref hInv
    have hnum1 : num_slots (compact p) = ref.length := hInv1.numEq
    have hfs1 : free_space (compact p) =
        PAGE_SIZE - sumLive ref - (HEADER_SIZE + ref.length * SLOT_SIZE) := by
      rw [free_space_eq, hnum1, if_pos (by rw [hfse1]; exact hfse1 ▸ hInv1.hdrLe), hfse1]
    have hsum8 : sumLive ref + 8 + ref.length * 4 ≤ 8192 := by
      have h1 := hInv.sumLe
      have h2 := hInv.hdrLe
      rw [hH, hS] at h2
      rw [hP] at h1
      omega
    constructor
    · intro hfits
      rw [hH, hS, hP] at hfits
      have hspace1 : ¬ free_space (compact p) < flen + 1 + SLOT_SIZE := by
        rw [hfs1, hH, hS, hP]
        omega
      rw [if_neg hspace1]
      refine ⟨by rw [hnum1], ?_, rfl⟩
      rw [hstored]
      exact (insert_written_inv (compact p) ref hInv1 (mkFinal C data).1
        (mkFinal C data).2 hflag hfb (by omega)).1
    · intro hnofit
      rw [hH, hS, hP] at hnofit
      have hspace1 : free_space (compact p) < flen + 1 + SLOT_SIZE := by
        rw [hfs1, hH, hS, hP]
        omega
      rw [if_pos hspace1]
      exact ⟨rfl, hInv1⟩
  · -- enough space without compacting
    rw [if_neg hlt, if_neg hlt]
    have hfs_pos : 0 < free_space p := by rw [hS] at hlt; omega
    have hhdr_le : HEADER_SIZE + num_slots p * SLOT_SIZE ≤ free_space_end p := by
      by_contra hcon
      rw [free_space_eq, if_neg hcon] at hfs_pos
      omega
    have hfsp : free_space p =
        free_space_end p - (HEADER_SIZE + num_slots p * SLOT_SIZE) := by
      rw [free_space_eq, if_pos hhdr_le]
    have hfits : HEADER_SIZE + (ref.length + 1) * SLOT_SIZE + sumLive ref +
        (flen + 1) ≤ PAGE_SIZE := by
      have h1 := hInv.sumLe
      have h2 := hInv.numEq
      rw [hfsp, h2, hH, hS] at hlt
      rw [hH, hS] at hhdr_le
      rw [h2, hH, hS] at *
      rw [hP] at h1 ⊢
      omega
    constructor
    · intro _
      refine ⟨by rw [hInv.numEq], ?_, rfl⟩
      rw [hstored]
      exact (insert_written_inv p ref hInv (mkFinal C data).1
        (mkFinal C data).2 hflag hfb (by omega)).1
    · intro hnofit
      exact absurd hfits hnofit

/-! ### Operation traces: slot stability (claim C4) -/

/-- A client operation on one slotted page. -/
inductive SlotOp where
  | ins (data : List Nat)
  | del (slotId : Nat)
  | compactOp
deriving DecidableEq, Repr

/-- Run a sequence of operations, collecting the slot ids returned by the
successful `insert_tuple` calls, in order. -/
def runOps (C : Codec) : Page → List SlotOp → Page × List Nat
  | p, [] => (p, [])
  | p, .ins data :: rest =>
    match insert_tuple C p data with
    | (.ok sid, p') =>
      let r := runOps C p' rest
      (r.1, sid :: r.2)
    | (.error _, p') => runOps C p' rest
  | p, .del i :: rest => runOps C (mark_deleted p i).2 rest
  | p, .compactOp :: rest => runOps C (compact p) rest

/-- Stored size (flag byte included) of a logical entry holding the original
inserted bytes. -/
def storedSize (C : Codec) : Option (List Nat) → Nat
  | none => 0
  | some data => (mkFinal C data).2.length + 1

def refUsed (C : Codec) (st : List (Option (List Nat))) : Nat :=
  (st.map (storedSize C)).sum

/-- Reference model of the slotted page over the original tuple bytes: one
entry per slot id ever returned, `none` once tombstoned.  An insert succeeds
exactly when slot plus payload fit after maximal compaction; `compact` is a
no-op on the logical content. -/
def refStep (C : Codec) (st : List (Option (List Nat))) : SlotOp → List (Option (List Nat))
  | .ins data =>
    if HEADER_SIZE + (st.length + 1) * SLOT_SIZE + refUsed C st +
        ((mkFinal C data).2.length + 1) ≤ PAGE_SIZE then
      st ++ [some data]
    else st
  | .del i => if i < st.length then st.set i none else st
  | .compactOp => st

def refRun (C : Codec) : List (Option (List Nat)) → List SlotOp → List (Option (List Nat))
  | st, [] => st
  | st, op :: rest => refRun C (refStep C st op) rest

theorem sumLive_map_storedOf (C : Codec) (st : List (Option (List Nat))) :
    sumLive (st.map (Option.map (storedOf C))) = refUsed C st := by
  induction st with
  | nil => rfl
  | cons e rest ih =>
    rw [List.map_cons, sumLive_cons]
    unfold refUsed
    rw [List.map_cons, List.sum_cons]
    unfold refUsed at ih
    rw [ih]
    congr 1
    cases e <;> rfl

theorem map_optmap_set (f : Option (List Nat) → Option (List Nat))
    (st : List (Option (List Nat))) (i : Nat) (hf : f none = none) :
    (st.set i none).map f = (st.map f).set i none := by
  rw [List.map_set, hf]

theorem getD_map_storedOf (C : Codec) (st : List (Option (List Nat))) (i : Nat) :
    (st.map (Option.map (storedOf C))).getD i none =
      (st.getD i none).map (storedOf C) := by
  by_cases h : i < st.length
  · rw [getD_eq_get _ _ (by simpa using h), getD_eq_get _ _ h]
    simp [List.get_eq_getElem]
  · rw [List.getD_eq_default _ _ (by simpa using le_of_not_lt h),
      List.getD_eq_default _ _ (le_of_not_lt h)]
    rfl

/-- Master theorem for operation traces: the byte-level page stays related to
the reference model, and the ids returned by successful inserts count up from
the current model length. -/
theorem runOps_inv (C : Codec) (hC : C.Lawful) :
    ∀ (ops : List SlotOp) (p : Page) (st : List (Option (List Nat))),
      Inv p (st.map (Option.map (storedOf C))) →
      (∀ data, SlotOp.ins data ∈ ops → ∀ b ∈ data, b < 256) →
      Inv (runOps C p ops).1 ((refRun C st ops).map (Option.map (storedOf C))) ∧
      (runOps C p ops).2 =
        List.range' st.length ((refRun C st ops).length - st.length) := by
  have hmono : ∀ (C : Codec) ops st0, (st0 : List (Option (List Nat))).length ≤
      (refRun C st0 ops).length := by
    intro C ops0
    induction ops0 with
    | nil => intro st0; simp [refRun]
    | cons o r ihr =>
      intro st0
      refine le_trans ?_ (ihr (refStep C st0 o))
      cases o with
      | ins d =>
        show st0.length ≤ (if HEADER_SIZE + (st0.length + 1) * SLOT_SIZE + refUsed C st0 +
            ((mkFinal C d).2.length + 1) ≤ PAGE_SIZE then st0 ++ [some d] else st0).length
        split <;> simp
      | del i =>
        show st0.length ≤ (if i < st0.length then st0.set i none else st0).length
        split <;> simp
      | compactOp => exact le_refl _
  intro ops
  induction ops with
  | nil =>
    intro p st hInv _
    exact ⟨hInv, by simp [runOps, refRun]⟩
  | cons op rest ih =>
    intro p st hInv hb
    have hbrest : ∀ data, SlotOp.ins data ∈ rest → ∀ b ∈ data, b < 256 :=
      fun data hmem => hb data (List.mem_cons_of_mem _ hmem)
    cases op with
    | ins data =>
      have hbd : ∀ b ∈ data, b < 256 := hb data (List.mem_cons_self _ _)
      have hlen_eq : (st.map (Option.map (storedOf C))).length = st.length :=
        List.length_map _ _
      have hsum_eq := sumLive_map_storedOf C st
      obtain ⟨hfit, hnofit⟩ := insert_tuple_inv C hC p _ hInv data hbd
      rcases hins : insert_tuple C p data with ⟨r, p'⟩
      rw [hins] at hfit hnofit
      by_cases hcond : HEADER_SIZE + (st.length + 1) * SLOT_SIZE + refUsed C st +
          ((mkFinal C data).2.length + 1) ≤ PAGE_SIZE
      · obtain ⟨hok, hInv', _⟩ := hfit (by rw [hlen_eq, hsum_eq]; exact hcond)
        simp only at hok
        subst hok
        have hrun : runOps C p (.ins data :: rest) =
            ((runOps C p' rest).1,
              (st.map (Option.map (storedOf C))).length :: (runOps C p' rest).2) := by
          simp only [runOps, hins]
        have hstep : refStep C st (.ins data) = st ++ [some data] := by
          show (if HEADER_SIZE + (st.length + 1) * SLOT_SIZE + refUsed C st +
              ((mkFinal C data).2.length + 1) ≤ PAGE_SIZE then st ++ [some data]
            else st) = _
          rw [if_pos hcond]
        have hmodel : refRun C st (.ins data :: rest) =
            refRun C (st ++ [some data]) rest := by
          show refRun C (refStep C st (.ins data)) rest = _
          rw [hstep]
        have happ : (st ++ [some data]).map (Option.map (storedOf C)) =
            st.map (Option.map (storedOf C)) ++ [some (storedOf C data)] := by
          rw [List.map_append]
          rfl
        obtain ⟨ih1, ih2⟩ := ih p' (st ++ [some data])
          (by rw [happ]; exact hInv') hbrest
        rw [hrun, hmodel]
        refine ⟨ih1, ?_⟩
        rw [hlen_eq]
        have hlen' : st.length < (refRun C (st ++ [some data]) rest).length := by
          have := hmono C rest (st ++ [some data])
          simp at this
          omega
        show st.length :: (runOps C p' rest).2 = _
        rw [ih2]
        simp only [List.length_append, List.length_singleton]
        have hr : (refRun C (st ++ [some data]) rest).length - st.length =
            ((refRun C (st ++ [some data]) rest).length - (st.length + 1)) + 1 := by
          omega
        rw [hr, List.range'_succ]
      · obtain ⟨herr, hInv'⟩ := hnofit (by rw [hlen_eq, hsum_eq]; exact hcond)
        simp only at herr
        subst herr
        have hrun : runOps C p (.ins data :: rest) = runOps C p' rest := by
          simp only [runOps, hins]
        have hstep : refStep C st (.ins data) = st := by
          show (if HEADER_SIZE + (st.length + 1) * SLOT_SIZE + refUsed C st +
              ((mkFinal C data).2.length + 1) ≤ PAGE_SIZE then st ++ [some data]
            else st) = _
          rw [if_neg hcond]
        have hmodel : refRun C st (.ins data :: rest) = refRun C st rest := by
          show refRun C (refStep C st (.ins data)) rest = _
          rw [hstep]
        rw [hrun, hmodel]
        exact ih p' st hInv' hbrest
    | del i =>
      have hrun : runOps C p (.del i :: rest) = runOps C (mark_deleted p i).2 rest := by
        simp only [runOps]
      by_cases hi : i < st.length
      · obtain ⟨hInv', _, _⟩ := mark_deleted_inv p _ hInv i (by simpa using hi)
        have hstep : refStep C st (.del i) = st.set i none := by
          show (if i < st.length then st.set i none else st) = _
          rw [if_pos hi]
        have hmodel : refRun C st (.del i :: rest) = refRun C (st.set i none) rest := by
          show refRun C (refStep C st (.del i)) rest = _
          rw [hstep]
        rw [hrun, hmodel]
        have hset : (st.set i none).map (Option.map (storedOf C)) =
            (st.map (Option.map (storedOf C))).set i none :=
          map_optmap_set _ _ _ rfl
        obtain ⟨ih1, ih2⟩ := ih (mark_deleted p i).2 (st.set i none)
          (by rw [hset]; exact hInv') hbrest
        refine ⟨ih1, ?_⟩
        rw [ih2, List.length_set]
      · have hnum : num_slots p = st.length := by
          rw [hInv.numEq, List.length_map]
        have hmd : (mark_deleted p i).2 = p := by
          unfold mark_deleted
          rw [if_pos (by rw [hnum]; omega)]
        have hstep : refStep C st (.del i) = st := by
          show (if i < st.length then st.set i none else st) = _
          rw [if_neg hi]
        have hmodel : refRun C st (.del i :: rest) = refRun C st rest := by
          show refRun C (refStep C st (.del i)) rest = _
          rw [hstep]
        rw [hrun, hmd, hmodel]
        exact ih p st hInv hbrest
    | compactOp =>
      have hrun : runOps C p (.compactOp :: rest) = runOps C (compact p) rest := by
        simp only [runOps]
      obtain ⟨hInv', _, _⟩ := compact_inv p _ hInv
      rw [hrun]
      exact ih (compact p) st hInv' hbrest

/-! ### Insert/get round trip on any page with enough room (claim C3) -/

/-- On any page whose header is sane and whose free space can hold the tuple
uncompressed, `insert_tuple` succeeds and `get_tuple` on the returned slot id
yields exactly the inserted bytes. -/
theorem insert_get_roundtrip (C : Codec) (hC : C.Lawful) (p : Page) (data : List Nat)
    (hfseP : free_space_end p ≤ PAGE_SIZE)
    (hspace : data.length + 1 + SLOT_SIZE ≤ free_space p)
    (hb : ∀ b ∈ data, b < 256) :
    (insert_tuple C p data).1 = .ok (num_slots p) ∧
    get_tuple C (insert_tuple C p data).2 (num_slots p) = some data := by
  have hH : HEADER_SIZE = 8 := rfl
  have hS : SLOT_SIZE = 4 := rfl
  have hP : PAGE_SIZE = 8192 := rfl
  have hflag := mkFinal_flag_lt C data
  have hfb := mkFinal_bytes_lt C hC data hb
  have hflen_le := mkFinal_len_le C data
  set flen := (mkFinal C data).2.length with hflen_def
  replace hspace : data.length + 1 + 4 ≤ free_space p := by
    rw [hS] at hspace
    exact hspace
  replace hfseP : free_space_end p ≤ 8192 := by
    rw [hP] at hfseP
    exact hfseP
  have hspace' : ¬ free_space p < flen + 1 + SLOT_SIZE := by
    rw [hS]
    omega
  have hfs_pos : 0 < free_space p := by omega
  have hhdr_le : HEADER_SIZE + num_slots p * SLOT_SIZE ≤ free_space_end p := by
    by_contra hcon
    rw [free_space_eq, if_neg hcon] at hfs_pos
    omega
  have hfsp : free_space p =
      free_space_end p - (8 + num_slots p * 4) := by
    rw [free_space_eq, if_pos hhdr_le, hH, hS]
  have hdirOK : slotPos (num_slots p) + SLOT_SIZE + (flen + 1) ≤ free_space_end p := by
    have hsp : slotPos (num_slots p) = 8 + num_slots p * 4 := rfl
    rw [hsp, hS]
    omega
  obtain ⟨hwd, hwfse, hwoff, hwlen, hwread, hwframe⟩ :=
    writeTuple_spec p (num_slots p) (mkFinal C data).1 (mkFinal C data).2 hflag hfb hdirOK
  rw [insert_tuple_eq, if_neg hspace', if_neg hspace']
  refine ⟨rfl, ?_⟩
  set fse := free_space_end p with hfse_def
  set newOff := fse - (flen + 1) with hnewOff_def
  set q1 := writeTuple p (num_slots p) (mkFinal C data).1 (mkFinal C data).2 with hq1_def
  have hq2frame : ∀ a, 4 ≤ a →
      readByte (set_num_slots q1 (num_slots p + 1)).data a = readByte q1.data a := by
    intro a ha
    show readByte (writeU16 q1.data 0 (num_slots p + 1)) a = readByte q1.data a
    unfold writeU16
    rw [readByte_memWrite_ne _ _ _ _ (by omega), readByte_memWrite_ne _ _ _ _ (by omega)]
  have hq2U16 : ∀ a, 4 ≤ a →
      readU16 (set_num_slots q1 (num_slots p + 1)).data a = readU16 q1.data a := by
    intro a ha
    exact readU16_congr (hq2frame _ (by omega)) (hq2frame _ (by omega))
  have hnumlt : num_slots p < 65536 := by
    have := readU16_lt p.data 0
    exact this
  have hN2046 : num_slots p ≤ 2046 := by
    omega
  have hnum2 : num_slots (set_num_slots q1 (num_slots p + 1)) = num_slots p + 1 := by
    show readU16 (writeU16 q1.data 0 (num_slots p + 1)) 0 = num_slots p + 1
    rw [readU16_writeU16_self]
    exact Nat.mod_eq_of_lt (by omega)
  have hsp : slotPos (num_slots p) = 8 + num_slots p * 4 := rfl
  have hnewOff_ge : 12 + num_slots p * 4 ≤ newOff := by
    rw [hnewOff_def, hfse_def]
    omega
  have hoff2 : readU16 (set_num_slots q1 (num_slots p + 1)).data
      (slotPos (num_slots p)) = newOff := by
    rw [hq2U16 _ (by rw [hsp]; omega)]
    exact hwoff
  have hlen2 : readU16 (set_num_slots q1 (num_slots p + 1)).data
      (slotPos (num_slots p) + 2) = flen + 1 := by
    rw [hq2U16 _ (by rw [hsp]; omega)]
    exact hwlen
  have hread2 : readBytes (set_num_slots q1 (num_slots p + 1)).data newOff (flen + 1) =
      (mkFinal C data).1 :: (mkFinal C data).2 := by
    rw [← hwread]
    apply readBytes_congr
    intro k hk
    exact hq2frame _ (by omega)
  have hgoal : get_tuple C (set_num_slots q1 (num_slots p + 1)) (num_slots p) =
      if num_slots p ≥ num_slots (set_num_slots q1 (num_slots p + 1)) then none
      else if readU16 (set_num_slots q1 (num_slots p + 1)).data
          (slotPos (num_slots p)) = 0 then none
      else if readU16 (set_num_slots q1 (num_slots p + 1)).data (slotPos (num_slots p)) +
          readU16 (set_num_slots q1 (num_slots p + 1)).data
            (slotPos (num_slots p) + 2) > PAGE_SIZE then none
      else interpStored C (readBytes (set_num_slots q1 (num_slots p + 1)).data
        (readU16 (set_num_slots q1 (num_slots p + 1)).data (slotPos (num_slots p)))
        (readU16 (set_num_slots q1 (num_slots p + 1)).data
          (slotPos (num_slots p) + 2))) := rfl
  rw [hgoal, hnum2, if_neg (by omega), hoff2, hlen2, if_neg (by omega),
    if_neg (by rw [hP]; omega), hread2]
  exact interpStored_storedOf C hC data

/-! ### Dirty-flag behaviour (claim C9) -/

theorem compactWrite_dirty (es : List (Nat × List Nat)) :
    ∀ q : Page, q.dirty = true → (compactWrite q es).dirty = true := by
  induction es with
  | nil => intro q h; exact h
  | cons e rest ih =>
    intro q h
    obtain ⟨i, bs⟩ := e
    rw [compactWrite_cons]
    exact ih _ rfl

/-- `compact` always marks the page dirty. -/
theorem compact_dirty (p : Page) : (compact p).dirty = true := by
  have h : compact p = compactWrite (set_free_space_end p PAGE_SIZE) (collectValid p) :=
    rfl
  rw [h]
  exact compactWrite_dirty _ _ rfl

/-- A successful `insert_tuple` marks the page dirty. -/
theorem insert_tuple_dirty (C : Codec) (p : Page) (data : List Nat) (sid : Nat)
    (h : (insert_tuple C p data).1 = .ok sid) : (insert_tuple C p data).2.dirty = true := by
  rw [insert_tuple_eq] at h ⊢
  by_cases hc : free_space (if free_space p < (mkFinal C data).2.length + 1 + SLOT_SIZE
      then compact p else p) < (mkFinal C data).2.length + 1 + SLOT_SIZE
  · rw [if_pos hc] at h
    simp at h
  · rw [if_neg hc]
    rfl

/-- A successful `update_tuple` marks the page dirty. -/
theorem update_tuple_dirty (C : Codec) (p : Page) (sid : Nat) (data : List Nat)
    (h : (update_tuple C p sid data).1 = .ok ()) :
    (update_tuple C p sid data).2.dirty = true := by
  have hred : update_tuple C p sid data =
      if sid ≥ num_slots p then (.error "Invalid slot ID", p)
      else if free_space (if free_space p < (mkFinal C data).2.length + 1 then
          compact p else p) < (mkFinal C data).2.length + 1 then
        (.error "Not enough space on page for update",
          if free_space p < (mkFinal C data).2.length + 1 then compact p else p)
      else (.ok (), writeTuple
        (if free_space p < (mkFinal C data).2.length + 1 then compact p else p)
        sid (mkFinal C data).1 (mkFinal C data).2) := rfl
  rw [hred] at h ⊢
  by_cases h1 : sid ≥ num_slots p
  · rw [if_pos h1] at h
    simp at h
  · rw [if_neg h1] at h ⊢
    by_cases h2 : free_space (if free_space p < (mkFinal C data).2.length + 1 then
        compact p else p) < (mkFinal C data).2.length + 1
    · rw [if_pos h2] at h
      simp at h
    · rw [if_neg h2]
      rfl

/-! ### Decode failure on read (claim C5) -/

/-- When a stored tuple's flag byte is 1 and its body fails to decode,
`get_tuple` returns `none` — exactly what it returns for an out-of-range or
tombstoned slot; no error is reported. -/
theorem get_tuple_decode_failure_none (C : Codec) (p : Page) (i : Nat)
    (hi : i < num_slots p)
    (hoff : readU16 p.data (slotPos i) ≠ 0)
    (hbound : readU16 p.data (slotPos i) + readU16 p.data (slotPos i + 2) ≤ PAGE_SIZE)
    (hlen0 : readU16 p.data (slotPos i + 2) ≠ 0)
    (hflag : readByte p.data (readU16 p.data (slotPos i)) = 1)
    (hdec : C.decompress (readBytes p.data (readU16 p.data (slotPos i) + 1)
      (readU16 p.data (slotPos i + 2) - 1)) = none) :
    get_tuple C p i = none := by
  have hgoal : get_tuple C p i =
      if i ≥ num_slots p then none
      else if readU16 p.data (slotPos i) = 0 then none
      else if readU16 p.data (slotPos i) + readU16 p.data (slotPos i + 2) > PAGE_SIZE then
        none
      else
        interpStored C
          (readBytes p.data (readU16 p.data (slotPos i)) (readU16 p.data (slotPos i + 2))) :=
    rfl
  rw [hgoal, if_neg (by omega), if_neg hoff, if_neg (by omega)]
  obtain ⟨n, hn⟩ : ∃ n, readU16 p.data (slotPos i + 2) = n + 1 :=
    ⟨readU16 p.data (slotPos i + 2) - 1, by omega⟩
  rw [hn, readBytes_succ, hflag]
  show (if (1 : Nat) = 1 then
      C.decompress (readBytes p.data (readU16 p.data (slotPos i) + 1) n)
    else some (readBytes p.data (readU16 p.data (slotPos i) + 1) n)) = none
  rw [if_pos rfl]
  rw [hn] at hdec
  simpa using hdec

/-- `get_tuple` on an out-of-range slot id is `none`. -/
theorem get_tuple_out_of_range (C : Codec) (p : Page) (i : Nat)
    (hi : i ≥ num_slots p) : get_tuple C p i = none := by
  have hgoal : get_tuple C p i =
      if i ≥ num_slots p then none
      else if readU16 p.data (slotPos i) = 0 then none
      else if readU16 p.data (slotPos i) + readU16 p.data (slotPos i + 2) > PAGE_SIZE then
        none
      else
        interpStored C
          (readBytes p.data (readU16 p.data (slotPos i)) (readU16 p.data (slotPos i + 2))) :=
    rfl
  rw [hgoal, if_pos hi]

/-- `get_tuple` on a tombstoned slot (offset 0) is `none`. -/
theorem get_tuple_tombstone (C : Codec) (p : Page) (i : Nat)
    (hi : i < num_slots p) (hoff : readU16 p.data (slotPos i) = 0) :
    get_tuple C p i = none := by
  have hgoal : get_tuple C p i =
      if i ≥ num_slots p then none
      else if readU16 p.data (slotPos i) = 0 then none
      else if readU16 p.data (slotPos i) + readU16 p.data (slotPos i + 2) > PAGE_SIZE then
        none
      else
        interpStored C
          (readBytes p.data (readU16 p.data (slotPos i)) (readU16 p.data (slotPos i + 2))) :=
    rfl
  rw [hgoal, if_neg (by omega), if_pos hoff]

end SlottedPage

/-! ## B+ tree index (`src/storage/index.rs`)

The index stores one node per page; nodes are modelled structurally (the
in-page byte layout of `BTreeNode` is abstracted into its fields: leaf flag,
entries in slot order, `next_leaf`).  Keys are `u32`, values are
`(page_id : u32, slot_id : u16)` locators.  The node store is an association
list from page id to node, standing for the pages reached through the buffer
pool. -/

namespace BTreeIndex

/-- `LEAF_ORDER = (PAGE_SIZE - HEADER_SIZE) / (KEY_SIZE + VALUE_SIZE)`
with the constants of `src/storage/index.rs` (12, 4, 6). -/
def LEAF_ORDER : Nat := (8192 - 12) / (4 + 6)

abbrev Locator := Nat × Nat

inductive BTreeNode where
  | leaf (entries : List (Nat × Locator)) (nextLeaf : Nat)
  | internal (p0 : Nat) (entries : List (Nat × Nat))
deriving DecidableEq, Repr

abbrev NodeMap := List (Nat × BTreeNode)

def lookupNode (pages : NodeMap) (pid : Nat) : Option BTreeNode :=
  match pages with
  | [] => none
  | (q, n) :: rest => if q = pid then some n else lookupNode rest pid

def updateNode (pages : NodeMap) (pid : Nat) (n : BTreeNode) : NodeMap :=
  match pages with
  | [] => [(pid, n)]
  | (q, m) :: rest =>
    if q = pid then (q, n) :: rest else (q, m) :: updateNode rest pid n

/-- `BTreeNode::lookup_internal`: `[P0][K1 P1]…[Kn Pn]`; follow `P_{i-1}` for
the first `K_i` greater than the key, else the rightmost pointer; `P0` when
there are no keys. -/
def lookup_internal (p0 : Nat) (entries : List (Nat × Nat)) (key : Nat) : Nat :=
  match entries with
  | [] => p0
  | (k, p) :: rest => if key < k then p0 else lookup_internal p rest key

/-- `BTreeNode::search_leaf`: linear scan for an exact key match. -/
def search_leaf (entries : List (Nat × Locator)) (key : Nat) : Option Locator :=
  match entries with
  | [] => none
  | (k, v) :: rest => if k = key then some v else search_leaf rest key

/-- `BTreeNode::insert_leaf`: insert before the first strictly greater key
(shifting the rest right). -/
def insert_leaf (entries : List (Nat × Locator)) (key : Nat) (value : Locator) :
    List (Nat × Locator) :=
  match entries with
  | [] => [(key, value)]
  | (k, v) :: rest =>
    if k > key then (key, value) :: (k, v) :: rest
    else (k, v) :: insert_leaf rest key value

/-- `BTreeIndex::find_leaf`: descend from the root; fuel bounds the loop. -/
def find_leaf (pages : NodeMap) (key : Nat) : Nat → Nat → Option Nat
  | _, 0 => none
  | pid, fuel + 1 =>
    match lookupNode pages pid with
    | none => none
    | some (.leaf _ _) => some pid
    | some (.internal p0 entries) =>
      find_leaf pages key (lookup_internal p0 entries key) fuel

/-- The whole index state: node store, root page id, allocation cursor for
`BufferPool::new_page`. -/
structure BTree where
  pages : NodeMap
  rootPageId : Nat
  nextAlloc : Nat
deriving Repr

/-- `BTreeIndex::init` on a freshly allocated root page. -/
def initBTree (root : Nat) : BTree :=
  { pages := [(root, .leaf [] 0)], rootPageId := root, nextAlloc := root + 1 }

/-- `BTreeIndex::search`. -/
def search (t : BTree) (key : Nat) : Except String (Option Locator) :=
  match find_leaf t.pages key t.rootPageId (t.pages.length + 1) with
  | none => .error "find_leaf failed"
  | some pid =>
    match lookupNode t.pages pid with
    | some (.leaf entries _) => .ok (search_leaf entries key)
    | _ => .error "corrupt node"

/-- `BTreeIndex::insert`.  Mirrors the source: a leaf with room takes the
entry; a full leaf is split (upper half moved to a fresh page, `next_leaf`
links updated) but the new entry is NOT inserted into either half; if the
split leaf was the root, a new internal root node is built on a second fresh
page and the function returns the `Index split not fully implemented` error
(the catalog still points at the old root); a non-root split returns `Ok`
with the entry silently dropped. -/
def insert (t : BTree) (key : Nat) (value : Locator) : Except String Unit × BTree :=
  match find_leaf t.pages key t.rootPageId (t.pages.length + 1) with
  | none => (.error "find_leaf failed", t)
  | some leafPid =>
    match lookupNode t.pages leafPid with
    | some (.leaf entries nextLeaf) =>
      if entries.length < LEAF_ORDER then
        (.ok (), { t with
          pages := updateNode t.pages leafPid (.leaf (insert_leaf entries key value) nextLeaf) })
      else
        let newPid := t.nextAlloc
        let splitIdx := LEAF_ORDER / 2
        let leftEntries := entries.take splitIdx
        let rightEntries := entries.drop splitIdx
        let pages1 := updateNode t.pages leafPid (.leaf leftEntries newPid)
        let pages2 := updateNode pages1 newPid (.leaf rightEntries nextLeaf)
        if leafPid = t.rootPageId then
          let promoteKey := (rightEntries.headD (0, (0, 0))).1
          let newRootPid := t.nextAlloc + 1
          let pages3 := updateNode pages2 newRootPid (.internal leafPid [(promoteKey, newPid)])
          (.error "Index split not fully implemented",
            { t with pages := pages3, nextAlloc := t.nextAlloc + 2 })
        else
          (.ok (), { t with pages := pages2, nextAlloc := t.nextAlloc + 1 })
    | _ => (.error "corrupt node", t)

/-- A sequence of inserts, stopping at the first error (as the executor's
`?` operator does). -/
def insertList (t : BTree) : List (Nat × Locator) → Except String Unit × BTree
  | [] => (.ok (), t)
  | (k, v) :: rest =>
    match insert t k v with
    | (.ok _, t') => insertList t' rest
    | (.error e, t') => (.error e, t')

end BTreeIndex

namespace BTreeIndex

/-! ### Single-leaf regime: the ordered-map property (claim C1) -/

theorem search_leaf_none_iff (entries : List (Nat × Locator)) (k : Nat) :
    search_leaf entries k = none ↔ k ∉ entries.map Prod.fst := by
  induction entries with
  | nil => simp [search_leaf]
  | cons e rest ih =>
    obtain ⟨k0, v0⟩ := e
    unfold search_leaf
    by_cases h : k0 = k
    · subst h
      simp
    · rw [if_neg h]
      simp [ih, h, Ne.symm h]

theorem insert_leaf_length (entries : List (Nat × Locator)) (k : Nat) (v : Locator) :
    (insert_leaf entries k v).length = entries.length + 1 := by
  induction entries with
  | nil => rfl
  | cons e rest ih =>
    obtain ⟨k0, v0⟩ := e
    unfold insert_leaf
    split
    · simp
    · simp [ih]

theorem search_leaf_insert_self (entries : List (Nat × Locator)) (k : Nat) (v : Locator)
    (h : search_leaf entries k = none) :
    search_leaf (insert_leaf entries k v) k = some v := by
  induction entries with
  | nil => simp [insert_leaf, search_leaf]
  | cons e rest ih =>
    obtain ⟨k0, v0⟩ := e
    unfold search_leaf at h
    unfold insert_leaf
    split
    · unfold search_leaf
      rw [if_pos rfl]
    · split at h
      · cases h
      · rename_i hne
        unfold search_leaf
        rw [if_neg hne]
        exact ih h

theorem search_leaf_insert_other (entries : List (Nat × Locator)) (k k' : Nat)
    (v : Locator) (h : k' ≠ k) :
    search_leaf (insert_leaf entries k v) k' = search_leaf entries k' := by
  induction entries with
  | nil =>
    unfold insert_leaf search_leaf
    rw [if_neg (fun he => h he.symm)]
    rfl
  | cons e rest ih =>
    obtain ⟨k0, v0⟩ := e
    unfold insert_leaf
    split
    · show (if k = k' then some v else search_leaf ((k0, v0) :: rest) k') = _
      rw [if_neg (fun he => h he.symm)]
    · show (if k0 = k' then some v0 else search_leaf (insert_leaf rest k v) k') =
          (if k0 = k' then some v0 else search_leaf rest k')
      rw [ih]

/-- With pairwise-distinct keys, `search_leaf` finds each pair of the list. -/
theorem search_leaf_of_mem (ps : List (Nat × Locator)) (hnodup : (ps.map Prod.fst).Nodup) :
    ∀ k v, (k, v) ∈ ps → search_leaf ps k = some v := by
  induction ps with
  | nil => intro k v h; cases h
  | cons e rest ih =>
    obtain ⟨k0, v0⟩ := e
    intro k v hmem
    have hnd : k0 ∉ rest.map Prod.fst ∧ (rest.map Prod.fst).Nodup :=
      List.nodup_cons.mp hnodup
    rcases List.mem_cons.mp hmem with heq | hmem'
    · cases heq
      unfold search_leaf
      rw [if_pos rfl]
    · unfold search_leaf
      split
      · rename_i heq0
        subst heq0
        exact absurd (List.mem_map.mpr ⟨(k0, v), hmem', rfl⟩) hnd.1
      · exact ih hnd.2 k v hmem'

/-- A single root leaf with the given entries. -/
def singleLeaf (root : Nat) (entries : List (Nat × Locator)) (alloc : Nat) : BTree :=
  { pages := [(root, .leaf entries 0)], rootPageId := root, nextAlloc := alloc }

theorem search_singleLeaf (root : Nat) (entries : List (Nat × Locator)) (alloc k : Nat) :
    search (singleLeaf root entries alloc) k = .ok (search_leaf entries k) := by
  unfold search singleLeaf find_leaf
  simp [lookupNode, find_leaf]

theorem insert_singleLeaf (root : Nat) (entries : List (Nat × Locator)) (alloc k : Nat)
    (v : Locator) (hlen : entries.length < LEAF_ORDER) :
    insert (singleLeaf root entries alloc) k v =
      (.ok (), singleLeaf root (insert_leaf entries k v) alloc) := by
  simp [insert, singleLeaf, find_leaf, lookupNode, updateNode, hlen]

theorem insertList_singleLeaf (root alloc : Nat) :
    ∀ (ps : List (Nat × Locator)) (E : List (Nat × Locator)),
      E.length + ps.length ≤ LEAF_ORDER →
      (∀ k, k ∈ ps.map Prod.fst → search_leaf E k = none) →
      (ps.map Prod.fst).Nodup →
      ∃ E', insertList (singleLeaf root E alloc) ps = (.ok (), singleLeaf root E' alloc) ∧
        E'.length = E.length + ps.length ∧
        ∀ k, search_leaf E' k =
          match search_leaf E k with
          | some v => some v
          | none => search_leaf ps k := by
  intro ps
  induction ps with
  | nil =>
    intro E _ _ _
    refine ⟨E, rfl, by simp, ?_⟩
    intro k
    cases h : search_leaf E k <;> simp [search_leaf]
  | cons e rest ih =>
    obtain ⟨k, v⟩ := e
    intro E hlen hnone hnodup
    have hkE : search_leaf E k = none := hnone k (by simp)
    have hnd : k ∉ rest.map Prod.fst ∧ (rest.map Prod.fst).Nodup :=
      List.nodup_cons.mp hnodup
    have hstep := insert_singleLeaf root E alloc k v (by simp at hlen; omega)
    have hrun : insertList (singleLeaf root E alloc) ((k, v) :: rest) =
        insertList (singleLeaf root (insert_leaf E k v) alloc) rest := by
      show (match insert (singleLeaf root E alloc) k v with
        | (.ok _, t') => insertList t' rest
        | (.error e, t') => (.error e, t')) = _
      rw [hstep]
    obtain ⟨E', hE'run, hE'len, hE'search⟩ := ih (insert_leaf E k v)
      (by rw [insert_leaf_length]; simp at hlen ⊢; omega)
      (by
        intro k' hk'
        have hne : k' ≠ k := by
          intro h
          subst h
          exact hnd.1 hk'
        rw [search_leaf_insert_other E k k' v hne]
        exact hnone k' (by simp [hk']))
      hnd.2
    refine ⟨E', by rw [hrun, hE'run], by rw [hE'len, insert_leaf_length]; simp; omega, ?_⟩
    intro k''
    rw [hE'search k'']
    by_cases hk'' : k'' = k
    · subst hk''
      rw [search_leaf_insert_self E k'' v hkE, hkE]
      show _ = search_leaf ((k'', v) :: rest) k''
      unfold search_leaf
      rw [if_pos rfl]
    · rw [search_leaf_insert_other E k k'' v hk'']
      cases hE : search_leaf E k''
      · show search_leaf rest k'' = search_leaf ((k, v) :: rest) k''
        have hcons : search_leaf ((k, v) :: rest) k'' =
            if k = k'' then some v else search_leaf rest k'' := rfl
        rw [hcons, if_neg (fun h => hk'' h.symm)]
      · rfl

end BTreeIndex

/-! ## JSON values and the serde byte codec

The executor manipulates `serde_json::Value`s.  We model the integer-numbered
fragment: a JSON number is an exact integer (`serde_json` parses integer
literals to `i64`/`u64`; the `as_f64` coercion used by the comparators is
exact on integers of magnitude up to `2^53`, within which this model is
faithful).  `serde_json::to_vec` / `from_slice` are an external library; they
are modelled by a concrete injective byte serialization with a total decoder
on its image — the engine relies only on the round trip, which is proved
below. -/

inductive Json where
  | null
  | bool (b : Bool)
  | int (n : Int)
  | str (s : String)
  | arr (items : List Json)
  | obj (fields : List (String × Json))

namespace Json

/-- `serde_json::Value::get` on an object key. -/
def get : Json → String → Option Json
  | .obj fields, key => lookupField fields key
  | _, _ => none
where lookupField : List (String × Json) → String → Option Json
  | [], _ => none
  | (k, v) :: rest, key => if k = key then some v else lookupField rest key

/-- `as_f64`: every integer number coerces (exactly, in this model). -/
def asF64 : Json → Option Int
  | .int n => some n
  | _ => none

/-- `as_i64`. -/
def asI64 : Json → Option Int
  | .int n => if -(2 ^ 63) ≤ n ∧ n < 2 ^ 63 then some n else none
  | _ => none

/-- `as_u64`. -/
def asU64 : Json → Option Nat
  | .int n => if 0 ≤ n ∧ n < 2 ^ 64 then some n.toNat else none
  | _ => none

def asStr : Json → Option String
  | .str s => some s
  | _ => none

def asArray : Json → Option (List Json)
  | .arr xs => some xs
  | _ => none

/-- `serde_json::Map::insert` (a `BTreeMap`: sorted unique keys). -/
def mapInsert : List (String × Json) → String → Json → List (String × Json)
  | [], k, v => [(k, v)]
  | (k0, v0) :: rest, k, v =>
    if k = k0 then (k, v) :: rest
    else if k < k0 then (k, v) :: (k0, v0) :: rest
    else (k0, v0) :: mapInsert rest k v

end Json

/-! ### Byte serialization -/

/-- Little-endian base-255 digits, with a structural fuel (the fuel is
always at least the number being encoded, so the last equation is never
taken). -/
def nat255go : Nat → Nat → List Nat
  | _, 0 => []
  | fuel + 1, n + 1 => (n + 1) % 255 :: nat255go fuel ((n + 1) / 255)
  | 0, n + 1 => [(n + 1) % 255]

/-- Little-endian base-255 digits (every digit `< 255`). -/
def nat255 (n : Nat) : List Nat := nat255go n n

theorem nat255go_congr : ∀ fuel fuel' n, n ≤ fuel → n ≤ fuel' →
    nat255go fuel n = nat255go fuel' n := by
  intro fuel
  induction fuel with
  | zero =>
    intro fuel' n h1 _
    have hn : n = 0 := by omega
    subst hn
    cases fuel' <;> rfl
  | succ fuel ihf =>
    intro fuel' n h1 h2
    cases n with
    | zero => cases fuel' <;> rfl
    | succ m =>
      cases fuel' with
      | zero => omega
      | succ f' =>
        show (m + 1) % 255 :: nat255go fuel ((m + 1) / 255) =
          (m + 1) % 255 :: nat255go f' ((m + 1) / 255)
        have hdiv : (m + 1) / 255 ≤ m := by
          have := Nat.div_lt_self (Nat.succ_pos m) (by omega : (1 : Nat) < 255)
          omega
        rw [ihf f' ((m + 1) / 255) (by omega) (by omega)]

theorem nat255_zero : nat255 0 = [] := rfl

theorem nat255_succ (n : Nat) :
    nat255 (n + 1) = (n + 1) % 255 :: nat255 ((n + 1) / 255) := by
  show nat255go (n + 1) (n + 1) =
    (n + 1) % 255 :: nat255go ((n + 1) / 255) ((n + 1) / 255)
  show (n + 1) % 255 :: nat255go n ((n + 1) / 255) = _
  have hdiv : (n + 1) / 255 ≤ n := by
    have := Nat.div_lt_self (Nat.succ_pos n) (by omega : (1 : Nat) < 255)
    omega
  rw [nat255go_congr n ((n + 1) / 255) ((n + 1) / 255) hdiv le_rfl]

def from255 : List Nat → Nat
  | [] => 0
  | d :: ds => d + 255 * from255 ds

/-- Length field: base-255 digits closed by a 255 marker. -/
def natEnc (n : Nat) : List Nat := nat255 n ++ [255]

def natDec : List Nat → Option (Nat × List Nat)
  | [] => none
  | d :: r =>
    if d = 255 then some (0, r)
    else
      match natDec r with
      | some (m, r') => some (d + 255 * m, r')
      | none => none

theorem nat255_lt (n : Nat) : ∀ d ∈ nat255 n, d < 255 := by
  induction n using Nat.strong_induction_on with
  | _ n ih =>
    match n with
    | 0 =>
      intro d h
      rw [nat255_zero] at h
      cases h
    | m + 1 =>
      intro d h
      rw [nat255_succ] at h
      rcases List.mem_cons.mp h with rfl | h2
      · exact Nat.mod_lt _ (by omega)
      · exact ih ((m + 1) / 255) (Nat.div_lt_self (Nat.succ_pos m) (by omega)) d h2

theorem from255_nat255 (n : Nat) : from255 (nat255 n) = n := by
  induction n using Nat.strong_induction_on with
  | _ n ih =>
    match n with
    | 0 =>
      rw [nat255_zero]
      rfl
    | m + 1 =>
      rw [nat255_succ, from255,
        ih ((m + 1) / 255) (Nat.div_lt_self (Nat.succ_pos m) (by omega))]
      omega

theorem natDec_digits (ds : List Nat) (h : ∀ d ∈ ds, d < 255) (r : List Nat) :
    natDec (ds ++ 255 :: r) = some (from255 ds, r) := by
  induction ds with
  | nil =>
    show natDec (255 :: r) = some (0, r)
    unfold natDec
    rw [if_pos rfl]
  | cons d rest ih =>
    have hd : d < 255 := h d (by simp)
    show natDec (d :: (rest ++ 255 :: r)) = some (from255 (d :: rest), r)
    unfold natDec
    rw [if_neg (by omega), ih (fun x hx => h x (by simp [hx]))]
    rfl

theorem natDec_natEnc (n : Nat) (r : List Nat) : natDec (natEnc n ++ r) = some (n, r) := by
  unfold natEnc
  rw [List.append_assoc]
  show natDec (nat255 n ++ 255 :: r) = some (n, r)
  rw [natDec_digits (nat255 n) (nat255_lt n) r, from255_nat255]

theorem natEnc_lt (n : Nat) : ∀ b ∈ natEnc n, b < 256 := by
  intro b hb
  unfold natEnc at hb
  rcases List.mem_append.mp hb with h | h
  · exact lt_trans (nat255_lt n b h) (by omega)
  · simp at h
    omega

def charEnc (c : Char) : List Nat :=
  [c.toNat % 256, c.toNat / 256 % 256, c.toNat / 65536]

def charDec : List Nat → Option (Char × List Nat)
  | b0 :: b1 :: b2 :: r => some (Char.ofNat (b0 + 256 * b1 + 65536 * b2), r)
  | _ => none

def charsEnc : List Char → List Nat
  | [] => []
  | c :: cs => charEnc c ++ charsEnc cs

def charsDec : Nat → List Nat → Option (List Char × List Nat)
  | 0, r => some ([], r)
  | n + 1, r =>
    match charDec r with
    | some (c, r') =>
      match charsDec n r' with
      | some (cs, r'') => some (c :: cs, r'')
      | none => none
    | none => none

theorem char_toNat_lt (c : Char) : c.toNat < 16777216 := by
  have h := c.valid
  rcases h with h | ⟨_, h⟩
  · have : c.val.toNat < 55296 := h
    unfold Char.toNat
    omega
  · have : c.val.toNat < 1114112 := h
    unfold Char.toNat
    omega

theorem charDec_charEnc (c : Char) (r : List Nat) :
    charDec (charEnc c ++ r) = some (c, r) := by
  have hlt := char_toNat_lt c
  have harith : c.toNat % 256 + 256 * (c.toNat / 256 % 256) + 65536 * (c.toNat / 65536) =
      c.toNat := by omega
  show some (Char.ofNat (c.toNat % 256 + 256 * (c.toNat / 256 % 256) +
    65536 * (c.toNat / 65536)), r) = some (c, r)
  rw [harith, Char.ofNat_toNat]

theorem charsDec_charsEnc (cs : List Char) (r : List Nat) :
    charsDec cs.length (charsEnc cs ++ r) = some (cs, r) := by
  induction cs with
  | nil => rfl
  | cons c rest ih =>
    show charsDec (rest.length + 1) (charEnc c ++ charsEnc rest ++ r) = _
    unfold charsDec
    rw [List.append_assoc, charDec_charEnc]
    show (match charsDec rest.length (charsEnc rest ++ r) with
      | some (cs, r'') => some (c :: cs, r'')
      | none => none) = some (c :: rest, r)
    rw [ih]

theorem charEnc_lt (c : Char) : ∀ b ∈ charEnc c, b < 256 := by
  intro b hb
  have hlt := char_toNat_lt c
  simp only [charEnc, List.mem_cons, List.not_mem_nil, or_false] at hb
  rcases hb with rfl | rfl | rfl <;> omega

theorem charsEnc_lt (cs : List Char) : ∀ b ∈ charsEnc cs, b < 256 := by
  induction cs with
  | nil => intro b hb; cases hb
  | cons c rest ih =>
    intro b hb
    unfold charsEnc at hb
    rcases List.mem_append.mp hb with h | h
    · exact charEnc_lt c b h
    · exact ih b h

/-! ### The value codec (model of `serde_json::to_vec` / `from_slice`) -/

mutual
def encodeVal : Json → List Nat
  | .null => [0]
  | .bool false => [1, 0]
  | .bool true => [1, 1]
  | .int n => 2 :: (if n < 0 then 1 else 0) :: natEnc n.natAbs
  | .str s => 3 :: (natEnc s.data.length ++ charsEnc s.data)
  | .arr xs => 4 :: (natEnc xs.length ++ encodeList xs)
  | .obj fs => 5 :: (natEnc fs.length ++ encodeFields fs)
def encodeList : List Json → List Nat
  | [] => []
  | x :: xs => encodeVal x ++ encodeList xs
def encodeFields : List (String × Json) → List Nat
  | [] => []
  | (k, v) :: fs => natEnc k.data.length ++ charsEnc k.data ++ encodeVal v ++ encodeFields fs
end

/-- Decode `n` consecutive values with the given element decoder. -/
def decodeListF (dv : List Nat → Option (Json × List Nat)) :
    Nat → List Nat → Option (List Json × List Nat)
  | 0, r => some ([], r)
  | n + 1, r =>
    match dv r with
    | some (v, r') =>
      match decodeListF dv n r' with
      | some (vs, r'') => some (v :: vs, r'')
      | none => none
    | none => none

/-- Decode `n` consecutive key/value pairs with the given value decoder. -/
def decodeFieldsF (dv : List Nat → Option (Json × List Nat)) :
    Nat → List Nat → Option (List (String × Json) × List Nat)
  | 0, r => some ([], r)
  | n + 1, r =>
    match natDec r with
    | some (kl, r1) =>
      match charsDec kl r1 with
      | some (cs, r2) =>
        match dv r2 with
        | some (v, r3) =>
          match decodeFieldsF dv n r3 with
          | some (fs, r4) => some ((⟨cs⟩, v) :: fs, r4)
          | none => none
        | none => none
      | none => none
    | none => none

def decodeVal : Nat → List Nat → Option (Json × List Nat)
  | 0, _ => none
  | fuel + 1, bs =>
    match bs with
    | 0 :: r => some (.null, r)
    | 1 :: 0 :: r => some (.bool false, r)
    | 1 :: 1 :: r => some (.bool true, r)
    | 2 :: s :: r =>
      match natDec r with
      | some (m, r') =>
        if s = 1 then some (.int (-(m : Int)), r') else some (.int (m : Int), r')
      | none => none
    | 3 :: r =>
      match natDec r with
      | some (n, r') =>
        match charsDec n r' with
        | some (cs, r'') => some (.str ⟨cs⟩, r'')
        | none => none
      | none => none
    | 4 :: r =>
      match natDec r with
      | some (n, r') =>
        match decodeListF (decodeVal fuel) n r' with
        | some (vs, r'') => some (.arr vs, r'')
        | none => none
      | none => none
    | 5 :: r =>
      match natDec r with
      | some (n, r') =>
        match decodeFieldsF (decodeVal fuel) n r' with
        | some (fs, r'') => some (.obj fs, r'')
        | none => none
      | none => none
    | _ => none

def decodeList (fuel : Nat) : Nat → List Nat → Option (List Json × List Nat) :=
  decodeListF (decodeVal fuel)

def decodeFields (fuel : Nat) : Nat → List Nat → Option (List (String × Json) × List Nat) :=
  decodeFieldsF (decodeVal fuel)

mutual
def jsize : Json → Nat
  | .null => 1
  | .bool _ => 1
  | .int _ => 1
  | .str _ => 1
  | .arr xs => 1 + jsizeList xs
  | .obj fs => 1 + jsizeFields fs
def jsizeList : List Json → Nat
  | [] => 0
  | x :: xs => jsize x + jsizeList xs
def jsizeFields : List (String × Json) → Nat
  | [] => 0
  | (_, v) :: fs => jsize v + jsizeFields fs
end

theorem jsize_pos : ∀ v : Json, 1 ≤ jsize v := by
  intro v
  cases v <;> rw [jsize] <;> omega

theorem jsize_le_of_mem {x : Json} : ∀ {xs : List Json}, x ∈ xs → jsize x ≤ jsizeList xs := by
  intro xs
  induction xs with
  | nil => intro h; cases h
  | cons y ys ih =>
    intro h
    rw [jsizeList]
    rcases List.mem_cons.mp h with rfl | h2
    · omega
    · have := ih h2
      omega

theorem jsize_le_of_mem_fields {k : String} {v : Json} :
    ∀ {fs : List (String × Json)}, (k, v) ∈ fs → jsize v ≤ jsizeFields fs := by
  intro fs
  induction fs with
  | nil => intro h; cases h
  | cons f gs ih =>
    obtain ⟨k0, v0⟩ := f
    intro h
    rw [jsizeFields]
    rcases List.mem_cons.mp h with heq | h2
    · cases heq
      omega
    · have := ih h2
      omega

theorem decodeVal_encodeVal :
    ∀ fuel (v : Json), jsize v ≤ fuel → ∀ r,
      decodeVal fuel (encodeVal v ++ r) = some (v, r) := by
  intro fuel
  induction fuel with
  | zero =>
    intro v hv
    have := jsize_pos v
    omega
  | succ fuel ih =>
    have hlist : ∀ xs : List Json, (∀ x ∈ xs, jsize x ≤ fuel) → ∀ r,
        decodeList fuel xs.length (encodeList xs ++ r) = some (xs, r) := by
      intro xs
      induction xs with
      | nil =>
        intro _ r
        show decodeList fuel (List.length ([] : List Json)) (encodeList [] ++ r) =
          some ([], r)
        rw [encodeList, List.nil_append, List.length_nil]
        rfl
      | cons x ys ihx =>
        intro hx r
        rw [encodeList, List.length_cons, decodeList, decodeListF, List.append_assoc,
          ih x (hx x (List.mem_cons_self _ _))]
        show (match decodeList fuel ys.length (encodeList ys ++ r) with
          | some (vs, r'') => some (x :: vs, r'')
          | none => none) = some (x :: ys, r)
        rw [ihx (fun y hy => hx y (List.mem_cons_of_mem _ hy))]
    have hfields : ∀ fs : List (String × Json),
        (∀ k v, (k, v) ∈ fs → jsize v ≤ fuel) → ∀ r,
        decodeFields fuel fs.length (encodeFields fs ++ r) = some (fs, r) := by
      intro fs
      induction fs with
      | nil =>
        intro _ r
        show decodeFields fuel (List.length ([] : List (String × Json)))
          (encodeFields [] ++ r) = some ([], r)
        rw [encodeFields, List.nil_append, List.length_nil]
        rfl
      | cons f gs ihf =>
        obtain ⟨k, v⟩ := f
        intro hf r
        rw [encodeFields, List.length_cons, decodeFields, decodeFieldsF]
        simp only [List.append_assoc]
        rw [natDec_natEnc]
        show (match charsDec k.data.length
            (charsEnc k.data ++ (encodeVal v ++ (encodeFields gs ++ r))) with
          | some (cs, r2) =>
            match decodeVal fuel r2 with
            | some (v', r3) =>
              match decodeFields fuel gs.length r3 with
              | some (fs', r4) => some ((⟨cs⟩, v') :: fs', r4)
              | none => none
            | none => none
          | none => none) = some ((k, v) :: gs, r)
        rw [charsDec_charsEnc]
        show (match decodeVal fuel (encodeVal v ++ (encodeFields gs ++ r)) with
          | some (v', r3) =>
            match decodeFields fuel gs.length r3 with
            | some (fs', r4) => some ((⟨k.data⟩, v') :: fs', r4)
            | none => none
          | none => none) = some ((k, v) :: gs, r)
        rw [ih v (hf k v (List.mem_cons_self _ _))]
        show (match decodeFields fuel gs.length (encodeFields gs ++ r) with
          | some (fs', r4) => some ((⟨k.data⟩, v) :: fs', r4)
          | none => none) = some ((k, v) :: gs, r)
        rw [ihf (fun k' v' h => hf k' v' (List.mem_cons_of_mem _ h))]
    intro v hv r
    match v with
    | .null =>
      rw [encodeVal]
      show decodeVal (fuel + 1) (0 :: r) = some (.null, r)
      rw [decodeVal]
    | .bool true =>
      rw [encodeVal]
      show decodeVal (fuel + 1) (1 :: 1 :: r) = some (.bool true, r)
      rw [decodeVal]
    | .bool false =>
      rw [encodeVal]
      show decodeVal (fuel + 1) (1 :: 0 :: r) = some (.bool false, r)
      rw [decodeVal]
    | .int n =>
      rw [encodeVal]
      show decodeVal (fuel + 1)
        (2 :: (if n < 0 then 1 else 0) :: (natEnc n.natAbs ++ r)) = some (.int n, r)
      rw [decodeVal, natDec_natEnc]
      by_cases hn : n < 0
      · rw [if_pos hn]
        show (if 1 = 1 then some (Json.int (-(n.natAbs : Int)), r)
          else some (Json.int (n.natAbs : Int), r)) = some (.int n, r)
        rw [if_pos rfl]
        have heq : -((n.natAbs : Int)) = n := by omega
        rw [heq]
      · rw [if_neg hn]
        show (if 0 = 1 then some (Json.int (-(n.natAbs : Int)), r)
          else some (Json.int (n.natAbs : Int), r)) = some (.int n, r)
        rw [if_neg (by omega)]
        have heq : ((n.natAbs : Int)) = n := by omega
        rw [heq]
    | .str s =>
      rw [encodeVal]
      show decodeVal (fuel + 1) (3 :: ((natEnc s.data.length ++ charsEnc s.data) ++ r)) =
        some (.str s, r)
      rw [decodeVal, List.append_assoc, natDec_natEnc]
      show (match charsDec s.data.length (charsEnc s.data ++ r) with
        | some (cs, r'') => some (Json.str ⟨cs⟩, r'')
        | none => none) = some (.str s, r)
      rw [charsDec_charsEnc]
    | .arr xs =>
      rw [encodeVal]
      show decodeVal (fuel + 1) (4 :: ((natEnc xs.length ++ encodeList xs) ++ r)) =
        some (.arr xs, r)
      rw [decodeVal, List.append_assoc, natDec_natEnc]
      have hx : ∀ x ∈ xs, jsize x ≤ fuel := by
        intro x hxm
        have h1 := jsize_le_of_mem hxm
        rw [jsize] at hv
        omega
      show (match decodeList fuel xs.length (encodeList xs ++ r) with
        | some (vs, r'') => some (Json.arr vs, r'')
        | none => none) = some (.arr xs, r)
      rw [hlist xs hx r]
    | .obj fs =>
      rw [encodeVal]
      show decodeVal (fuel + 1) (5 :: ((natEnc fs.length ++ encodeFields fs) ++ r)) =
        some (.obj fs, r)
      rw [decodeVal, List.append_assoc, natDec_natEnc]
      have hx : ∀ k v, (k, v) ∈ fs → jsize v ≤ fuel := by
        intro k v hvm
        have h1 := jsize_le_of_mem_fields hvm
        rw [jsize] at hv
        omega
      show (match decodeFields fuel fs.length (encodeFields fs ++ r) with
        | some (gs, r'') => some (Json.obj gs, r'')
        | none => none) = some (.obj fs, r)
      rw [hfields fs hx r]

/-! ### The top-level codec: `serde_json::to_vec` / `from_slice` -/

theorem encodeVal_ne_nil : ∀ v : Json, encodeVal v ≠ []
  | .null => by rw [encodeVal]; simp
  | .bool false => by rw [encodeVal]; simp
  | .bool true => by rw [encodeVal]; simp
  | .int _ => by rw [encodeVal]; simp
  | .str _ => by rw [encodeVal]; simp
  | .arr _ => by rw [encodeVal]; simp
  | .obj _ => by rw [encodeVal]; simp

theorem jsize_le_encode :
    ∀ fuel (v : Json), jsize v ≤ fuel → jsize v ≤ (encodeVal v).length := by
  intro fuel
  induction fuel with
  | zero =>
    intro v hv
    have := jsize_pos v
    omega
  | succ fuel ih =>
    have hlist : ∀ xs : List Json, (∀ x ∈ xs, jsize x ≤ fuel) →
        jsizeList xs ≤ (encodeList xs).length := by
      intro xs
      induction xs with
      | nil => intro _; rw [jsizeList, encodeList]; simp
      | cons x ys ihx =>
        intro h
        rw [jsizeList, encodeList]
        have h1 := ih x (h x (by simp))
        have h2 := ihx (fun y hy => h y (List.mem_cons_of_mem _ hy))
        simp only [List.length_append]
        omega
    have hfields : ∀ fs : List (String × Json), (∀ k v, (k, v) ∈ fs → jsize v ≤ fuel) →
        jsizeFields fs ≤ (encodeFields fs).length := by
      intro fs
      induction fs with
      | nil => intro _; rw [jsizeFields, encodeFields]; simp
      | cons f gs ihf =>
        obtain ⟨k, v⟩ := f
        intro h
        rw [jsizeFields, encodeFields]
        have h1 := ih v (h k v (by simp))
        have h2 := ihf (fun k' v' hv' => h k' v' (List.mem_cons_of_mem _ hv'))
        simp only [List.length_append]
        omega
    intro v hv
    match v with
    | .null => rw [jsize, encodeVal]; simp
    | .bool b => cases b <;> (rw [jsize, encodeVal]; simp)
    | .int n => rw [jsize, encodeVal]; simp
    | .str s => rw [jsize, encodeVal]; simp
    | .arr xs =>
      rw [jsize, encodeVal]
      have hx : ∀ x ∈ xs, jsize x ≤ fuel := by
        intro x hxm
        have := jsize_le_of_mem hxm
        rw [jsize] at hv
        omega
      have := hlist xs hx
      simp only [List.length_cons, List.length_append]
      omega
    | .obj fs =>
      rw [jsize, encodeVal]
      have hx : ∀ k v, (k, v) ∈ fs → jsize v ≤ fuel := by
        intro k v hvm
        have := jsize_le_of_mem_fields hvm
        rw [jsize] at hv
        omega
      have := hfields fs hx
      simp only [List.length_cons, List.length_append]
      omega

/-- `serde_json::to_vec`. -/
def jsonEncode (v : Json) : List Nat := encodeVal v

/-- `serde_json::from_slice`: decode and require the whole input consumed. -/
def jsonDecode (bs : List Nat) : Option Json :=
  match decodeVal bs.length bs with
  | some (v, []) => some v
  | _ => none

theorem jsonDecode_jsonEncode (v : Json) : jsonDecode (jsonEncode v) = some v := by
  have hle : jsize v ≤ (encodeVal v).length := jsize_le_encode (jsize v) v le_rfl
  have h := decodeVal_encodeVal (encodeVal v).length v hle []
  rw [List.append_nil] at h
  rw [jsonDecode, jsonEncode, h]

theorem encodeVal_inj {v w : Json} (h : encodeVal v = encodeVal w) : v = w := by
  have hv := jsonDecode_jsonEncode v
  have hw := jsonDecode_jsonEncode w
  rw [jsonEncode] at hv hw
  rw [h] at hv
  rw [hv] at hw
  exact Option.some.inj hw

/-- Deep structural equality on values (serde's `PartialEq` for `Value`),
computed through the injective serialization. -/
def jeq (v w : Json) : Bool := decide (jsonEncode v = jsonEncode w)

theorem jeq_iff (v w : Json) : jeq v w = true ↔ v = w := by
  constructor
  · intro h
    rw [jeq] at h
    exact encodeVal_inj (of_decide_eq_true h)
  · intro h
    subst h
    rw [jeq]
    exact decide_eq_true rfl

instance : DecidableEq Json := fun v w => decidable_of_iff (jeq v w = true) (jeq_iff v w)

/-! ## The query layer (`src/query/mod.rs`, `src/query/executor.rs`)

Queries address one database; the model fixes a single database (the source
routes every page access through `(db_id, page_id)` with `db_id` determined
once per query, so a single-database state is the image of the source state
under a fixed `db_id`).  Rust panics (out-of-bounds string slicing in
`check_filter`) and non-termination (a cyclic or never-fitting page chain)
are modelled by a distinguished `panic` outcome; fallible `anyhow` results
are `err`. -/

structure ColumnDef where
  name : String
  col_type : String
  primary_key : Bool
  unique : Bool
  nullable : Bool

structure TableInfo where
  name : String
  root_page_id : Nat
  index_root_page_id : Nat
  columns : List ColumnDef

structure WhereClause where
  column : String
  cmp : String
  value : Json

structure OrderByClause where
  column : String
  direction : String

structure JoinClause where
  table : String
  on_ : String
  join_type : String

structure CreateTableQuery where
  database : String
  table : String
  columns : List ColumnDef

structure DropTableQuery where
  database : String
  table : String

structure InsertQuery where
  database : String
  table : String
  values : List Json

structure SelectQuery where
  database : String
  from_ : String
  columns : List String
  where_ : Option WhereClause
  limit : Option Nat
  offset : Option Nat
  join : Option JoinClause
  order_by : Option OrderByClause

/-- The query fragment the development reasons about (`Update`/`Delete` are
not referenced by any property below). -/
inductive Query where
  | createTable (q : CreateTableQuery)
  | dropTable (q : DropTableQuery)
  | insert (q : InsertQuery)
  | select (q : SelectQuery)
  | batch (qs : List Query)

inductive ExecResult where
  | message (s : String)
  | json (v : Json)

/-- Outcome of running a handler: `Ok`, `Err` (an `anyhow` error), or a Rust
panic. -/
inductive ExecOutcome where
  | ok (r : ExecResult)
  | err (e : String)
  | panic

namespace Executor

/-- `LIKE` pattern matching, the body of the `"LIKE"` arm of `check_filter`
(at character granularity; `%` is ASCII, so the source's byte indices
`1` and `pattern.len()-1` are character indices whenever they are in
bounds).  `none` is the panic of `&pattern[1..pattern.len()-1]` when the
pattern is the single character `%`: the byte range `1..0` is invalid. -/
def like_match (s pat : List Char) : Option Bool :=
  if pat.head? = some '%' ∧ pat.getLast? = some '%' then
    if pat.length < 2 then none
    else some (decide (List.IsInfix ((pat.drop 1).dropLast) s))
  else if pat.head? = some '%' then
    some (decide (List.IsSuffix (pat.drop 1) s))
  else if pat.getLast? = some '%' then
    some (decide (List.IsPrefix pat.dropLast s))
  else some (decide (s = pat))

/-- `Executor::check_filter`.  `none` models a panic. -/
def check_filter (val : Json) (wc : WhereClause) : Option Bool :=
  match Json.get val wc.column with
  | none => some false
  | some colVal =>
    match wc.cmp with
    | "=" => some (decide (colVal = wc.value))
    | "!=" => some (decide (colVal ≠ wc.value))
    | ">" =>
      match Json.asF64 colVal, Json.asF64 wc.value with
      | some a, some b => some (decide (b < a))
      | _, _ => some false
    | "<" =>
      match Json.asF64 colVal, Json.asF64 wc.value with
      | some a, some b => some (decide (a < b))
      | _, _ => some false
    | ">=" =>
      match Json.asF64 colVal, Json.asF64 wc.value with
      | some a, some b => some (decide (b ≤ a))
      | _, _ => some false
    | "<=" =>
      match Json.asF64 colVal, Json.asF64 wc.value with
      | some a, some b => some (decide (a ≤ b))
      | _, _ => some false
    | "LIKE" =>
      match Json.asStr colVal, Json.asStr wc.value with
      | some s, some pattern => like_match s.data pattern.data
      | _, _ => some false
    | "IN" =>
      match Json.asArray wc.value with
      | some arr => some (arr.any (fun x => decide (x = colVal)))
      | none => some false
    | _ => some false

/-- The `sort_by` comparator of `handle_select` before the `DESC` reversal.
String comparison is code-point lexicographic, which agrees with Rust's
byte-wise `str::cmp` (UTF-8 preserves code-point order); `partial_cmp` on
the `as_f64` images is exact integer comparison in the integer model. -/
def order_cmp_raw (col : String) (a b : Json) : Ordering :=
  match Json.get a col, Json.get b col with
  | some va, some vb =>
    match Json.asStr va, Json.asStr vb with
    | some sa, some sb => compare sa sb
    | _, _ =>
      match Json.asF64 va, Json.asF64 vb with
      | some fa, some fb => compare fa fb
      | _, _ =>
        match Json.asI64 va, Json.asI64 vb with
        | some ia, some ib => compare ia ib
        | _, _ => Ordering.eq
  | some _, none => Ordering.lt
  | none, some _ => Ordering.gt
  | none, none => Ordering.eq

/-- The full comparator, applying the `DESC` reversal. -/
def order_cmp (ob : OrderByClause) (a b : Json) : Ordering :=
  if ob.direction.toUpper = "DESC" then (order_cmp_raw ob.column a b).swap
  else order_cmp_raw ob.column a b

/-- `results.sort_by(...)`: a stable sort by the comparator. -/
def sort_results (ob : OrderByClause) (rs : List Json) : List Json :=
  rs.mergeSort (fun a b => decide (order_cmp ob a b ≠ Ordering.gt))

/-- The tail of `handle_select`: order, then offset, then limit
(`results.into_iter().skip(offset).take(limit)`; a missing limit
defaults to `u32::MAX`). -/
def post_process (ob : Option OrderByClause) (off lim : Option Nat) (rs : List Json) :
    List Json :=
  (((match ob with
    | some o => sort_results o rs
    | none => rs).drop (off.getD 0)).take (lim.getD 4294967295))

/-- Projection of one row (`columns == ["*"]` keeps the row; otherwise a
fresh sorted map is built from the named columns that exist). -/
def project_into (val : Json) (acc : List (String × Json)) : List String → List (String × Json)
  | [] => acc
  | c :: cs =>
    match Json.get val c with
    | some v => project_into val (Json.mapInsert acc c v) cs
    | none => project_into val acc cs

def project (cols : List String) (val : Json) : Json :=
  if cols = ["*"] then val
  else Json.obj (project_into val [] cols)

end Executor

/-! ### Executor state and handlers -/

/-- The storage state reachable by the executor for one database: the
catalog's table map (page 1, kept structurally — its byte round trip through
`bincode` is not relied on by any property here), the pool of heap pages by
page id, the B+ tree of each index keyed by its root page id, and the
page allocator of `BufferPool::new_page`. -/
structure DbState where
  catalog : List (String × TableInfo)
  heap : Nat → Page
  trees : List (Nat × BTreeIndex.BTree)
  next_page_id : Nat

namespace Executor

def catalogGet (cat : List (String × TableInfo)) (name : String) : Option TableInfo :=
  match cat with
  | [] => none
  | (n, ti) :: rest => if n = name then some ti else catalogGet rest name

def catalogRemove (cat : List (String × TableInfo)) (name : String) :
    List (String × TableInfo) :=
  match cat with
  | [] => []
  | (n, ti) :: rest => if n = name then rest else (n, ti) :: catalogRemove rest name

def heapPut (heap : Nat → Page) (pid : Nat) (p : Page) : Nat → Page :=
  fun i => if i = pid then p else heap i

def treesGet (ts : List (Nat × BTreeIndex.BTree)) (root : Nat) : Option BTreeIndex.BTree :=
  match ts with
  | [] => none
  | (r, t) :: rest => if r = root then some t else treesGet rest root

def treesPut (ts : List (Nat × BTreeIndex.BTree)) (root : Nat) (t : BTreeIndex.BTree) :
    List (Nat × BTreeIndex.BTree) :=
  match ts with
  | [] => [(root, t)]
  | (r, t0) :: rest => if r = root then (r, t) :: rest else (r, t0) :: treesPut rest root t

/-- `Executor::handle_create_table`: two fresh pages (heap root, index root),
the heap root initialized as a slotted page, the index initialized, and the
catalog extended. -/
def handle_create_table (st : DbState) (q : CreateTableQuery) : ExecOutcome × DbState :=
  match catalogGet st.catalog q.table with
  | some _ => (.err ("Table " ++ q.table ++ " already exists"), st)
  | none =>
    (.ok (.message ("Table " ++ q.table ++ " created")),
      { catalog := st.catalog ++
          [(q.table, { name := q.table, root_page_id := st.next_page_id,
                       index_root_page_id := st.next_page_id + 1, columns := q.columns })]
        heap := heapPut st.heap st.next_page_id (SlottedPage.init (Page.new st.next_page_id))
        trees := treesPut st.trees (st.next_page_id + 1)
          (BTreeIndex.initBTree (st.next_page_id + 1))
        next_page_id := st.next_page_id + 2 })

/-- `Executor::handle_drop_table`: remove the catalog entry (pages leak). -/
def handle_drop_table (st : DbState) (q : DropTableQuery) : ExecOutcome × DbState :=
  match catalogGet st.catalog q.table with
  | none => (.err ("Table " ++ q.table ++ " not found"), st)
  | some _ =>
    (.ok (.message ("Table " ++ q.table ++ " dropped")),
      { st with catalog := catalogRemove st.catalog q.table })

/-- The page-chain loop of `handle_insert` for one tuple: try the current
page, follow `next_page_id` when full, allocate-and-link a fresh page at the
chain's end.  `none` is non-termination of the source loop (cyclic chain, or
a tuple that fits on no page). -/
def insert_tuple_chain (fuel : Nat) (st : DbState) (pid : Nat) (tuple : List Nat) :
    Option ((Nat × Nat) × DbState) :=
  match fuel with
  | 0 => none
  | fuel + 1 =>
    match SlottedPage.insert_tuple runCodec (st.heap pid) tuple with
    | (.ok sid, p') => some ((pid, sid), { st with heap := heapPut st.heap pid p' })
    | (.error _, p') =>
      if SlottedPage.next_page_id p' ≠ 0 then
        insert_tuple_chain fuel { st with heap := heapPut st.heap pid p' }
          (SlottedPage.next_page_id p') tuple
      else
        insert_tuple_chain fuel
          { st with
            heap := heapPut
              (heapPut st.heap pid (SlottedPage.set_next_page_id p' st.next_page_id))
              st.next_page_id (SlottedPage.init (Page.new st.next_page_id))
            next_page_id := st.next_page_id + 1 }
          st.next_page_id tuple

/-- Outcome of the index-maintenance step of `handle_insert` for one row:
continue with the new state, fail with an `anyhow` error, or panic. -/
inductive StepOut where
  | cont (st : DbState)
  | fail (e : String) (st : DbState)
  | panicked (st : DbState)

/-- The B+ tree update of `handle_insert` once the `u64` key is in hand:
`index.insert(key, (pid, sid))?` with `key = int_val as u32`. -/
def index_tree_step (st1 : DbState) (ti : TableInfo) (pid sid int_val : Nat) : StepOut :=
  match treesGet st1.trees ti.index_root_page_id with
  | none => .panicked st1
  | some t =>
    match BTreeIndex.insert t (int_val % 2 ^ 32) (pid, sid) with
    | (.ok _, t') =>
      .cont { st1 with trees := treesPut st1.trees ti.index_root_page_id t' }
    | (.error e, t') =>
      .fail e { st1 with trees := treesPut st1.trees ti.index_root_page_id t' }

/-- The key coercion of `handle_insert` (`val.as_u64()`). -/
def index_key_step (st1 : DbState) (ti : TableInfo) (pid sid : Nat) (pv : Json) :
    StepOut :=
  match Json.asU64 pv with
  | none => .cont st1
  | some int_val => index_tree_step st1 ti pid sid int_val

/-- The `if let` cascade after a stored tuple in `handle_insert`: when the
table has a primary-key column whose field is a `u64` number, insert the
locator into the B+ tree under the key truncated `as u32` (`?` on error). -/
def index_insert_step (st1 : DbState) (ti : TableInfo) (pk_col : Option ColumnDef)
    (pid sid : Nat) (v : Json) : StepOut :=
  match pk_col with
  | none => .cont st1
  | some pk =>
    match Json.get v pk.name with
    | none => .cont st1
    | some pv => index_key_step st1 ti pid sid pv

/-- The per-value loop of `handle_insert`: serialize the row, store it via
the page chain (the current page id persists across values), then run the
index-maintenance step. -/
def insert_values (fuel : Nat) (st : DbState) (ti : TableInfo)
    (pk_col : Option ColumnDef) (cur : Nat) : List Json → ExecOutcome × DbState
  | [] => (.ok (.message "Inserted"), st)
  | v :: rest =>
    match insert_tuple_chain fuel st cur (jsonEncode v) with
    | none => (.panic, st)
    | some ((pid, sid), st1) =>
      match index_insert_step st1 ti pk_col pid sid v with
      | .cont st2 => insert_values fuel st2 ti pk_col pid rest
      | .fail e st2 => (.err e, st2)
      | .panicked st2 => (.panic, st2)

/-- `Executor::handle_insert`. -/
def handle_insert (fuel : Nat) (st : DbState) (q : InsertQuery) : ExecOutcome × DbState :=
  match catalogGet st.catalog q.table with
  | none => (.err ("Table " ++ q.table ++ " not found"), st)
  | some ti =>
    insert_values fuel st ti (ti.columns.find? (fun c => c.primary_key))
      ti.root_page_id q.values

/-- Intermediate result of a row-producing loop: collected rows, an `anyhow`
error, or a panic. -/
inductive RowsOut where
  | ok (rows : List Json)
  | err (e : String)
  | panic

/-- The `match_filter` computation of the scan loops (`true` when there is
no `where` clause). -/
def scan_filter (wc : Option WhereClause) (val : Json) : Option Bool :=
  match wc with
  | some w => check_filter val w
  | none => some true

/-- Prepend an accepted row to the rest of a scan (errors and panics of the
remaining scan pass through). -/
def consRows (v : Json) : RowsOut → RowsOut
  | .ok rows => .ok (v :: rows)
  | out => out

/-- Filter and project one decoded row; `restOut` is the outcome of the rest
of the scan. -/
def scan_slot (wc : Option WhereClause) (cols : List String) (val : Json)
    (restOut : RowsOut) : RowsOut :=
  match scan_filter wc val with
  | none => .panic
  | some false => restOut
  | some true => consRows (project cols val) restOut

/-- Process one stored tuple: skip it when empty, fail the query on a JSON
decode error (`serde_json::from_slice(..)?`). -/
def scan_bytes (wc : Option WhereClause) (cols : List String) (bs : List Nat)
    (restOut : RowsOut) : RowsOut :=
  if bs = [] then restOut
  else
    match jsonDecode bs with
    | none => .err "invalid JSON"
    | some val => scan_slot wc cols val restOut

/-- The slot loop of the full table scan: missing/tombstoned slots are
skipped. -/
def scan_list (p : Page) (wc : Option WhereClause) (cols : List String) :
    List Nat → RowsOut
  | [] => .ok []
  | i :: rest =>
    match SlottedPage.get_tuple runCodec p i with
    | none => scan_list p wc cols rest
    | some bs => scan_bytes wc cols bs (scan_list p wc cols rest)

/-- The page loop of the full table scan (`while current_page_id != 0`). -/
def scan_chain (fuel : Nat) (heap : Nat → Page) (wc : Option WhereClause)
    (cols : List String) : Nat → RowsOut
  | pid =>
    match fuel with
    | 0 => .panic
    | fuel + 1 =>
      if pid = 0 then .ok []
      else
        match scan_list (heap pid) wc cols
          (List.range (SlottedPage.num_slots (heap pid))) with
        | .ok rows =>
          match scan_chain fuel heap wc cols (SlottedPage.next_page_id (heap pid)) with
          | .ok rows' => .ok (rows ++ rows')
          | out => out
        | out => out

/-- The index-scan guard of `handle_select`: the where clause is an equality
on the primary-key column and its value reads back `as_u64`. -/
def index_key (ti : TableInfo) (wc0 : Option WhereClause) : Option Nat :=
  match ti.columns.find? (fun c => c.primary_key) with
  | none => none
  | some pk =>
    match wc0 with
    | none => none
    | some wc =>
      if wc.column = pk.name ∧ wc.cmp = "=" then Json.asU64 wc.value else none

/-- Fetch the page and read the slot an index probe produced; an empty or
absent tuple yields no rows, and the fetched tuple is decoded and projected
with NO re-check of the `where` clause. -/
def select_locator_read (st : DbState) (cols : List String) (pid sid : Nat) : RowsOut :=
  match SlottedPage.get_tuple runCodec (st.heap pid) sid with
  | none => .ok []
  | some bs =>
    if bs = [] then .ok []
    else
      match jsonDecode bs with
      | none => .err "invalid JSON"
      | some val => .ok [project cols val]

/-- The index path of `handle_select`: one B+ tree probe under the key
truncated `as u32`, then a single slot read. -/
def select_index_path (st : DbState) (ti : TableInfo) (cols : List String)
    (int_val : Nat) : RowsOut :=
  match treesGet st.trees ti.index_root_page_id with
  | none => .panic
  | some t =>
    match BTreeIndex.search t (int_val % 2 ^ 32) with
    | .error e => .err e
    | .ok none => .ok []
    | .ok (some (pid, sid)) => select_locator_read st cols pid sid

/-- The tail of `handle_select`: package the scanned rows (after the
`order_by`/`offset`/`limit` pipeline) or propagate the failure. -/
def rows_to_result (st : DbState) (q : SelectQuery) : RowsOut → ExecOutcome × DbState
  | .panic => (.panic, st)
  | .err e => (.err e, st)
  | .ok rows =>
    (.ok (.json (.arr (post_process q.order_by q.offset q.limit rows))), st)

/-- `Executor::handle_select`.  Read-only: the returned state is `st`. -/
def handle_select (fuel : Nat) (st : DbState) (q : SelectQuery) : ExecOutcome × DbState :=
  if q.join.isSome then (.err "Joins are not yet implemented", st)
  else
    match catalogGet st.catalog q.from_ with
    | none => (.err ("Table " ++ q.from_ ++ " not found"), st)
    | some ti =>
      rows_to_result st q (match index_key ti q.where_ with
        | some int_val => select_index_path st ti q.columns int_val
        | none => scan_chain fuel st.heap q.where_ q.columns ti.root_page_id)

/-- The loop of `Executor::handle_batch`, over an arbitrary sub-query
interpreter `ex`: run the sub-queries in order, wrapping `Message` results
as JSON strings; stop at the first `Err` (the `?` operator), keeping the
state reached so far. -/
def batchGo (ex : DbState → Query → ExecOutcome × DbState) :
    DbState → List Query → RowsOut × DbState
  | st, [] => (.ok [], st)
  | st, q :: rest =>
    match ex st q with
    | (.ok (.message m), st1) =>
      match batchGo ex st1 rest with
      | (.ok vs, st2) => (.ok (Json.str m :: vs), st2)
      | out => out
    | (.ok (.json v), st1) =>
      match batchGo ex st1 rest with
      | (.ok vs, st2) => (.ok (v :: vs), st2)
      | out => out
    | (.err e, st1) => (.err e, st1)
    | (.panic, st1) => (.panic, st1)

/-- `Executor::execute`.  The fuel bounds the `Batch` recursion depth and the
storage loops; exhaustion is reported as `panic` (the claims below always run
with ample fuel). -/
def execute : Nat → DbState → Query → ExecOutcome × DbState
  | 0, st, _ => (.panic, st)
  | fuel + 1, st, .createTable q => handle_create_table st q
  | fuel + 1, st, .dropTable q => handle_drop_table st q
  | fuel + 1, st, .insert q => handle_insert (fuel + 1) st q
  | fuel + 1, st, .select q => handle_select (fuel + 1) st q
  | fuel + 1, st, .batch qs =>
    match batchGo (execute fuel) st qs with
    | (.ok vs, st') => (.ok (.json (.arr vs)), st')
    | (.err e, st') => (.err e, st')
    | (.panic, st') => (.panic, st')

/-- `Executor::handle_batch` at a given recursion budget. -/
def batch_results (fuel : Nat) (st : DbState) (qs : List Query) : RowsOut × DbState :=
  batchGo (execute fuel) st qs

end Executor

/-! ### The `order_by`/`offset`/`limit` pipeline against the spec's words -/

namespace Executor

/-- The spec's ordering of two present values: lexicographic when both
coerce to strings, else numeric when both coerce to double, else signed
integer when both coerce to `i64`, else equal. -/
def spec_cmp_vals (x y : Json) : Ordering :=
  if (Json.asStr x).isSome = true ∧ (Json.asStr y).isSome = true then
    compare ((Json.asStr x).getD "") ((Json.asStr y).getD "")
  else if (Json.asF64 x).isSome = true ∧ (Json.asF64 y).isSome = true then
    compare ((Json.asF64 x).getD 0) ((Json.asF64 y).getD 0)
  else if (Json.asI64 x).isSome = true ∧ (Json.asI64 y).isSome = true then
    compare ((Json.asI64 x).getD 0) ((Json.asI64 y).getD 0)
  else Ordering.eq

/-- The spec's row comparator: absent ordering field sorts greater than
present (nulls last), `DESC` reverses. -/
def spec_order_cmp (ob : OrderByClause) (a b : Json) : Ordering :=
  if ob.direction.toUpper = "DESC" then
    (match Json.get a ob.column, Json.get b ob.column with
      | some x, some y => spec_cmp_vals x y
      | some _, none => Ordering.lt
      | none, some _ => Ordering.gt
      | none, none => Ordering.eq).swap
  else
    match Json.get a ob.column, Json.get b ob.column with
    | some x, some y => spec_cmp_vals x y
    | some _, none => Ordering.lt
    | none, some _ => Ordering.gt
    | none, none => Ordering.eq

/-- The spec's pipeline: sort by the spec comparator, then drop `offset`,
then take `limit`. -/
def spec_sort_results (o : OrderByClause) (rs : List Json) : List Json :=
  rs.mergeSort (fun a b => decide (spec_order_cmp o a b ≠ Ordering.gt))

def spec_post_process (ob : Option OrderByClause) (off lim : Option Nat)
    (rs : List Json) : List Json :=
  (((match ob with
    | some o => spec_sort_results o rs
    | none => rs).drop (off.getD 0)).take (lim.getD 4294967295))

theorem cmp_vals_eq_spec (x y : Json) :
    (match Json.asStr x, Json.asStr y with
      | some sa, some sb => compare sa sb
      | _, _ =>
        match Json.asF64 x, Json.asF64 y with
        | some fa, some fb => compare fa fb
        | _, _ =>
          match Json.asI64 x, Json.asI64 y with
          | some ia, some ib => compare ia ib
          | _, _ => Ordering.eq) = spec_cmp_vals x y := by
  cases x <;> cases y <;>
    simp [spec_cmp_vals, Json.asStr, Json.asF64, Json.asI64]

theorem order_cmp_eq_spec (ob : OrderByClause) (a b : Json) :
    order_cmp ob a b = spec_order_cmp ob a b := by
  have hraw : order_cmp_raw ob.column a b =
      (match Json.get a ob.column, Json.get b ob.column with
        | some x, some y => spec_cmp_vals x y
        | some _, none => Ordering.lt
        | none, some _ => Ordering.gt
        | none, none => Ordering.eq) := by
    rw [order_cmp_raw]
    cases Json.get a ob.column <;> cases Json.get b ob.column
    · rfl
    · rfl
    · rfl
    · exact cmp_vals_eq_spec _ _
  rw [order_cmp, spec_order_cmp]
  by_cases hd : ob.direction.toUpper = "DESC"
  · rw [if_pos hd, if_pos hd, hraw]
  · rw [if_neg hd, if_neg hd, hraw]

end Executor

namespace Executor

/-- The reference access path for refinement claims: `handle_select` with the
index path disabled, so every row comes from the full heap scan and the
`where` clause is checked by `check_filter`. -/
def handle_select_scan_only (fuel : Nat) (st : DbState) (q : SelectQuery) :
    ExecOutcome × DbState :=
  if q.join.isSome then (.err "Joins are not yet implemented", st)
  else
    match catalogGet st.catalog q.from_ with
    | none => (.err ("Table " ++ q.from_ ++ " not found"), st)
    | some ti =>
      rows_to_result st q (scan_chain fuel st.heap q.where_ q.columns ti.root_page_id)

/-- `handle_batch`'s loop on a list whose prefix succeeds and whose next
query fails: the error is returned as is, with the state reached after the
failing query — the collected prefix results never appear. -/
theorem batchGo_append_err (ex : DbState → Query → ExecOutcome × DbState) :
    ∀ (qs1 : List Query) (st st1 st2 : DbState) (vs : List Json) (q : Query)
      (qs2 : List Query) (e : String),
      batchGo ex st qs1 = (.ok vs, st1) →
      ex st1 q = (.err e, st2) →
      batchGo ex st (qs1 ++ q :: qs2) = (.err e, st2) := by
  intro qs1
  induction qs1 with
  | nil =>
    intro st st1 st2 vs q qs2 e h1 h2
    rw [batchGo] at h1
    obtain ⟨h1v, h1s⟩ : ([] : List Json) = vs ∧ st = st1 := by
      constructor
      · exact congrArg (fun x => match x.1 with | .ok l => l | _ => []) h1
      · exact congrArg Prod.snd h1
    subst h1s
    show batchGo ex st (q :: qs2) = (.err e, st2)
    rw [batchGo, h2]
  | cons q0 rest ih =>
    intro st st1 st2 vs q qs2 e h1 h2
    rw [batchGo] at h1
    rcases hq0 : ex st q0 with ⟨out0, stq⟩
    rw [hq0] at h1
    show batchGo ex st (q0 :: (rest ++ q :: qs2)) = (.err e, st2)
    rw [batchGo, hq0]
    match out0 with
    | .ok (.message m) =>
      simp only at h1 ⊢
      rcases hr : batchGo ex stq rest with ⟨outr, str⟩
      rw [hr] at h1
      match outr with
      | .ok vs' =>
        simp only at h1
        have hst1 : str = st1 := congrArg Prod.snd h1
        subst hst1
        rw [ih stq str st2 vs' q qs2 e hr h2]
      | .err e' => simp only at h1; exact absurd (congrArg (fun x =>
          match x.1 with | RowsOut.ok _ => True | _ => False) h1) (by simp)
      | .panic => simp only at h1; exact absurd (congrArg (fun x =>
          match x.1 with | RowsOut.ok _ => True | _ => False) h1) (by simp)
    | .ok (.json v) =>
      simp only at h1 ⊢
      rcases hr : batchGo ex stq rest with ⟨outr, str⟩
      rw [hr] at h1
      match outr with
      | .ok vs' =>
        simp only at h1
        have hst1 : str = st1 := congrArg Prod.snd h1
        subst hst1
        rw [ih stq str st2 vs' q qs2 e hr h2]
      | .err e' => simp only at h1; exact absurd (congrArg (fun x =>
          match x.1 with | RowsOut.ok _ => True | _ => False) h1) (by simp)
      | .panic => simp only at h1; exact absurd (congrArg (fun x =>
          match x.1 with | RowsOut.ok _ => True | _ => False) h1) (by simp)
    | .err e0 =>
      exact absurd (congrArg (fun x =>
        match x.1 with | RowsOut.ok _ => True | _ => False) h1) (by simp)
    | .panic =>
      exact absurd (congrArg (fun x =>
        match x.1 with | RowsOut.ok _ => True | _ => False) h1) (by simp)

end Executor

namespace SlottedPage

/-- `insert_tuple` from an invariant state whose free-space frontier is
exact (`free_space_end = PAGE_SIZE - sumLive`), with room for the new
tuple: it succeeds without compacting, and the frontier stays exact, the
`next_page_id` header field is untouched, and `num_slots` grows by one. -/
theorem insert_tuple_nocompact (C : Codec) (hC : C.Lawful) (p : Page) (ref : RefSlots)
    (hInv : Inv p ref) (data : List Nat) (hb : ∀ b ∈ data, b < 256)
    (hfit : HEADER_SIZE + (ref.length + 1) * SLOT_SIZE + sumLive ref +
      ((mkFinal C data).2.length + 1) ≤ PAGE_SIZE)
    (hfse : free_space_end p = PAGE_SIZE - sumLive ref) :
    (insert_tuple C p data).1 = .ok ref.length ∧
    Inv (insert_tuple C p data).2 (ref ++ [some (storedOf C data)]) ∧
    free_space_end (insert_tuple C p data).2 =
      PAGE_SIZE - sumLive (ref ++ [some (storedOf C data)]) ∧
    next_page_id (insert_tuple C p data).2 = next_page_id p ∧
    num_slots (insert_tuple C p data).2 = ref.length + 1 := by
  have hH : HEADER_SIZE = 8 := rfl
  have hS : SLOT_SIZE = 4 := rfl
  have hP : PAGE_SIZE = 8192 := rfl
  have hnum := hInv.numEq
  have hhdr := hInv.hdrLe
  have hsum := hInv.sumLe
  have hlen2046 := hInv.len_le
  have hsum8192 : sumLive ref + free_space_end p ≤ 8192 := by
    rw [hP] at hsum
    exact hsum
  have hfse8192 : free_space_end p = 8192 - sumLive ref := by
    rw [hP] at hfse
    exact hfse
  have hfit8 : 8 + (ref.length + 1) * 4 + sumLive ref +
      ((mkFinal C data).2.length + 1) ≤ 8192 := by
    rw [hH, hS, hP] at hfit
    exact hfit
  have hhdr8 : 8 + ref.length * 4 ≤ free_space_end p := by
    rw [hH, hS] at hhdr
    exact hhdr
  have hfs_num : free_space p = free_space_end p - (8 + ref.length * 4) := by
    rw [free_space_eq, hnum, if_pos hhdr, hH, hS]
  have hno : ¬ free_space p < (mkFinal C data).2.length + 1 + SLOT_SIZE := by
    rw [hfs_num, hS]
    omega
  have hmain := insert_tuple_eq C p data
  rw [if_neg hno] at hmain
  rw [if_neg hno] at hmain
  have h1 : (insert_tuple C p data).1 = .ok ref.length := by
    rw [hmain, hnum]
  refine ⟨h1, ((insert_tuple_inv C hC p ref hInv data hb).1 hfit).2.1, ?_, ?_, ?_⟩
  all_goals
    have hflag_lt := mkFinal_flag_lt C data
    have hfb := mkFinal_bytes_lt C hC data hb
    have hdir : slotPos (num_slots p) + SLOT_SIZE +
        ((mkFinal C data).2.length + 1) ≤ free_space_end p := by
      rw [hnum]
      show HEADER_SIZE + ref.length * SLOT_SIZE + SLOT_SIZE +
        ((mkFinal C data).2.length + 1) ≤ free_space_end p
      rw [hH, hS]
      omega
    obtain ⟨hwd, hwfse, hwslot, hwlen, hwbytes, hwframe⟩ :=
      writeTuple_spec p (num_slots p) (mkFinal C data).1 (mkFinal C data).2
        hflag_lt hfb hdir
    have hsp8 : 8 ≤ slotPos (num_slots p) := by
      unfold slotPos
      rw [hH]
      omega
    have hnewOff12 : slotPos (num_slots p) + SLOT_SIZE ≤
        free_space_end p - ((mkFinal C data).2.length + 1) := by
      omega
  · -- free_space_end stays exact
    rw [hmain]
    show free_space_end (set_num_slots
      (writeTuple p (num_slots p) (mkFinal C data).1 (mkFinal C data).2)
      (num_slots p + 1)) = PAGE_SIZE - sumLive (ref ++ [some (storedOf C data)])
    have hstep : free_space_end (set_num_slots
        (writeTuple p (num_slots p) (mkFinal C data).1 (mkFinal C data).2)
        (num_slots p + 1)) = free_space_end
        (writeTuple p (num_slots p) (mkFinal C data).1 (mkFinal C data).2) := by
      show readU16 (writeU16 _ 0 _) 2 = readU16 _ 2
      unfold writeU16
      unfold readU16
      rw [readByte_memWrite_ne _ _ _ _ (by omega), readByte_memWrite_ne _ _ _ _ (by omega),
        readByte_memWrite_ne _ _ _ _ (by omega), readByte_memWrite_ne _ _ _ _ (by omega)]
    rw [hstep, hwfse, sumLive_append_one]
    have hsz : entrySize (some (storedOf C data)) = (mkFinal C data).2.length + 1 := by
      show (storedOf C data).length = (mkFinal C data).2.length + 1
      rw [storedOf]
      simp
    rw [hsz, hP]
    omega
  · -- next_page_id untouched
    rw [hmain]
    show next_page_id (set_num_slots
      (writeTuple p (num_slots p) (mkFinal C data).1 (mkFinal C data).2)
      (num_slots p + 1)) = next_page_id p
    show readU32 (writeU16 (writeTuple p (num_slots p) (mkFinal C data).1
      (mkFinal C data).2).data 0 (num_slots p + 1)) 4 = readU32 p.data 4
    have hb4 : ∀ k, k < 4 →
        readByte (writeU16 (writeTuple p (num_slots p) (mkFinal C data).1
          (mkFinal C data).2).data 0 (num_slots p + 1)) (4 + k) =
        readByte p.data (4 + k) := by
      intro k hk
      unfold writeU16
      rw [readByte_memWrite_ne _ _ _ _ (by omega), readByte_memWrite_ne _ _ _ _ (by omega)]
      exact hwframe (4 + k) (Or.inl (by omega)) (by omega) (by omega) (Or.inl (by omega))
    exact readU32_congr (hb4 0 (by omega)) (hb4 1 (by omega)) (hb4 2 (by omega))
      (hb4 3 (by omega))
  · -- num_slots grows by one
    rw [hmain]
    show num_slots (set_num_slots
      (writeTuple p (num_slots p) (mkFinal C data).1 (mkFinal C data).2)
      (num_slots p + 1)) = ref.length + 1
    show readU16 (writeU16 _ 0 (num_slots p + 1)) 0 = ref.length + 1
    rw [readU16_writeU16_self, hnum]
    exact Nat.mod_eq_of_lt (by omega)

end SlottedPage

/-! ### Byte bounds for the serializer, and small state lemmas -/

theorem encodeVal_lt :
    ∀ fuel (v : Json), jsize v ≤ fuel → ∀ b ∈ encodeVal v, b < 256 := by
  intro fuel
  induction fuel with
  | zero =>
    intro v hv
    have := jsize_pos v
    omega
  | succ fuel ih =>
    have hlist : ∀ xs : List Json, (∀ x ∈ xs, jsize x ≤ fuel) →
        ∀ b ∈ encodeList xs, b < 256 := by
      intro xs
      induction xs with
      | nil => intro _ b hb; rw [encodeList] at hb; cases hb
      | cons x ys ihx =>
        intro h b hb
        rw [encodeList] at hb
        rcases List.mem_append.mp hb with hb | hb
        · exact ih x (h x (by simp)) b hb
        · exact ihx (fun y hy => h y (List.mem_cons_of_mem _ hy)) b hb
    have hfields : ∀ fs : List (String × Json), (∀ k v, (k, v) ∈ fs → jsize v ≤ fuel) →
        ∀ b ∈ encodeFields fs, b < 256 := by
      intro fs
      induction fs with
      | nil => intro _ b hb; rw [encodeFields] at hb; cases hb
      | cons f gs ihf =>
        obtain ⟨k, v⟩ := f
        intro h b hb
        rw [encodeFields] at hb
        rcases List.mem_append.mp hb with hb | hb
        · rcases List.mem_append.mp hb with hb | hb
          · rcases List.mem_append.mp hb with hb | hb
            · exact natEnc_lt _ b hb
            · exact charsEnc_lt _ b hb
          · exact ih v (h k v (by simp)) b hb
        · exact ihf (fun k' v' hv' => h k' v' (List.mem_cons_of_mem _ hv')) b hb
    intro v hv b hb
    match v with
    | .null =>
      rw [encodeVal] at hb
      simp at hb
      omega
    | .bool bb =>
      cases bb <;> rw [encodeVal] at hb <;> simp at hb <;> omega
    | .int n =>
      rw [encodeVal] at hb
      rcases List.mem_cons.mp hb with h | hb
      · omega
      · rcases List.mem_cons.mp hb with h | hb
        · split at h <;> omega
        · exact natEnc_lt _ b hb
    | .str s =>
      rw [encodeVal] at hb
      rcases List.mem_cons.mp hb with h | hb
      · omega
      · rcases List.mem_append.mp hb with hb | hb
        · exact natEnc_lt _ b hb
        · exact charsEnc_lt _ b hb
    | .arr xs =>
      rw [encodeVal] at hb
      rcases List.mem_cons.mp hb with h | hb
      · omega
      · rcases List.mem_append.mp hb with hb | hb
        · exact natEnc_lt _ b hb
        · refine hlist xs ?_ b hb
          intro x hxm
          have := jsize_le_of_mem hxm
          rw [jsize] at hv
          omega
    | .obj fs =>
      rw [encodeVal] at hb
      rcases List.mem_cons.mp hb with h | hb
      · omega
      · rcases List.mem_append.mp hb with hb | hb
        · exact natEnc_lt _ b hb
        · refine hfields fs ?_ b hb
          intro k v hvm
          have := jsize_le_of_mem_fields hvm
          rw [jsize] at hv
          omega

theorem jsonEncode_lt (v : Json) : ∀ b ∈ jsonEncode v, b < 256 :=
  encodeVal_lt (jsize v) v le_rfl

theorem jsonEncode_ne_nil (v : Json) : jsonEncode v ≠ [] := encodeVal_ne_nil v

theorem asU64_natCast (k : Nat) (h : k < 2 ^ 64) :
    Json.asU64 (.int (k : Int)) = some k := by
  rw [Json.asU64]
  rw [if_pos ⟨Int.ofNat_nonneg k, by exact_mod_cast h⟩]
  simp

namespace Executor

theorem heapPut_self (heap : Nat → Page) (pid : Nat) (p : Page) :
    heapPut heap pid p pid = p := by
  show (if pid = pid then p else heap pid) = p
  rw [if_pos rfl]

theorem heapPut_ne (heap : Nat → Page) (pid : Nat) (p : Page) (x : Nat) (h : x ≠ pid) :
    heapPut heap pid p x = heap x := by
  show (if x = pid then p else heap x) = heap x
  rw [if_neg h]

theorem treesGet_treesPut_self (ts : List (Nat × BTreeIndex.BTree)) (root : Nat)
    (t : BTreeIndex.BTree) : treesGet (treesPut ts root t) root = some t := by
  induction ts with
  | nil =>
    show treesGet [(root, t)] root = some t
    rw [treesGet, if_pos rfl]
  | cons e rest ih =>
    obtain ⟨r0, t0⟩ := e
    rw [treesPut]
    by_cases h : r0 = root
    · rw [if_pos h, treesGet, if_pos h]
    · rw [if_neg h, treesGet, if_neg h]
      exact ih

/-- Stored length of a serialized row on the heap page. -/
def storedLen (r : Json) : Nat := (SlottedPage.storedOf runCodec (jsonEncode r)).length

/-- The index entries created for rows stored at consecutive slot ids
starting at `base` on page `R`. -/
def idxEntries (R : Nat) : Nat → List (Nat × Json) → List (Nat × BTreeIndex.Locator)
  | _, [] => []
  | base, (k, _) :: rest => (k, (R, base)) :: idxEntries R (base + 1) rest

end Executor

namespace Executor

/-- The index-maintenance step when the key field is present and indexed and
the single-leaf insert succeeds. -/
theorem index_insert_step_ok (st1 : DbState) (ti : TableInfo) (pkc : ColumnDef)
    (pid sid k : Nat) (v : Json) (t t' : BTreeIndex.BTree)
    (hget : Json.get v pkc.name = some (.int (k : Int)))
    (hk : k < 2 ^ 64)
    (htree : treesGet st1.trees ti.index_root_page_id = some t)
    (hins : BTreeIndex.insert t (k % 2 ^ 32) (pid, sid) = (.ok (), t')) :
    index_insert_step st1 ti (some pkc) pid sid v =
      .cont { st1 with trees := treesPut st1.trees ti.index_root_page_id t' } := by
  rw [index_insert_step.eq_def]
  show (match Json.get v pkc.name with
    | none => StepOut.cont st1
    | some pv => index_key_step st1 ti pid sid pv) = _
  rw [hget]
  show index_key_step st1 ti pid sid (.int (k : Int)) = _
  rw [index_key_step.eq_def, asU64_natCast k hk]
  show index_tree_step st1 ti pid sid k = _
  rw [index_tree_step.eq_def, htree]
  show (match BTreeIndex.insert t (k % 2 ^ 32) (pid, sid) with
    | (.ok _, t1) =>
      StepOut.cont { st1 with trees := treesPut st1.trees ti.index_root_page_id t1 }
    | (.error e, t1) =>
      StepOut.fail e { st1 with trees := treesPut st1.trees ti.index_root_page_id t1 }) = _
  rw [hins]

/-- One successful step of the `handle_insert` loop. -/
theorem insert_values_cons_ok (fuel : Nat) (st st1 st2 : DbState) (ti : TableInfo)
    (pk_col : Option ColumnDef) (cur pid sid : Nat) (v : Json) (rest : List Json)
    (hchain : insert_tuple_chain fuel st cur (jsonEncode v) = some ((pid, sid), st1))
    (hstep : index_insert_step st1 ti pk_col pid sid v = .cont st2) :
    insert_values fuel st ti pk_col cur (v :: rest) =
      insert_values fuel st2 ti pk_col pid rest := by
  rw [insert_values, hchain]
  show (match index_insert_step st1 ti pk_col pid sid v with
    | .cont st3 => insert_values fuel st3 ti pk_col pid rest
    | .fail e st3 => (.err e, st3)
    | .panicked st3 => (.panic, st3)) = _
  rw [hstep]

set_option maxRecDepth 16000 in
/-- The `handle_insert` loop in the single-page, single-leaf regime: every
row fits on the root heap page without compaction, the index stays one root
leaf, and afterwards the heap holds the serialized rows at consecutive slot
ids while the leaf maps each (untruncated, `< 2^32`) key to its row's
locator. -/
theorem insert_values_regime (ti : TableInfo) (pkc : ColumnDef) (R : Nat) (fuel0 : Nat) :
    ∀ (rows : List (Nat × Json)) (st : DbState) (ref : SlottedPage.RefSlots)
      (E : List (Nat × BTreeIndex.Locator)) (alloc : Nat),
      SlottedPage.Inv (st.heap R) ref →
      SlottedPage.free_space_end (st.heap R) = PAGE_SIZE - SlottedPage.sumLive ref →
      treesGet st.trees ti.index_root_page_id =
        some (BTreeIndex.singleLeaf ti.index_root_page_id E alloc) →
      (∀ kr ∈ rows, ∃ n : Nat, Json.get kr.2 pkc.name = some (.int (n : Int)) ∧
        n < 2 ^ 64 ∧ n % 2 ^ 32 = kr.1) →
      SlottedPage.HEADER_SIZE + (ref.length + rows.length) * SlottedPage.SLOT_SIZE +
        SlottedPage.sumLive ref + (rows.map (fun kr => storedLen kr.2)).sum ≤ PAGE_SIZE →
      E.length + rows.length ≤ BTreeIndex.LEAF_ORDER →
      (∀ kr ∈ rows, BTreeIndex.search_leaf E kr.1 = none) →
      (rows.map Prod.fst).Nodup →
      ∃ st',
        insert_values (fuel0 + 1) st ti (some pkc) R (rows.map Prod.snd) =
          (.ok (.message "Inserted"), st') ∧
        st'.catalog = st.catalog ∧
        st'.next_page_id = st.next_page_id ∧
        SlottedPage.Inv (st'.heap R) (ref ++ rows.map
          (fun kr => some (SlottedPage.storedOf runCodec (jsonEncode kr.2)))) ∧
        SlottedPage.free_space_end (st'.heap R) = PAGE_SIZE - SlottedPage.sumLive
          (ref ++ rows.map
            (fun kr => some (SlottedPage.storedOf runCodec (jsonEncode kr.2)))) ∧
        SlottedPage.next_page_id (st'.heap R) = SlottedPage.next_page_id (st.heap R) ∧
        ∃ E', treesGet st'.trees ti.index_root_page_id =
            some (BTreeIndex.singleLeaf ti.index_root_page_id E' alloc) ∧
          E'.length = E.length + rows.length ∧
          ∀ k, BTreeIndex.search_leaf E' k =
            match BTreeIndex.search_leaf E k with
            | some v => some v
            | none => BTreeIndex.search_leaf (idxEntries R ref.length rows) k := by
  intro rows
  induction rows with
  | nil =>
    intro st ref E alloc hInv hfse htree _ _ _ _ _
    refine ⟨st, rfl, rfl, rfl, by simpa using hInv, by simpa using hfse, rfl,
      E, htree, by simp, ?_⟩
    intro k
    cases h : BTreeIndex.search_leaf E k
    · rfl
    · rfl
  | cons kr rest ih =>
    obtain ⟨k, r⟩ := kr
    intro st ref E alloc hInv hfse htree hkeys hfit hcap hfresh hnodup
    have hH : SlottedPage.HEADER_SIZE = 8 := rfl
    have hS : SlottedPage.SLOT_SIZE = 4 := rfl
    have hP : PAGE_SIZE = 8192 := rfl
    obtain ⟨n, hget_n, hn64, hmod⟩ := hkeys (k, r) (by simp)
    have hb := jsonEncode_lt r
    have hsl : storedLen r = (SlottedPage.mkFinal runCodec (jsonEncode r)).2.length + 1 := by
      rw [storedLen, SlottedPage.storedOf]
      simp
    rw [List.map_cons, List.sum_cons, List.length_cons] at hfit
    have hsl' : storedLen (k, r).2 =
        (SlottedPage.mkFinal runCodec (jsonEncode r)).2.length + 1 := hsl
    rw [hsl'] at hfit
    have hfitstep : SlottedPage.HEADER_SIZE + (ref.length + 1) * SlottedPage.SLOT_SIZE +
        SlottedPage.sumLive ref +
        ((SlottedPage.mkFinal runCodec (jsonEncode r)).2.length + 1) ≤ PAGE_SIZE := by
      rw [hH, hS, hP] at hfit ⊢
      omega
    obtain ⟨hok, hInv2, hfse2, hnext2, hnum2⟩ :=
      SlottedPage.insert_tuple_nocompact runCodec runCodec_lawful (st.heap R) ref hInv
        (jsonEncode r) hb hfitstep hfse
    have hchain : insert_tuple_chain (fuel0 + 1) st R (jsonEncode r) =
        some ((R, ref.length),
          { st with heap := heapPut st.heap R (SlottedPage.insert_tuple runCodec (st.heap R) (jsonEncode r)).2 }) := by
      rw [insert_tuple_chain]
      rcases hins : SlottedPage.insert_tuple runCodec (st.heap R) (jsonEncode r)
        with ⟨res, p'⟩
      have hres : res = .ok ref.length := by
        rw [hins] at hok
        exact hok
      subst hres
      rfl
    have hlenE : E.length < BTreeIndex.LEAF_ORDER := by
      simp at hcap
      omega
    have hkE : BTreeIndex.search_leaf E k = none := hfresh (k, r) (by simp)
    have hnodup2 : (k :: rest.map Prod.fst).Nodup := by simpa using hnodup
    have hnd := List.nodup_cons.mp hnodup2
    -- the state after the heap insert
    set p' := (SlottedPage.insert_tuple runCodec (st.heap R) (jsonEncode r)).2 with hp'
    set st1 : DbState := { st with heap := heapPut st.heap R p' } with hst1
    have htree1 : treesGet st1.trees ti.index_root_page_id =
        some (BTreeIndex.singleLeaf ti.index_root_page_id E alloc) := htree
    have hstep := BTreeIndex.insert_singleLeaf ti.index_root_page_id E alloc k (R, ref.length)
      hlenE
    set E2 := BTreeIndex.insert_leaf E k (R, ref.length) with hE2
    set st2 : DbState := { st1 with trees := treesPut st1.trees ti.index_root_page_id (BTreeIndex.singleLeaf ti.index_root_page_id E2 alloc) } with hst2
    have hstep' : BTreeIndex.insert (BTreeIndex.singleLeaf ti.index_root_page_id E alloc)
        (n % 2 ^ 32) (R, ref.length) =
        (.ok (), BTreeIndex.singleLeaf ti.index_root_page_id E2 alloc) := by
      rw [hmod]
      exact hstep
    have hidx : index_insert_step st1 ti (some pkc) R ref.length r = .cont st2 :=
      index_insert_step_ok st1 ti pkc R ref.length n r _ _ hget_n hn64 htree1 hstep'
    have hrun : insert_values (fuel0 + 1) st ti (some pkc) R (r :: rest.map Prod.snd) =
        insert_values (fuel0 + 1) st2 ti (some pkc) R (rest.map Prod.snd) :=
      insert_values_cons_ok (fuel0 + 1) st st1 st2 ti (some pkc) R R ref.length r
        (rest.map Prod.snd) hchain hidx
    -- prepare the inductive call on `rest` from `st2`
    have hheap2 : st2.heap R = p' := heapPut_self st.heap R p'
    have hInv2' : SlottedPage.Inv (st2.heap R)
        (ref ++ [some (SlottedPage.storedOf runCodec (jsonEncode r))]) := by
      rw [hheap2]
      exact hInv2
    have hfse2' : SlottedPage.free_space_end (st2.heap R) = PAGE_SIZE -
        SlottedPage.sumLive (ref ++ [some (SlottedPage.storedOf runCodec (jsonEncode r))]) := by
      rw [hheap2]
      exact hfse2
    have htree2 : treesGet st2.trees ti.index_root_page_id =
        some (BTreeIndex.singleLeaf ti.index_root_page_id E2 alloc) :=
      treesGet_treesPut_self _ _ _
    have hsum2 : SlottedPage.sumLive
        (ref ++ [some (SlottedPage.storedOf runCodec (jsonEncode r))]) =
        SlottedPage.sumLive ref + storedLen r := by
      rw [SlottedPage.sumLive_append_one, hsl]
      rfl
    have hlen_app : (ref ++ [some (SlottedPage.storedOf runCodec (jsonEncode r))]).length =
        ref.length + 1 := by simp
    have hfit2 : SlottedPage.HEADER_SIZE +
        ((ref ++ [some (SlottedPage.storedOf runCodec (jsonEncode r))]).length + rest.length) *
          SlottedPage.SLOT_SIZE +
        SlottedPage.sumLive (ref ++ [some (SlottedPage.storedOf runCodec (jsonEncode r))]) +
        (rest.map (fun kr => storedLen kr.2)).sum ≤ PAGE_SIZE := by
      rw [hlen_app, hsum2, hsl, hH, hS, hP]
      have hfitn : 8 + (ref.length + (rest.length + 1)) * 4 + SlottedPage.sumLive ref +
          ((SlottedPage.mkFinal runCodec (jsonEncode r)).2.length + 1 +
            (rest.map (fun kr => storedLen kr.2)).sum) ≤ 8192 := by
        rw [hH, hS, hP] at hfit
        exact hfit
      omega
    obtain ⟨st', hrun', hcat', hnpid', hInv', hfse', hnext', E', htree', hlen', hsearch'⟩ :=
      ih st2 (ref ++ [some (SlottedPage.storedOf runCodec (jsonEncode r))]) E2 alloc
        hInv2' hfse2' htree2
        (fun kr2 h2 => hkeys kr2 (List.mem_cons_of_mem _ h2))
        hfit2
        (by
          rw [hE2, BTreeIndex.insert_leaf_length]
          simp at hcap ⊢
          omega)
        (by
          intro kr2 h2
          have hne : kr2.1 ≠ k := by
            intro he
            exact hnd.1 (he ▸ List.mem_map.mpr ⟨kr2, h2, rfl⟩)
          rw [hE2, BTreeIndex.search_leaf_insert_other E k kr2.1 (R, ref.length) hne]
          exact hfresh kr2 (List.mem_cons_of_mem _ h2))
        hnd.2
    refine ⟨st', ?_, ?_, ?_, ?_, ?_, ?_, E', htree', ?_, ?_⟩
    · rw [List.map_cons, hrun, hrun']
    · exact hcat'
    · exact hnpid'
    · rw [List.map_cons]
      have : (ref ++ [some (SlottedPage.storedOf runCodec (jsonEncode r))]) ++
          List.map (fun kr => some (SlottedPage.storedOf runCodec (jsonEncode kr.2))) rest =
          ref ++ some (SlottedPage.storedOf runCodec (jsonEncode r)) ::
            List.map (fun kr => some (SlottedPage.storedOf runCodec (jsonEncode kr.2))) rest := by
        simp
      rw [← this]
      exact hInv'
    · rw [List.map_cons]
      have : (ref ++ [some (SlottedPage.storedOf runCodec (jsonEncode r))]) ++
          List.map (fun kr => some (SlottedPage.storedOf runCodec (jsonEncode kr.2))) rest =
          ref ++ some (SlottedPage.storedOf runCodec (jsonEncode r)) ::
            List.map (fun kr => some (SlottedPage.storedOf runCodec (jsonEncode kr.2))) rest := by
        simp
      rw [← this]
      exact hfse'
    · rw [hnext']
      rw [hheap2]
      exact hnext2
    · rw [hlen', hE2, BTreeIndex.insert_leaf_length]
      simp
      omega
    · intro k0
      rw [hsearch' k0]
      by_cases hk0 : k0 = k
      · subst hk0
        rw [hE2, BTreeIndex.search_leaf_insert_self E k0 (R, ref.length) hkE, hkE]
        show _ = BTreeIndex.search_leaf ((k0, (R, ref.length)) :: idxEntries R
          (ref.length + 1) rest) k0
        have hcons : BTreeIndex.search_leaf ((k0, (R, ref.length)) :: idxEntries R
            (ref.length + 1) rest) k0 =
            if k0 = k0 then some (R, ref.length)
            else BTreeIndex.search_leaf (idxEntries R (ref.length + 1) rest) k0 := rfl
        rw [hcons, if_pos rfl]
      · rw [hE2, BTreeIndex.search_leaf_insert_other E k k0 (R, ref.length)
          (fun he => hk0 he)]
        cases hE : BTreeIndex.search_leaf E k0
        · have hlen1 : (ref ++ [some (SlottedPage.storedOf runCodec (jsonEncode r))]).length =
              ref.length + 1 := by simp
          rw [hlen1]
          show BTreeIndex.search_leaf (idxEntries R (ref.length + 1) rest) k0 =
            BTreeIndex.search_leaf ((k, (R, ref.length)) :: idxEntries R
              (ref.length + 1) rest) k0
          have hcons : BTreeIndex.search_leaf ((k, (R, ref.length)) :: idxEntries R
              (ref.length + 1) rest) k0 =
              if k = k0 then some (R, ref.length)
              else BTreeIndex.search_leaf (idxEntries R (ref.length + 1) rest) k0 := rfl
          rw [hcons, if_neg (fun he => hk0 he.symm)]
        · rfl

end Executor

namespace Executor

/-- `check_filter` with the `=` comparator is deep value equality on the
named field. -/
theorem check_filter_eq (r : Json) (PN : String) (x colv : Json)
    (hget : Json.get r PN = some colv) :
    check_filter r ⟨PN, "=", x⟩ = some (decide (colv = x)) := by
  rw [check_filter.eq_def]
  show (match Json.get r PN with
    | none => some false
    | some colVal =>
      match "=" with
      | "=" => some (decide (colVal = x))
      | "!=" => some (decide (colVal ≠ x))
      | ">" =>
        match Json.asF64 colVal, Json.asF64 x with
        | some a, some b => some (decide (b < a))
        | _, _ => some false
      | "<" =>
        match Json.asF64 colVal, Json.asF64 x with
        | some a, some b => some (decide (a < b))
        | _, _ => some false
      | ">=" =>
        match Json.asF64 colVal, Json.asF64 x with
        | some a, some b => some (decide (b ≤ a))
        | _, _ => some false
      | "<=" =>
        match Json.asF64 colVal, Json.asF64 x with
        | some a, some b => some (decide (a ≤ b))
        | _, _ => some false
      | "LIKE" =>
        match Json.asStr colVal, Json.asStr x with
        | some s, some pattern => like_match s.data pattern.data
        | _, _ => some false
      | "IN" =>
        match Json.asArray x with
        | some arr => some (arr.any (fun y => decide (y = colVal)))
        | none => some false
      | _ => some false) = some (decide (colv = x))
  rw [hget]
  rfl

/-- `scan_list` over consecutive slots holding the serialized rows `rs`,
when the filter never panics: the surviving rows in order, projected. -/
theorem scan_list_rows (p : Page) (wc : Option WhereClause) (cols : List String) :
    ∀ (rs : List Json) (base : Nat),
      (∀ j (h : j < rs.length),
        SlottedPage.get_tuple runCodec p (base + j) = some (jsonEncode (rs.get ⟨j, h⟩))) →
      (∀ r ∈ rs, scan_filter wc r ≠ none) →
      scan_list p wc cols (List.range' base rs.length) =
        .ok ((rs.filter (fun r => decide (scan_filter wc r = some true))).map
          (project cols)) := by
  intro rs
  induction rs with
  | nil =>
    intro base _ _
    rfl
  | cons r rest ih =>
    intro base hget hnp
    have hr0 : SlottedPage.get_tuple runCodec p base = some (jsonEncode r) :=
      hget 0 (by simp)
    have hrest : ∀ j (h : j < rest.length),
        SlottedPage.get_tuple runCodec p (base + 1 + j) =
          some (jsonEncode (rest.get ⟨j, h⟩)) := by
      intro j h
      have h2 := hget (j + 1) (by simp; omega)
      have he : base + (j + 1) = base + 1 + j := by omega
      rw [he] at h2
      exact h2
    have hihr := ih (base + 1) hrest (fun r2 h2 => hnp r2 (List.mem_cons_of_mem _ h2))
    show scan_list p wc cols (List.range' base (rest.length + 1)) = _
    rw [List.range'_succ, scan_list, hr0]
    show scan_bytes wc cols (jsonEncode r) (scan_list p wc cols
      (List.range' (base + 1) rest.length)) = _
    rw [hihr, scan_bytes.eq_def, if_neg (jsonEncode_ne_nil r), jsonDecode_jsonEncode]
    show scan_slot wc cols r (.ok ((rest.filter
      (fun r2 => decide (scan_filter wc r2 = some true))).map (project cols))) = _
    rw [scan_slot.eq_def]
    rcases hf : scan_filter wc r with _ | b
    · exact absurd hf (hnp r (by simp))
    · cases b
      · simp [List.filter_cons, hf]
      · simp [consRows, List.filter_cons, hf]

end Executor

namespace Executor

theorem scan_filter_some (w : WhereClause) (r : Json) :
    scan_filter (some w) r = check_filter r w := rfl

theorem filter_pk_none (PN : String) (k0 : Nat) :
    ∀ (rows : List (Nat × Json)),
      (∀ kr ∈ rows, Json.get kr.2 PN = some (.int (kr.1 : Int))) →
      (∀ kr ∈ rows, kr.1 ≠ k0) →
      (rows.map Prod.snd).filter
        (fun r => decide (scan_filter (some ⟨PN, "=", .int (k0 : Int)⟩) r = some true)) =
        [] := by
  intro rows
  induction rows with
  | nil => intro _ _; rfl
  | cons kr rest ih =>
    obtain ⟨k, r⟩ := kr
    intro hget hne
    have hfil : scan_filter (some ⟨PN, "=", .int (k0 : Int)⟩) r =
        some (decide ((Json.int (k : Int)) = .int (k0 : Int))) := by
      rw [scan_filter_some]
      exact check_filter_eq r PN (.int (k0 : Int)) (.int (k : Int))
        (hget (k, r) (by simp))
    have hk : k ≠ k0 := hne (k, r) (by simp)
    rw [List.map_cons, List.filter_cons]
    have hpred : decide (scan_filter (some ⟨PN, "=", .int (k0 : Int)⟩) r = some true) =
        false := by
      simp [hfil, hk]
    rw [hpred]
    show (rest.map Prod.snd).filter
      (fun r => decide (scan_filter (some ⟨PN, "=", .int (k0 : Int)⟩) r = some true)) = []
    exact ih (fun kr2 h2 => hget kr2 (List.mem_cons_of_mem _ h2))
      (fun kr2 h2 => hne kr2 (List.mem_cons_of_mem _ h2))

theorem filter_pk_single (PN : String) (k0 : Nat) :
    ∀ (rows : List (Nat × Json)) (r0 : Json),
      (∀ kr ∈ rows, Json.get kr.2 PN = some (.int (kr.1 : Int))) →
      (rows.map Prod.fst).Nodup →
      (k0, r0) ∈ rows →
      (rows.map Prod.snd).filter
        (fun r => decide (scan_filter (some ⟨PN, "=", .int (k0 : Int)⟩) r = some true)) =
        [r0] := by
  intro rows
  induction rows with
  | nil => intro r0 _ _ h; cases h
  | cons kr rest ih =>
    obtain ⟨k, r⟩ := kr
    intro r0 hget hnodup hmem
    have hnodup2 : (k :: rest.map Prod.fst).Nodup := by simpa using hnodup
    have hnd := List.nodup_cons.mp hnodup2
    have hfil : scan_filter (some ⟨PN, "=", .int (k0 : Int)⟩) r =
        some (decide ((Json.int (k : Int)) = .int (k0 : Int))) := by
      rw [scan_filter_some]
      exact check_filter_eq r PN (.int (k0 : Int)) (.int (k : Int))
        (hget (k, r) (by simp))
    rcases List.mem_cons.mp hmem with heq | hmem2
    · injection heq with hk hr
      subst hk
      subst hr
      rw [List.map_cons, List.filter_cons]
      have hpred : decide (scan_filter (some ⟨PN, "=", .int (k0 : Int)⟩) r0 =
          some true) = true := by
        simp [hfil]
      rw [hpred]
      show r0 :: (rest.map Prod.snd).filter
        (fun r => decide (scan_filter (some ⟨PN, "=", .int (k0 : Int)⟩) r = some true)) =
        [r0]
      rw [filter_pk_none PN k0 rest
        (fun kr2 h2 => hget kr2 (List.mem_cons_of_mem _ h2))
        (fun kr2 h2 => by
          intro he
          exact hnd.1 (he ▸ List.mem_map.mpr ⟨kr2, h2, rfl⟩))]
    · have hk : k ≠ k0 := by
        intro he
        subst he
        exact hnd.1 (List.mem_map.mpr ⟨(k, r0), hmem2, rfl⟩)
      rw [List.map_cons, List.filter_cons]
      have hpred : decide (scan_filter (some ⟨PN, "=", .int (k0 : Int)⟩) r =
          some true) = false := by
        simp [hfil, hk]
      rw [hpred]
      show (rest.map Prod.snd).filter
        (fun r => decide (scan_filter (some ⟨PN, "=", .int (k0 : Int)⟩) r = some true)) =
        [r0]
      exact ih r0 (fun kr2 h2 => hget kr2 (List.mem_cons_of_mem _ h2)) hnd.2 hmem2

theorem idxEntries_search (R : Nat) :
    ∀ (rows : List (Nat × Json)) (base : Nat),
      (rows.map Prod.fst).Nodup →
      ∀ (k0 : Nat) (r0 : Json) (j : Nat) (hj : j < rows.length),
        rows.get ⟨j, hj⟩ = (k0, r0) →
        BTreeIndex.search_leaf (idxEntries R base rows) k0 = some (R, base + j) := by
  intro rows
  induction rows with
  | nil => intro base _ k0 r0 j hj; cases hj
  | cons kr rest ih =>
    obtain ⟨k, r⟩ := kr
    intro base hnodup k0 r0 j hj hgetj
    have hnodup2 : (k :: rest.map Prod.fst).Nodup := by simpa using hnodup
    have hnd := List.nodup_cons.mp hnodup2
    cases j with
    | zero =>
      have heq : (k, r) = (k0, r0) := hgetj
      injection heq with h1 h2
      subst h1
      show (if k = k then some (R, base)
        else BTreeIndex.search_leaf (idxEntries R (base + 1) rest) k) = some (R, base + 0)
      rw [if_pos rfl]
      rfl
    | succ j' =>
      have hj' : j' < rest.length := by
        simpa using Nat.lt_of_succ_lt_succ hj
      have hgetj' : rest.get ⟨j', hj'⟩ = (k0, r0) := hgetj
      have hmem : (k0, r0) ∈ rest := hgetj' ▸ List.get_mem rest j' hj'
      have hk : k ≠ k0 := by
        intro he
        subst he
        exact hnd.1 (List.mem_map.mpr ⟨(k, r0), hmem, rfl⟩)
      show (if k = k0 then some (R, base)
        else BTreeIndex.search_leaf (idxEntries R (base + 1) rest) k0) =
        some (R, base + (j' + 1))
      rw [if_neg hk]
      rw [ih (base + 1) hnd.2 k0 r0 j' hj' hgetj']
      have harith : base + 1 + j' = base + (j' + 1) := by omega
      rw [harith]

/-- `post_process` with no clauses is the identity on short result lists. -/
theorem post_process_no_clauses (rs : List Json) (h : rs.length ≤ 4294967295) :
    post_process none none none rs = rs := by
  rw [post_process]
  show (rs.drop 0).take 4294967295 = rs
  rw [List.drop_zero]
  exact List.take_of_length_le h

end Executor

namespace Executor

theorem index_key_some (ti : TableInfo) (pkc : ColumnDef) (wc : WhereClause)
    (hfind : ti.columns.find? (fun c => c.primary_key) = some pkc)
    (hcol : wc.column = pkc.name) (hcmp : wc.cmp = "=") :
    index_key ti (some wc) = Json.asU64 wc.value := by
  rw [index_key.eq_def, hfind]
  show (if wc.column = pkc.name ∧ wc.cmp = "=" then Json.asU64 wc.value else none) = _
  rw [if_pos ⟨hcol, hcmp⟩]

theorem select_locator_read_some (st : DbState) (cols : List String) (pid sid : Nat)
    (bs : List Nat) (val : Json)
    (hget : SlottedPage.get_tuple runCodec (st.heap pid) sid = some bs)
    (hbs : bs ≠ []) (hdec : jsonDecode bs = some val) :
    select_locator_read st cols pid sid = .ok [project cols val] := by
  rw [select_locator_read.eq_def, hget]
  show (if bs = [] then RowsOut.ok []
    else match jsonDecode bs with
      | none => RowsOut.err "invalid JSON"
      | some val => RowsOut.ok [project cols val]) = _
  rw [if_neg hbs, hdec]

theorem select_index_path_regime (st : DbState) (ti : TableInfo) (cols : List String)
    (n pid sid : Nat) (E' : List (Nat × BTreeIndex.Locator)) (alloc : Nat)
    (htree : treesGet st.trees ti.index_root_page_id =
      some (BTreeIndex.singleLeaf ti.index_root_page_id E' alloc))
    (hsearch : BTreeIndex.search_leaf E' (n % 2 ^ 32) = some (pid, sid)) :
    select_index_path st ti cols n = select_locator_read st cols pid sid := by
  rw [select_index_path.eq_def, htree]
  show (match BTreeIndex.search (BTreeIndex.singleLeaf ti.index_root_page_id E' alloc)
      (n % 2 ^ 32) with
    | .error e => RowsOut.err e
    | .ok none => RowsOut.ok []
    | .ok (some (pid2, sid2)) => select_locator_read st cols pid2 sid2) = _
  rw [BTreeIndex.search_singleLeaf, hsearch]

theorem scan_chain_zero (fuel : Nat) (heap : Nat → Page) (wc : Option WhereClause)
    (cols : List String) : scan_chain (fuel + 1) heap wc cols 0 = .ok [] := by
  rw [scan_chain.eq_def]
  show (if (0 : Nat) = 0 then RowsOut.ok []
    else match scan_list (heap 0) wc cols (List.range (SlottedPage.num_slots (heap 0))) with
      | .ok rows =>
        match scan_chain fuel heap wc cols (SlottedPage.next_page_id (heap 0)) with
        | .ok rows2 => RowsOut.ok (rows ++ rows2)
        | out => out
      | out => out) = _
  rw [if_pos rfl]

theorem scan_chain_one_page (fuel : Nat) (heap : Nat → Page) (wc : Option WhereClause)
    (cols : List String) (pid : Nat) (rows : List Json)
    (hpid : pid ≠ 0) (hnext : SlottedPage.next_page_id (heap pid) = 0)
    (hscan : scan_list (heap pid) wc cols
      (List.range (SlottedPage.num_slots (heap pid))) = .ok rows) :
    scan_chain (fuel + 2) heap wc cols pid = .ok rows := by
  rw [scan_chain.eq_def]
  show (if pid = 0 then RowsOut.ok []
    else match scan_list (heap pid) wc cols
        (List.range (SlottedPage.num_slots (heap pid))) with
      | .ok rows2 =>
        match scan_chain (fuel + 1) heap wc cols (SlottedPage.next_page_id (heap pid)) with
        | .ok rows3 => RowsOut.ok (rows2 ++ rows3)
        | out => out
      | out => out) = _
  rw [if_neg hpid, hscan]
  show (match scan_chain (fuel + 1) heap wc cols (SlottedPage.next_page_id (heap pid)) with
    | .ok rows3 => RowsOut.ok (rows ++ rows3)
    | out => out) = _
  rw [hnext, scan_chain_zero]
  show RowsOut.ok (rows ++ []) = _
  rw [List.append_nil]

theorem handle_select_index_eq (fuel : Nat) (st : DbState) (q : SelectQuery)
    (ti : TableInfo) (n : Nat)
    (hjoin : q.join = none)
    (hcat : catalogGet st.catalog q.from_ = some ti)
    (hkey : index_key ti q.where_ = some n) :
    handle_select fuel st q = rows_to_result st q (select_index_path st ti q.columns n) := by
  rw [handle_select.eq_def]
  rw [if_neg (by rw [hjoin]; simp)]
  rw [hcat]
  show rows_to_result st q (match index_key ti q.where_ with
    | some int_val => select_index_path st ti q.columns int_val
    | none => scan_chain fuel st.heap q.where_ q.columns ti.root_page_id) = _
  rw [hkey]

theorem handle_select_scan_only_eq (fuel : Nat) (st : DbState) (q : SelectQuery)
    (ti : TableInfo)
    (hjoin : q.join = none)
    (hcat : catalogGet st.catalog q.from_ = some ti) :
    handle_select_scan_only fuel st q =
      rows_to_result st q (scan_chain fuel st.heap q.where_ q.columns ti.root_page_id) := by
  rw [handle_select_scan_only.eq_def]
  rw [if_neg (by rw [hjoin]; simp)]
  rw [hcat]

end Executor

namespace Executor

theorem handle_insert_eq (fuel : Nat) (st : DbState) (q : InsertQuery) (ti : TableInfo)
    (hcat : catalogGet st.catalog q.table = some ti) :
    handle_insert fuel st q = insert_values fuel st ti
      (ti.columns.find? (fun c => c.primary_key)) ti.root_page_id q.values := by
  rw [handle_insert.eq_def, hcat]

/-- The equality `Select` query used by the refinement and truncation
properties: `select cols from T where PN = m`. -/
def eqSelect (db T PN : String) (cols : List String) (m : Nat) : SelectQuery :=
  { database := db, from_ := T, columns := cols,
    where_ := some { column := PN, cmp := "=", value := .int (m : Int) },
    limit := none, offset := none, join := none, order_by := none }

/-- Fresh-table regime: a single `Insert` of `rows` (stored keys paired with
row objects) into an empty table whose rows all fit the root heap page and
whose keys all fit one leaf.  The heap then holds the serialized rows at
slot ids `0, 1, 2, …`, the leaf maps each stored key to its locator, and
every equality `Select` on a `u64` value whose `u32` truncation is the
stored key of row `j` takes the index path and returns exactly row `j`
projected. -/
theorem regime_master (ti : TableInfo) (pkc : ColumnDef) (T db PN : String)
    (cols : List String) (fuel0 fuel1 : Nat) (rows : List (Nat × Json)) (st0 : DbState)
    (alloc : Nat)
    (hcat : catalogGet st0.catalog T = some ti)
    (hfind : ti.columns.find? (fun c => c.primary_key) = some pkc)
    (hpkname : pkc.name = PN)
    (hInv0 : SlottedPage.Inv (st0.heap ti.root_page_id) [])
    (hfse0 : SlottedPage.free_space_end (st0.heap ti.root_page_id) = PAGE_SIZE)
    (hnext0 : SlottedPage.next_page_id (st0.heap ti.root_page_id) = 0)
    (htree0 : treesGet st0.trees ti.index_root_page_id =
      some (BTreeIndex.singleLeaf ti.index_root_page_id [] alloc))
    (hkeys : ∀ kr ∈ rows, ∃ n : Nat, Json.get kr.2 PN = some (.int (n : Int)) ∧
      n < 2 ^ 64 ∧ n % 2 ^ 32 = kr.1)
    (hfit : SlottedPage.HEADER_SIZE + rows.length * SlottedPage.SLOT_SIZE +
      (rows.map (fun kr => storedLen kr.2)).sum ≤ PAGE_SIZE)
    (hcap : rows.length ≤ BTreeIndex.LEAF_ORDER)
    (hnodup : (rows.map Prod.fst).Nodup) :
    ∃ st1, handle_insert (fuel0 + 1) st0 ⟨db, T, rows.map Prod.snd⟩ =
        (.ok (.message "Inserted"), st1) ∧
      st1.catalog = st0.catalog ∧
      SlottedPage.Inv (st1.heap ti.root_page_id)
        (rows.map (fun kr => some (SlottedPage.storedOf runCodec (jsonEncode kr.2)))) ∧
      SlottedPage.next_page_id (st1.heap ti.root_page_id) = 0 ∧
      SlottedPage.num_slots (st1.heap ti.root_page_id) = rows.length ∧
      (∀ j (hj : j < rows.length), SlottedPage.get_tuple runCodec
        (st1.heap ti.root_page_id) j = some (jsonEncode (rows.get ⟨j, hj⟩).2)) ∧
      (∃ E', treesGet st1.trees ti.index_root_page_id =
          some (BTreeIndex.singleLeaf ti.index_root_page_id E' alloc) ∧
        (∀ j (hj : j < rows.length),
          BTreeIndex.search_leaf E' (rows.get ⟨j, hj⟩).1 =
            some (ti.root_page_id, j))) ∧
      (∀ j (hj : j < rows.length) (m : Nat), m < 2 ^ 64 →
        m % 2 ^ 32 = (rows.get ⟨j, hj⟩).1 →
        handle_select (fuel1 + 2) st1 (eqSelect db T PN cols m) =
          (.ok (.json (.arr [project cols (rows.get ⟨j, hj⟩).2])), st1)) := by
  have hkeys' : ∀ kr ∈ rows, ∃ n : Nat, Json.get kr.2 pkc.name =
      some (.int (n : Int)) ∧ n < 2 ^ 64 ∧ n % 2 ^ 32 = kr.1 := by
    rw [hpkname]
    exact hkeys
  obtain ⟨st1, hrun, hcat', hnpid', hInv', hfse', hnext', E', htree', hlen', hsearch'⟩ :=
    insert_values_regime ti pkc ti.root_page_id fuel0 rows st0 [] [] alloc
      hInv0 (by rw [hfse0]; rfl) htree0 hkeys'
      (by simpa using hfit) (by simpa using hcap)
      (fun kr _ => rfl) hnodup
  have hrun2 : handle_insert (fuel0 + 1) st0 ⟨db, T, rows.map Prod.snd⟩ =
      (.ok (.message "Inserted"), st1) := by
    rw [handle_insert_eq (fuel0 + 1) st0 _ ti hcat, hfind]
    exact hrun
  have hInv1 : SlottedPage.Inv (st1.heap ti.root_page_id)
      (rows.map (fun kr => some (SlottedPage.storedOf runCodec (jsonEncode kr.2)))) := by
    simpa using hInv'
  have hnext1 : SlottedPage.next_page_id (st1.heap ti.root_page_id) = 0 := by
    rw [hnext']
    exact hnext0
  have hnum1 : SlottedPage.num_slots (st1.heap ti.root_page_id) = rows.length := by
    have := hInv1.numEq
    simpa using this
  have hget1 : ∀ j (hj : j < rows.length), SlottedPage.get_tuple runCodec
      (st1.heap ti.root_page_id) j = some (jsonEncode (rows.get ⟨j, hj⟩).2) := by
    intro j hj
    rw [SlottedPage.get_tuple_of_inv runCodec _ _ hInv1 j]
    have hjm : j < (rows.map
        (fun kr => some (SlottedPage.storedOf runCodec (jsonEncode kr.2)))).length := by
      simpa using hj
    rw [SlottedPage.getD_eq_get _ j hjm]
    have hgm : (rows.map
        (fun kr => some (SlottedPage.storedOf runCodec (jsonEncode kr.2)))).get ⟨j, hjm⟩ =
        some (SlottedPage.storedOf runCodec (jsonEncode (rows.get ⟨j, hj⟩).2)) := by
      simp
    rw [hgm]
    show SlottedPage.interpStored runCodec
      (SlottedPage.storedOf runCodec (jsonEncode (rows.get ⟨j, hj⟩).2)) = _
    rw [SlottedPage.interpStored_storedOf runCodec runCodec_lawful]
  have hsearch1 : ∀ j (hj : j < rows.length),
      BTreeIndex.search_leaf E' (rows.get ⟨j, hj⟩).1 = some (ti.root_page_id, j) := by
    intro j hj
    rw [hsearch' (rows.get ⟨j, hj⟩).1]
    have hidx := idxEntries_search ti.root_page_id rows 0 hnodup
      (rows.get ⟨j, hj⟩).1 (rows.get ⟨j, hj⟩).2 j hj rfl
    show (match BTreeIndex.search_leaf ([] : List (Nat × BTreeIndex.Locator))
        (rows.get ⟨j, hj⟩).1 with
      | some v => some v
      | none => BTreeIndex.search_leaf (idxEntries ti.root_page_id 0 rows)
          (rows.get ⟨j, hj⟩).1) = _
    show BTreeIndex.search_leaf (idxEntries ti.root_page_id 0 rows)
      (rows.get ⟨j, hj⟩).1 = _
    rw [hidx]
    have h0 : 0 + j = j := by omega
    rw [h0]
  refine ⟨st1, hrun2, hcat', hInv1, hnext1, hnum1, hget1, ⟨E', htree', hsearch1⟩, ?_⟩
  intro j hj m hm64 hmtr
  have hcat1 : catalogGet st1.catalog T = some ti := by
    rw [hcat']
    exact hcat
  have hkey : index_key ti (eqSelect db T PN cols m).where_ = some m := by
    show index_key ti (some { column := PN, cmp := "=", value := .int (m : Int) }) = some m
    rw [index_key_some ti pkc _ hfind (by rw [hpkname]) rfl]
    exact asU64_natCast m hm64
  rw [handle_select_index_eq _ _ _ ti m rfl hcat1 hkey]
  show rows_to_result st1 (eqSelect db T PN cols m)
    (select_index_path st1 ti cols m) = _
  have hsearchm : BTreeIndex.search_leaf E' (m % 2 ^ 32) = some (ti.root_page_id, j) := by
    rw [hmtr]
    exact hsearch1 j hj
  rw [select_index_path_regime st1 ti cols m ti.root_page_id j E' alloc htree' hsearchm]
  rw [select_locator_read_some st1 cols ti.root_page_id j _ _ (hget1 j hj)
    (jsonEncode_ne_nil _) (jsonDecode_jsonEncode _)]
  rw [rows_to_result]
  show (ExecOutcome.ok (.json (.arr (post_process none none none
    [project cols (rows.get ⟨j, hj⟩).2]))), st1) = _
  rw [post_process_no_clauses _ (by norm_num)]

end Executor

namespace Executor

/-- Fresh-table regime, heap-scan side: the full scan with the same equality
clause finds exactly the row whose primary-key field equals the queried
value. -/
theorem scan_select_regime (st1 : DbState) (ti : TableInfo) (T db PN : String)
    (cols : List String) (fuel : Nat) (rows : List (Nat × Json)) (k0 : Nat) (r0 : Json)
    (hcat1 : catalogGet st1.catalog T = some ti)
    (hR0 : ti.root_page_id ≠ 0)
    (hnext1 : SlottedPage.next_page_id (st1.heap ti.root_page_id) = 0)
    (hnum1 : SlottedPage.num_slots (st1.heap ti.root_page_id) = rows.length)
    (hget1 : ∀ j (hj : j < rows.length), SlottedPage.get_tuple runCodec
      (st1.heap ti.root_page_id) j = some (jsonEncode (rows.get ⟨j, hj⟩).2))
    (hfields : ∀ kr ∈ rows, Json.get kr.2 PN = some (.int (kr.1 : Int)))
    (hnodup : (rows.map Prod.fst).Nodup)
    (hmem : (k0, r0) ∈ rows) :
    handle_select_scan_only (fuel + 2) st1 (eqSelect db T PN cols k0) =
      (.ok (.json (.arr [project cols r0])), st1) := by
  rw [handle_select_scan_only_eq _ _ _ ti rfl hcat1]
  show rows_to_result st1 (eqSelect db T PN cols k0)
    (scan_chain (fuel + 2) st1.heap (some ⟨PN, "=", .int (k0 : Int)⟩) cols
      ti.root_page_id) = _
  have hscan : scan_list (st1.heap ti.root_page_id)
      (some ⟨PN, "=", .int (k0 : Int)⟩) cols
      (List.range (SlottedPage.num_slots (st1.heap ti.root_page_id))) =
      .ok [project cols r0] := by
    rw [hnum1, List.range_eq_range']
    have hgetm : ∀ j (h : j < (rows.map Prod.snd).length),
        SlottedPage.get_tuple runCodec (st1.heap ti.root_page_id) (0 + j) =
          some (jsonEncode ((rows.map Prod.snd).get ⟨j, h⟩)) := by
      intro j h
      have hj : j < rows.length := by simpa using h
      have hz : 0 + j = j := by omega
      rw [hz]
      have hgm : (rows.map Prod.snd).get ⟨j, h⟩ = (rows.get ⟨j, hj⟩).2 := by
        simp
      rw [hgm]
      exact hget1 j hj
    have hnp : ∀ r ∈ rows.map Prod.snd,
        scan_filter (some ⟨PN, "=", .int (k0 : Int)⟩) r ≠ none := by
      intro r hr
      obtain ⟨kr, hkr, rfl⟩ := List.mem_map.mp hr
      rw [scan_filter_some, check_filter_eq _ PN _ _ (hfields kr hkr)]
      simp
    have hslr := scan_list_rows (st1.heap ti.root_page_id)
      (some ⟨PN, "=", .int (k0 : Int)⟩) cols (rows.map Prod.snd) 0 hgetm hnp
    simp only [List.length_map] at hslr
    rw [hslr, filter_pk_single PN k0 rows r0 hfields hnodup hmem]
    rfl
  rw [scan_chain_one_page fuel st1.heap _ cols ti.root_page_id [project cols r0]
    hR0 hnext1 hscan]
  rw [rows_to_result]
  show (ExecOutcome.ok (.json (.arr (post_process none none none
    [project cols r0]))), st1) = _
  rw [post_process_no_clauses _ (by norm_num)]

end Executor

/-! ## Test fixtures for the closed instances -/

/-- A one-table catalog entry: integer primary key `id`, heap root page 2,
index root page 3. -/
def testTable : TableInfo :=
  { name := "t", root_page_id := 2, index_root_page_id := 3,
    columns := [{ name := "id", col_type := "int", primary_key := true,
                  unique := false, nullable := false }] }

/-- The state right after `create_table t`: initialized heap root page and
empty index, allocator past the two fresh pages. -/
def freshState : DbState :=
  { catalog := [("t", testTable)],
    heap := fun i => if i = 2 then SlottedPage.init (Page.new 2) else Page.new i,
    trees := [(3, BTreeIndex.initBTree 3)],
    next_page_id := 4 }

/-- A state with no tables at all. -/
def emptyState : DbState :=
  { catalog := [], heap := fun i => Page.new i, trees := [], next_page_id := 2 }

/-- A page whose single slot stores a tuple with compression flag 1 whose
body `[5]` is not decodable. -/
def C5page : Page :=
  { id := 0,
    data := memWriteBytes
      (writeU16 (writeU16 (writeU16 (fun _ => 0) 0 1) 8 8190) 10 2) 8190 [1, 5],
    dirty := false }

/-! ## The claims -/

/-- **C7.** Select post-processing: the executor applies `order_by`, then
`offset`, then `limit`, in that order, and its comparator is exactly the
spec's cascade (strings lexicographically, else doubles numerically, else
signed integers, else equal; a row with the ordering field absent sorts
after one where it is present; `DESC` reverses). -/
theorem claim_C7 (ob : Option OrderByClause) (off lim : Option Nat) (rs : List Json) :
    Executor.post_process ob off lim rs = Executor.spec_post_process ob off lim rs := by
  rw [Executor.post_process.eq_def, Executor.spec_post_process.eq_def]
  cases ob with
  | none => rfl
  | some o =>
    have hsort : Executor.sort_results o rs = Executor.spec_sort_results o rs := by
      rw [Executor.sort_results, Executor.spec_sort_results]
      have hle : (fun a b => decide (Executor.order_cmp o a b ≠ Ordering.gt)) =
          (fun a b => decide (Executor.spec_order_cmp o a b ≠ Ordering.gt)) := by
        funext a b
        rw [Executor.order_cmp_eq_spec]
      rw [hle]
    show List.take (lim.getD 4294967295)
        (List.drop (off.getD 0) (Executor.sort_results o rs)) =
      List.take (lim.getD 4294967295)
        (List.drop (off.getD 0) (Executor.spec_sort_results o rs))
    rw [hsort]

/-- **C6.** The spec's `LIKE` comparator table says a pattern with `%` at
both ends matches by containment — but on the one-character pattern `"%"`
(which starts and ends with `%`) the code slices `&pattern[1..0]` and
panics: `check_filter` is partial, refuting the claimed total semantics on
any row whose compared field is a string. -/
theorem claim_C6 (row : Json) (c s : String)
    (h : Json.get row c = some (.str s)) :
    Executor.check_filter row ⟨c, "LIKE", .str "%"⟩ = none := by
  rw [Executor.check_filter, h]
  rfl

theorem claim_C6_witness :
    Json.get (.obj [("name", .str "x")]) "name" = some (.str "x") ∧
    Executor.check_filter (.obj [("name", .str "x")]) ⟨"name", "LIKE", .str "%"⟩ =
      none :=
  ⟨rfl, claim_C6 (.obj [("name", .str "x")]) "name" "x" rfl⟩

/-- **C10.** Batch error behaviour: when the sub-queries before `q` succeed
(reaching `st1`) and `q` fails with `e`, the whole `Batch` returns exactly
`Err e` — the collected results of the successful prefix are discarded —
while the returned state is the one reached after the failing attempt: the
storage effects of the prefix are kept, nothing is rolled back. -/
theorem claim_C10 (fuel : Nat) (qs1 : List Query) (q : Query) (qs2 : List Query)
    (st st1 st2 : DbState) (vs : List Json) (e : String)
    (h1 : Executor.batch_results fuel st qs1 = (.ok vs, st1))
    (h2 : Executor.execute fuel st1 q = (.err e, st2)) :
    Executor.execute (fuel + 1) st (.batch (qs1 ++ q :: qs2)) = (.err e, st2) := by
  rw [Executor.batch_results] at h1
  rw [Executor.execute]
  rw [Executor.batchGo_append_err (Executor.execute fuel) qs1 st st1 st2 vs q qs2 e h1 h2]

theorem claim_C10_witness :
    Executor.batch_results 1 emptyState [.createTable ⟨"main", "t", []⟩] =
      (.ok [Json.str "Table t created"],
        (Executor.batch_results 1 emptyState [.createTable ⟨"main", "t", []⟩]).2) ∧
    Executor.execute 1 (Executor.batch_results 1 emptyState
        [.createTable ⟨"main", "t", []⟩]).2 (.dropTable ⟨"main", "nope"⟩) =
      (.err "Table nope not found",
        (Executor.batch_results 1 emptyState [.createTable ⟨"main", "t", []⟩]).2) ∧
    Executor.execute 2 emptyState
        (.batch ([.createTable ⟨"main", "t", []⟩] ++ .dropTable ⟨"main", "nope"⟩ :: [])) =
      (.err "Table nope not found",
        (Executor.batch_results 1 emptyState [.createTable ⟨"main", "t", []⟩]).2) :=
  ⟨rfl, rfl, claim_C10 1 [.createTable ⟨"main", "t", []⟩] (.dropTable ⟨"main", "nope"⟩)
    [] emptyState _ _ [Json.str "Table t created"] "Table nope not found" rfl rfl⟩

/-- **C9.** `mark_deleted` zeroes exactly the four directory bytes of the
slot and no other byte, and leaves the page's `dirty` flag untouched —
while a successful `insert_tuple`, a successful `update_tuple`, and
`compact` all set `dirty`. -/
theorem claim_C9 (p : Page) (i : Nat) (hi : i < SlottedPage.num_slots p) :
    (∃ p', SlottedPage.mark_deleted p i = (.ok (), p') ∧
      p'.dirty = p.dirty ∧ p'.id = p.id ∧
      (∀ a, SlottedPage.slotPos i ≤ a → a < SlottedPage.slotPos i + SlottedPage.SLOT_SIZE →
        readByte p'.data a = 0) ∧
      (∀ a, a < SlottedPage.slotPos i ∨ SlottedPage.slotPos i + SlottedPage.SLOT_SIZE ≤ a →
        readByte p'.data a = readByte p.data a)) ∧
    (∀ (C : Codec) (data : List Nat) (sid : Nat),
      (SlottedPage.insert_tuple C p data).1 = .ok sid →
      (SlottedPage.insert_tuple C p data).2.dirty = true) ∧
    (∀ (C : Codec) (sid : Nat) (data : List Nat),
      (SlottedPage.update_tuple C p sid data).1 = .ok () →
      (SlottedPage.update_tuple C p sid data).2.dirty = true) ∧
    (SlottedPage.compact p).dirty = true := by
  refine ⟨SlottedPage.mark_deleted_frame p i hi, ?_, ?_, SlottedPage.compact_dirty p⟩
  · intro C data sid h
    exact SlottedPage.insert_tuple_dirty C p data sid h
  · intro C sid data h
    exact SlottedPage.update_tuple_dirty C p sid data h

theorem claim_C9_witness :
    0 < SlottedPage.num_slots (SlottedPage.set_num_slots (Page.new 0) 1) ∧
    ((∃ p', SlottedPage.mark_deleted (SlottedPage.set_num_slots (Page.new 0) 1) 0 =
        (.ok (), p') ∧
      p'.dirty = (SlottedPage.set_num_slots (Page.new 0) 1).dirty ∧
      p'.id = (SlottedPage.set_num_slots (Page.new 0) 1).id ∧
      (∀ a, SlottedPage.slotPos 0 ≤ a → a < SlottedPage.slotPos 0 + SlottedPage.SLOT_SIZE →
        readByte p'.data a = 0) ∧
      (∀ a, a < SlottedPage.slotPos 0 ∨ SlottedPage.slotPos 0 + SlottedPage.SLOT_SIZE ≤ a →
        readByte p'.data a =
          readByte (SlottedPage.set_num_slots (Page.new 0) 1).data a)) ∧
    (∀ (C : Codec) (data : List Nat) (sid : Nat),
      (SlottedPage.insert_tuple C (SlottedPage.set_num_slots (Page.new 0) 1) data).1 =
        .ok sid →
      (SlottedPage.insert_tuple C (SlottedPage.set_num_slots (Page.new 0) 1) data).2.dirty =
        true) ∧
    (∀ (C : Codec) (sid : Nat) (data : List Nat),
      (SlottedPage.update_tuple C (SlottedPage.set_num_slots (Page.new 0) 1) sid data).1 =
        .ok () →
      (SlottedPage.update_tuple C (SlottedPage.set_num_slots (Page.new 0) 1) sid
        data).2.dirty = true) ∧
    (SlottedPage.compact (SlottedPage.set_num_slots (Page.new 0) 1)).dirty = true) :=
  ⟨by decide, claim_C9 (SlottedPage.set_num_slots (Page.new 0) 1) 0 (by decide)⟩

/-- **C3.** Slotted-page round trip: on any page with enough free space,
`insert_tuple` returns the next slot id and `get_tuple` on it returns
exactly the inserted bytes — for every byte string, including the empty one
and ones longer than 64 bytes (where compression is attempted, kept only if
strictly smaller, and recorded in the 1-byte flag the codec model carries). -/
theorem claim_C3 (C : Codec) (hC : C.Lawful) (p : Page) (data : List Nat)
    (hfseP : SlottedPage.free_space_end p ≤ PAGE_SIZE)
    (hspace : data.length + 1 + SlottedPage.SLOT_SIZE ≤ SlottedPage.free_space p)
    (hb : ∀ b ∈ data, b < 256) :
    (SlottedPage.insert_tuple C p data).1 = .ok (SlottedPage.num_slots p) ∧
    SlottedPage.get_tuple C (SlottedPage.insert_tuple C p data).2
      (SlottedPage.num_slots p) = some data :=
  SlottedPage.insert_get_roundtrip C hC p data hfseP hspace hb

theorem claim_C3_witness :
    Codec.Lawful runCodec ∧
    (List.replicate 100 7).length + 1 + SlottedPage.SLOT_SIZE ≤
      SlottedPage.free_space (SlottedPage.init (Page.new 0)) ∧
    ((SlottedPage.insert_tuple runCodec (SlottedPage.init (Page.new 0))
        (List.replicate 100 7)).1 =
      .ok (SlottedPage.num_slots (SlottedPage.init (Page.new 0))) ∧
    SlottedPage.get_tuple runCodec (SlottedPage.insert_tuple runCodec
        (SlottedPage.init (Page.new 0)) (List.replicate 100 7)).2
      (SlottedPage.num_slots (SlottedPage.init (Page.new 0))) =
      some (List.replicate 100 7)) :=
  ⟨runCodec_lawful, by decide,
    claim_C3 runCodec runCodec_lawful (SlottedPage.init (Page.new 0))
      (List.replicate 100 7) (by decide) (by decide) (by decide)⟩

/-- **C4.** Slot-id stability: starting from an initialized page, any
interleaving of inserts, deletions, and compactions returns slot ids
`0, 1, 2, …` in order for the successful inserts, and afterwards every slot
id resolves exactly as in the reference slot list — a live slot to the very
bytes inserted, a tombstoned (or never-allocated) one to `none`; deleting a
slot changes no other slot's answer, because the reference list is updated
pointwise. -/
theorem claim_C4 (C : Codec) (hC : C.Lawful) (p : Page) (ops : List SlottedPage.SlotOp)
    (hb : ∀ data, SlottedPage.SlotOp.ins data ∈ ops → ∀ b ∈ data, b < 256) :
    (SlottedPage.runOps C (SlottedPage.init p) ops).2 =
      List.range' 0 (SlottedPage.refRun C [] ops).length ∧
    ∀ i, SlottedPage.get_tuple C (SlottedPage.runOps C (SlottedPage.init p) ops).1 i =
      (SlottedPage.refRun C [] ops).getD i none := by
  obtain ⟨hInv', hids⟩ := SlottedPage.runOps_inv C hC ops (SlottedPage.init p) []
    (by simpa using (SlottedPage.init_inv p).1) hb
  constructor
  · rw [hids]
    simp
  · intro i
    rw [SlottedPage.get_tuple_of_inv C _ _ hInv' i, SlottedPage.getD_map_storedOf]
    cases hE : (SlottedPage.refRun C [] ops).getD i none
    · rfl
    · show SlottedPage.interpStored C (SlottedPage.storedOf C _) = _
      rw [SlottedPage.interpStored_storedOf C hC]

theorem claim_C4_witness :
    Codec.Lawful runCodec ∧
    ((SlottedPage.runOps runCodec (SlottedPage.init (Page.new 0))
        [.ins [1, 2], .ins [], .del 0, .compactOp]).2 =
      List.range' 0 (SlottedPage.refRun runCodec []
        [.ins [1, 2], .ins [], .del 0, .compactOp]).length ∧
    ∀ i, SlottedPage.get_tuple runCodec (SlottedPage.runOps runCodec
        (SlottedPage.init (Page.new 0)) [.ins [1, 2], .ins [], .del 0, .compactOp]).1 i =
      (SlottedPage.refRun runCodec []
        [.ins [1, 2], .ins [], .del 0, .compactOp]).getD i none) :=
  ⟨runCodec_lawful,
    claim_C4 runCodec runCodec_lawful (Page.new 0)
      [.ins [1, 2], .ins [], .del 0, .compactOp]
      (by
        intro data hmem b hbm
        simp at hmem
        rcases hmem with h | h <;> subst h <;> simp at hbm <;> omega)⟩

/-- **C5.** Corrected: a stored tuple whose flag byte is 1 and whose body
fails zstd decoding makes `get_tuple` return `none` — exactly the value it
returns for an out-of-range or tombstoned slot.  No corrupt-page signal
reaches the executor (the scan loops silently skip a `None` slot), so the
three conditions are indistinguishable to the caller. -/
theorem claim_C5 (C : Codec) (p : Page) (i : Nat)
    (hi : i < SlottedPage.num_slots p)
    (hoff : readU16 p.data (SlottedPage.slotPos i) ≠ 0)
    (hbound : readU16 p.data (SlottedPage.slotPos i) +
      readU16 p.data (SlottedPage.slotPos i + 2) ≤ PAGE_SIZE)
    (hlen0 : readU16 p.data (SlottedPage.slotPos i + 2) ≠ 0)
    (hflag : readByte p.data (readU16 p.data (SlottedPage.slotPos i)) = 1)
    (hdec : C.decompress (readBytes p.data (readU16 p.data (SlottedPage.slotPos i) + 1)
      (readU16 p.data (SlottedPage.slotPos i + 2) - 1)) = none) :
    SlottedPage.get_tuple C p i = none ∧
    (∀ j, j ≥ SlottedPage.num_slots p → SlottedPage.get_tuple C p j = none) ∧
    (∀ j, j < SlottedPage.num_slots p → readU16 p.data (SlottedPage.slotPos j) = 0 →
      SlottedPage.get_tuple C p j = none) := by
  refine ⟨SlottedPage.get_tuple_decode_failure_none C p i hi hoff hbound hlen0 hflag hdec,
    ?_, ?_⟩
  · intro j hj
    exact SlottedPage.get_tuple_out_of_range C p j hj
  · intro j hj hz
    exact SlottedPage.get_tuple_tombstone C p j hj hz

theorem claim_C5_witness :
    runCodec.decompress (readBytes C5page.data
      (readU16 C5page.data (SlottedPage.slotPos 0) + 1)
      (readU16 C5page.data (SlottedPage.slotPos 0 + 2) - 1)) = none ∧
    (SlottedPage.get_tuple runCodec C5page 0 = none ∧
    (∀ j, j ≥ SlottedPage.num_slots C5page →
      SlottedPage.get_tuple runCodec C5page j = none) ∧
    (∀ j, j < SlottedPage.num_slots C5page →
      readU16 C5page.data (SlottedPage.slotPos j) = 0 →
      SlottedPage.get_tuple runCodec C5page j = none)) :=
  ⟨by decide,
    claim_C5 runCodec C5page 0 (by decide) (by decide) (by decide) (by decide)
      (by decide) (by decide)⟩

/-- The spec says a decoder error on read "surfaces as a corrupt-page
signal"; on this concrete page, the corrupt slot 0 (flag byte 1, undecodable
body `[5]`) and the out-of-range slot 1 produce the identical answer
`none`. -/
theorem claim_C5_counterexample :
    SlottedPage.get_tuple runCodec C5page 0 = none ∧
    SlottedPage.get_tuple runCodec C5page 1 = none := by
  constructor
  · rfl
  · rfl

/-- **C1.** Corrected: the ordered-map property holds for insert sequences
that fit in the root leaf (at most `LEAF_ORDER = 818` inserts with
pairwise-distinct keys): `search` then finds exactly the inserted value of
each key and `none` for any key never inserted.  The original claim's
"in particular … sequences longer than LEAF_ORDER" clause is false: the
819th insert splits the root and fails (see the counterexample). -/
theorem claim_C1 (root : Nat) (ps : List (Nat × BTreeIndex.Locator))
    (hlen : ps.length ≤ BTreeIndex.LEAF_ORDER)
    (hnodup : (ps.map Prod.fst).Nodup) :
    ∃ t', BTreeIndex.insertList (BTreeIndex.initBTree root) ps = (.ok (), t') ∧
      (∀ k v, (k, v) ∈ ps → BTreeIndex.search t' k = .ok (some v)) ∧
      (∀ k, k ∉ ps.map Prod.fst → BTreeIndex.search t' k = .ok none) := by
  obtain ⟨E', hrun, hElen, hEsearch⟩ := BTreeIndex.insertList_singleLeaf root (root + 1)
    ps [] (by simpa using hlen) (fun k _ => rfl) hnodup
  refine ⟨BTreeIndex.singleLeaf root E' (root + 1), hrun, ?_, ?_⟩
  · intro k v hmem
    rw [BTreeIndex.search_singleLeaf, hEsearch k]
    show Except.ok (BTreeIndex.search_leaf ps k) = .ok (some v)
    rw [BTreeIndex.search_leaf_of_mem ps hnodup k v hmem]
  · intro k hk
    rw [BTreeIndex.search_singleLeaf, hEsearch k]
    show Except.ok (BTreeIndex.search_leaf ps k) = .ok none
    rw [(BTreeIndex.search_leaf_none_iff ps k).mpr hk]

theorem claim_C1_witness :
    ([(5, ((2, 0) : BTreeIndex.Locator)), (3, (2, 1))].map Prod.fst).Nodup ∧
    (∃ t', BTreeIndex.insertList (BTreeIndex.initBTree 2)
        [(5, ((2, 0) : BTreeIndex.Locator)), (3, (2, 1))] = (.ok (), t') ∧
      (∀ k v, (k, v) ∈ [(5, ((2, 0) : BTreeIndex.Locator)), (3, (2, 1))] →
        BTreeIndex.search t' k = .ok (some v)) ∧
      (∀ k, k ∉ [(5, ((2, 0) : BTreeIndex.Locator)), (3, (2, 1))].map Prod.fst →
        BTreeIndex.search t' k = .ok none)) :=
  ⟨by decide, claim_C1 2 [(5, (2, 0)), (3, (2, 1))] (by decide) (by decide)⟩

/-- 819 inserts with descending, pairwise-distinct keys `818, 817, …, 0`. -/
def C1ps : List (Nat × BTreeIndex.Locator) :=
  (List.range 819).map (fun i => (818 - i, (1, i)))

set_option maxRecDepth 2000 in
set_option maxHeartbeats 4000000 in
/-- The original C1 clause about sequences longer than `LEAF_ORDER` is
false: the 819th insert finds the root leaf full, splits it, and returns
`Err "Index split not fully implemented"` — and the 819th key (0) is
dropped: searching it in the resulting tree yields `none` even though it
was inserted with pairwise-distinct keys. -/
theorem claim_C1_counterexample :
    BTreeIndex.LEAF_ORDER < C1ps.length ∧
    (C1ps.map Prod.fst).Nodup ∧
    (BTreeIndex.insertList (BTreeIndex.initBTree 2) C1ps).1 =
      .error "Index split not fully implemented" ∧
    BTreeIndex.search (BTreeIndex.insertList (BTreeIndex.initBTree 2) C1ps).2 0 =
      .ok none := by
  refine ⟨?_, ?_, ?_, ?_⟩
  · have hlen : C1ps.length = 819 := by simp [C1ps]
    rw [hlen]
    decide
  · have hkeys : C1ps.map Prod.fst = (List.range 819).map (fun i => 818 - i) := by
      rw [C1ps, List.map_map]
      rfl
    rw [hkeys]
    refine List.Nodup.map_on ?_ (List.nodup_range 819)
    intro x hx y hy hxy
    simp [List.mem_range] at hx hy
    omega
  · rfl
  · rfl

/-- **C2.** Corrected: the index path refines the heap scan in the
truncation-free regime — fresh table, every primary key `< 2^32` and
pairwise distinct, everything on the root heap page and in the root leaf.
Then for each inserted row, the equality `Select` on its key gives the same
answer on the index path (`handle_select`) as on the pure heap-scan path,
namely exactly that row projected.  Outside this regime the two paths
disagree (see the counterexample): keys are truncated `as u32`, so two rows
whose keys collide mod `2^32` share one index entry while the scan still
distinguishes them. -/
theorem claim_C2 (ti : TableInfo) (pkc : ColumnDef) (T db PN : String)
    (cols : List String) (fuel0 fuel1 : Nat) (rows : List (Nat × Json)) (st0 : DbState)
    (alloc : Nat)
    (hcat : Executor.catalogGet st0.catalog T = some ti)
    (hfind : ti.columns.find? (fun c => c.primary_key) = some pkc)
    (hpkname : pkc.name = PN)
    (hR0 : ti.root_page_id ≠ 0)
    (hInv0 : SlottedPage.Inv (st0.heap ti.root_page_id) [])
    (hfse0 : SlottedPage.free_space_end (st0.heap ti.root_page_id) = PAGE_SIZE)
    (hnext0 : SlottedPage.next_page_id (st0.heap ti.root_page_id) = 0)
    (htree0 : Executor.treesGet st0.trees ti.index_root_page_id =
      some (BTreeIndex.singleLeaf ti.index_root_page_id [] alloc))
    (hkeys : ∀ kr ∈ rows, Json.get kr.2 PN = some (.int (kr.1 : Int)) ∧ kr.1 < 2 ^ 32)
    (hfit : SlottedPage.HEADER_SIZE + rows.length * SlottedPage.SLOT_SIZE +
      (rows.map (fun kr => Executor.storedLen kr.2)).sum ≤ PAGE_SIZE)
    (hcap : rows.length ≤ BTreeIndex.LEAF_ORDER)
    (hnodup : (rows.map Prod.fst).Nodup) :
    ∃ st1, Executor.handle_insert (fuel0 + 1) st0 ⟨db, T, rows.map Prod.snd⟩ =
        (.ok (.message "Inserted"), st1) ∧
      ∀ j (hj : j < rows.length),
        Executor.handle_select (fuel1 + 2) st1
            (Executor.eqSelect db T PN cols (rows.get ⟨j, hj⟩).1) =
          Executor.handle_select_scan_only (fuel1 + 2) st1
            (Executor.eqSelect db T PN cols (rows.get ⟨j, hj⟩).1) ∧
        Executor.handle_select (fuel1 + 2) st1
            (Executor.eqSelect db T PN cols (rows.get ⟨j, hj⟩).1) =
          (.ok (.json (.arr [Executor.project cols (rows.get ⟨j, hj⟩).2])), st1) := by
  obtain ⟨st1, hins, hcat', hInv1, hnext1, hnum1, hget1, ⟨E', htreeE, hsearchE⟩, hsel⟩ :=
    Executor.regime_master ti pkc T db PN cols fuel0 fuel1 rows st0 alloc
      hcat hfind hpkname hInv0 hfse0 hnext0 htree0
      (fun kr hm => ⟨kr.1, (hkeys kr hm).1, by
          have := (hkeys kr hm).2
          omega,
        Nat.mod_eq_of_lt (hkeys kr hm).2⟩)
      hfit hcap hnodup
  refine ⟨st1, hins, ?_⟩
  intro j hj
  have hmemj : ((rows.get ⟨j, hj⟩).1, (rows.get ⟨j, hj⟩).2) ∈ rows :=
    List.get_mem rows j hj
  have hkj := hkeys _ hmemj
  have hidx := hsel j hj (rows.get ⟨j, hj⟩).1 (by
      have := hkj.2
      omega)
    (Nat.mod_eq_of_lt hkj.2)
  have hcat1 : Executor.catalogGet st1.catalog T = some ti := by
    rw [hcat']
    exact hcat
  have hscan := Executor.scan_select_regime st1 ti T db PN cols fuel1 rows
    (rows.get ⟨j, hj⟩).1 (rows.get ⟨j, hj⟩).2 hcat1 hR0 hnext1 hnum1 hget1
    (fun kr hm => (hkeys kr hm).1) hnodup hmemj
  exact ⟨hidx.trans hscan.symm, hidx⟩

def C2rows : List (Nat × Json) :=
  [(1, .obj [("id", .int 1)]), (2, .obj [("id", .int 2)])]

theorem claim_C2_witness :
    (C2rows.map Prod.fst).Nodup ∧
    (∃ st1, Executor.handle_insert 1 freshState ⟨"main", "t", C2rows.map Prod.snd⟩ =
        (.ok (.message "Inserted"), st1) ∧
      ∀ j (hj : j < C2rows.length),
        Executor.handle_select 3 st1
            (Executor.eqSelect "main" "t" "id" ["*"] (C2rows.get ⟨j, hj⟩).1) =
          Executor.handle_select_scan_only 3 st1
            (Executor.eqSelect "main" "t" "id" ["*"] (C2rows.get ⟨j, hj⟩).1) ∧
        Executor.handle_select 3 st1
            (Executor.eqSelect "main" "t" "id" ["*"] (C2rows.get ⟨j, hj⟩).1) =
          (.ok (.json (.arr [Executor.project ["*"] (C2rows.get ⟨j, hj⟩).2])), st1)) :=
  ⟨by decide,
    claim_C2 testTable { name := "id", col_type := "int", primary_key := true, unique := false, nullable := false } "t" "main" "id" ["*"] 0 1 C2rows
      freshState 4 rfl rfl rfl (by decide) (SlottedPage.init_inv (Page.new 2)).1
      (by decide) (by decide) rfl (by decide) (by decide) (by decide) (by decide)⟩

def C2rowBig : Json := .obj [("id", .int 4294967297)]

def C2rowSmall : Json := .obj [("id", .int 1)]

def C2st1 : DbState :=
  (Executor.handle_insert 3 freshState ⟨"main", "t", [C2rowBig, C2rowSmall]⟩).2

/-- Outside the `< 2^32` regime the original C2 is false: primary keys `1`
and `2^32 + 1` collide after the `as u32` truncation, so after inserting
the colliding rows, `select * where id = 1` returns the WRONG row (the one
whose `id` is `2^32 + 1`) on the index path, while the heap scan with the
same clause returns the row whose `id` really is `1`. -/
theorem claim_C2_counterexample :
    (Executor.handle_insert 3 freshState ⟨"main", "t", [C2rowBig, C2rowSmall]⟩).1 =
      .ok (.message "Inserted") ∧
    (Executor.handle_select 3 C2st1 (Executor.eqSelect "main" "t" "id" ["*"] 1)).1 =
      .ok (.json (.arr [C2rowBig])) ∧
    (Executor.handle_select_scan_only 3 C2st1
      (Executor.eqSelect "main" "t" "id" ["*"] 1)).1 =
      .ok (.json (.arr [C2rowSmall])) ∧
    C2rowBig ≠ C2rowSmall := by
  refine ⟨rfl, rfl, rfl, by decide⟩

/-- **C8.** Primary-key index keys are truncated modulo `2^32`: inserting a
row whose `u64` primary key `n` exceeds `u32::MAX` still adds a B+ tree
entry — under the truncated key `n % 2^32` — and an equality `Select` on
the oversized value `n` still takes the index path with the same truncated
key and returns the row. -/
theorem claim_C8 (ti : TableInfo) (pkc : ColumnDef) (T db PN : String)
    (cols : List String) (fuel0 fuel1 : Nat) (st0 : DbState) (alloc n : Nat) (row : Json)
    (hcat : Executor.catalogGet st0.catalog T = some ti)
    (hfind : ti.columns.find? (fun c => c.primary_key) = some pkc)
    (hpkname : pkc.name = PN)
    (hInv0 : SlottedPage.Inv (st0.heap ti.root_page_id) [])
    (hfse0 : SlottedPage.free_space_end (st0.heap ti.root_page_id) = PAGE_SIZE)
    (hnext0 : SlottedPage.next_page_id (st0.heap ti.root_page_id) = 0)
    (htree0 : Executor.treesGet st0.trees ti.index_root_page_id =
      some (BTreeIndex.singleLeaf ti.index_root_page_id [] alloc))
    (hn_lo : 2 ^ 32 ≤ n) (hn_hi : n < 2 ^ 64)
    (hrow : Json.get row PN = some (.int (n : Int)))
    (hfit : SlottedPage.HEADER_SIZE + SlottedPage.SLOT_SIZE +
      Executor.storedLen row ≤ PAGE_SIZE) :
    ∃ st1, Executor.handle_insert (fuel0 + 1) st0 ⟨db, T, [row]⟩ =
        (.ok (.message "Inserted"), st1) ∧
      (∃ E', Executor.treesGet st1.trees ti.index_root_page_id =
          some (BTreeIndex.singleLeaf ti.index_root_page_id E' alloc) ∧
        BTreeIndex.search (BTreeIndex.singleLeaf ti.index_root_page_id E' alloc)
          (n % 2 ^ 32) = .ok (some (ti.root_page_id, 0))) ∧
      Executor.handle_select (fuel1 + 2) st1 (Executor.eqSelect db T PN cols n) =
        (.ok (.json (.arr [Executor.project cols row])), st1) := by
  obtain ⟨st1, hins, hcat', hInv1, hnext1, hnum1, hget1, ⟨E', htreeE, hsearchE⟩, hsel⟩ :=
    Executor.regime_master ti pkc T db PN cols fuel0 fuel1 [(n % 2 ^ 32, row)] st0 alloc
      hcat hfind hpkname hInv0 hfse0 hnext0 htree0
      (by
        intro kr hmem
        simp at hmem
        subst hmem
        exact ⟨n, hrow, hn_hi, rfl⟩)
      (by simpa using hfit)
      (by show (1 : Nat) ≤ BTreeIndex.LEAF_ORDER; decide)
      (by simp)
  refine ⟨st1, hins, ⟨E', htreeE, ?_⟩, ?_⟩
  · rw [BTreeIndex.search_singleLeaf]
    exact congrArg Except.ok (hsearchE 0 (by simp))
  · exact hsel 0 (by simp) n hn_hi rfl

theorem claim_C8_witness :
    2 ^ 32 ≤ 4294967303 ∧
    (∃ st1, Executor.handle_insert 1 freshState
        ⟨"main", "t", [.obj [("id", .int 4294967303)]]⟩ =
        (.ok (.message "Inserted"), st1) ∧
      (∃ E', Executor.treesGet st1.trees testTable.index_root_page_id =
          some (BTreeIndex.singleLeaf testTable.index_root_page_id E' 4) ∧
        BTreeIndex.search (BTreeIndex.singleLeaf testTable.index_root_page_id E' 4)
          (4294967303 % 2 ^ 32) = .ok (some (testTable.root_page_id, 0))) ∧
      Executor.handle_select 3 st1 (Executor.eqSelect "main" "t" "id" ["*"] 4294967303) =
        (.ok (.json (.arr [Executor.project ["*"] (.obj [("id", .int 4294967303)])])),
          st1)) :=
  ⟨by decide,
    claim_C8 testTable { name := "id", col_type := "int", primary_key := true, unique := false, nullable := false } "t" "main" "id" ["*"] 0 1 freshState 4
      4294967303 (.obj [("id", .int 4294967303)]) rfl rfl rfl
      (SlottedPage.init_inv (Page.new 2)).1 (by decide) (by decide) rfl
      (by decide) (by decide) rfl (by decide)⟩
